import Mathlib

/-!
ast-search: classification of sync-primitive declarations and uses

A shallow embedding of `ast-search.go`.  The analysis walks the syntax tree of one Go
source file twice: the first walk records which names are declared with one of the
`sync` primitive types, the second walk classifies every selector named like one of the
eight primitive operations by looking its receiver text up in the recorded declarations.

Conventions of the embedding

* Go `string` values are Lean `String`s.  The only byte-level operations of the source are
  `strings.Split(target, ".")` and `target[:len(target)-2]`; the separator and the removed
  suffix `.L` are ASCII, so working on characters instead of bytes gives the same results.
  The index `parts[len(parts)-1]` and the slice are also given as the partial operations
  `indexAt` and `sliceTo` (the latter on the UTF-8 bytes), with `none` for a run-time panic.
* The counters are Go `int`s that start at zero for every file and grow by one per visited
  syntax node, so they cannot reach `2^63`; they are natural numbers here.
* `fmt.Printf` logging has no influence on the state and is left out.
* `map[string][]Declaration` is an association list with unique keys.
* `go/ast`, `ast.Walk` and `go/printer` belong to the Go standard library: the tree type
  `Node` and `preorder` follow `go/ast`, and the printer is a parameter of the visitor.
-/

namespace AstSearch

/-! ## Data model (`ast-search.go` lines 25-103) -/

/-- The `DeclType` enumeration of the source (`iota` constants 0..6). -/
inductive DeclType where
  | WaitGroup
  | Cond
  | Once
  | Mutex
  | RWMutex
  | Locker
  | Unknown
  deriving DecidableEq, Repr

/-- The `Declaration` struct: a name bound to a primitive type. -/
structure Declaration where
  name : String
  typeof : DeclType
  deriving DecidableEq, Repr

/-- The constructor function `createDecl`. -/
def createDecl (target : String) (typeof : DeclType) : Declaration :=
  { name := target, typeof := typeof }

/-- The `Counts` struct, fields in source order. -/
structure Counts where
  waitGroupDecls : Nat := 0
  condDecls : Nat := 0
  onceDecls : Nat := 0
  mutexDecls : Nat := 0
  rwMutexDecls : Nat := 0
  lockerDecls : Nat := 0
  waitGroupDone : Nat := 0
  waitGroupAdd : Nat := 0
  waitGroupWait : Nat := 0
  mutexLock : Nat := 0
  mutexUnlock : Nat := 0
  rwMutexLock : Nat := 0
  rwMutexUnlock : Nat := 0
  lockerLock : Nat := 0
  lockerUnlock : Nat := 0
  condLock : Nat := 0
  condUnlock : Nat := 0
  condWait : Nat := 0
  condSignal : Nat := 0
  condBroadcast : Nat := 0
  condNew : Nat := 0
  onceDo : Nat := 0
  unknownDone : Nat := 0
  unknownAdd : Nat := 0
  unknownWait : Nat := 0
  unknownLock : Nat := 0
  unknownUnlock : Nat := 0
  unknownSignal : Nat := 0
  unknownBroadcast : Nat := 0
  unknownDo : Nat := 0
  deriving DecidableEq, Repr

/-- Go map type `map[string][]Declaration` as an association list. -/
abbrev DeclMap := List (String × List Declaration)

/-- Map lookup `vs, ok := m[k]`: `none` stands for `ok == false`. -/
def mapGet : DeclMap → String → Option (List Declaration)
  | [], _ => none
  | (k1, v) :: rest, k => if k1 = k then some v else mapGet rest k

/-- Map assignment `m[k] = v`: replaces the entry of an existing key, adds a new key otherwise. -/
def mapSet : DeclMap → String → List Declaration → DeclMap
  | [], k, v => [(k, v)]
  | (k1, v1) :: rest, k, v => if k1 = k then (k, v) :: rest else (k1, v1) :: mapSet rest k v

/-- The `AnalysisState` struct; the zero value of `processFile` is the default. -/
structure AnalysisState where
  decls : DeclMap := []
  counts : Counts := {}
  deriving DecidableEq, Repr

namespace AnalysisState

/-- Method `addDecl` (lines 105-123): appends the declaration under its name unless a
declaration of the same type is already listed there. -/
def addDecl (s : AnalysisState) (declaration : Declaration) : AnalysisState :=
  match mapGet s.decls declaration.name with
  | some ds =>
    let foundDecl := ds.any (fun d => decide (d.typeof = declaration.typeof))
    if !foundDecl then
      { s with decls := mapSet s.decls declaration.name (ds ++ [declaration]) }
    else s
  | none => { s with decls := mapSet s.decls declaration.name ([] ++ [declaration]) }

/-! ### The thirty single-cell increments (lines 125-243) -/

/-- Method `addWaitGroupDecl`. -/
def addWaitGroupDecl (s : AnalysisState) : AnalysisState :=
  { s with counts := { s.counts with waitGroupDecls := s.counts.waitGroupDecls + 1 } }

/-- Method `addCondDecl`. -/
def addCondDecl (s : AnalysisState) : AnalysisState :=
  { s with counts := { s.counts with condDecls := s.counts.condDecls + 1 } }

/-- Method `addOnceDecl`. -/
def addOnceDecl (s : AnalysisState) : AnalysisState :=
  { s with counts := { s.counts with onceDecls := s.counts.onceDecls + 1 } }

/-- Method `addMutexDecl`. -/
def addMutexDecl (s : AnalysisState) : AnalysisState :=
  { s with counts := { s.counts with mutexDecls := s.counts.mutexDecls + 1 } }

/-- Method `addRWMutexDecl`. -/
def addRWMutexDecl (s : AnalysisState) : AnalysisState :=
  { s with counts := { s.counts with rwMutexDecls := s.counts.rwMutexDecls + 1 } }

/-- Method `addLockerDecl`. -/
def addLockerDecl (s : AnalysisState) : AnalysisState :=
  { s with counts := { s.counts with lockerDecls := s.counts.lockerDecls + 1 } }

/-- Method `addWaitGroupDone`. -/
def addWaitGroupDone (s : AnalysisState) : AnalysisState :=
  { s with counts := { s.counts with waitGroupDone := s.counts.waitGroupDone + 1 } }

/-- Method `addWaitGroupAdd`. -/
def addWaitGroupAdd (s : AnalysisState) : AnalysisState :=
  { s with counts := { s.counts with waitGroupAdd := s.counts.waitGroupAdd + 1 } }

/-- Method `addWaitGroupWait`. -/
def addWaitGroupWait (s : AnalysisState) : AnalysisState :=
  { s with counts := { s.counts with waitGroupWait := s.counts.waitGroupWait + 1 } }

/-- Method `addMutexLock`. -/
def addMutexLock (s : AnalysisState) : AnalysisState :=
  { s with counts := { s.counts with mutexLock := s.counts.mutexLock + 1 } }

/-- Method `addMutexUnlock`. -/
def addMutexUnlock (s : AnalysisState) : AnalysisState :=
  { s with counts := { s.counts with mutexUnlock := s.counts.mutexUnlock + 1 } }

/-- Method `addRWMutexLock`. -/
def addRWMutexLock (s : AnalysisState) : AnalysisState :=
  { s with counts := { s.counts with rwMutexLock := s.counts.rwMutexLock + 1 } }

/-- Method `addRWMutexUnlock`. -/
def addRWMutexUnlock (s : AnalysisState) : AnalysisState :=
  { s with counts := { s.counts with rwMutexUnlock := s.counts.rwMutexUnlock + 1 } }

/-- Method `addLockerLock`. -/
def addLockerLock (s : AnalysisState) : AnalysisState :=
  { s with counts := { s.counts with lockerLock := s.counts.lockerLock + 1 } }

/-- Method `addLockerUnlock`. -/
def addLockerUnlock (s : AnalysisState) : AnalysisState :=
  { s with counts := { s.counts with lockerUnlock := s.counts.lockerUnlock + 1 } }

/-- Method `addCondLock`. -/
def addCondLock (s : AnalysisState) : AnalysisState :=
  { s with counts := { s.counts with condLock := s.counts.condLock + 1 } }

/-- Method `addCondUnlock`. -/
def addCondUnlock (s : AnalysisState) : AnalysisState :=
  { s with counts := { s.counts with condUnlock := s.counts.condUnlock + 1 } }

/-- Method `addCondWait`. -/
def addCondWait (s : AnalysisState) : AnalysisState :=
  { s with counts := { s.counts with condWait := s.counts.condWait + 1 } }

/-- Method `addCondSignal`. -/
def addCondSignal (s : AnalysisState) : AnalysisState :=
  { s with counts := { s.counts with condSignal := s.counts.condSignal + 1 } }

/-- Method `addCondBroadcast`. -/
def addCondBroadcast (s : AnalysisState) : AnalysisState :=
  { s with counts := { s.counts with condBroadcast := s.counts.condBroadcast + 1 } }

/-- Method `addCondNew`. -/
def addCondNew (s : AnalysisState) : AnalysisState :=
  { s with counts := { s.counts with condNew := s.counts.condNew + 1 } }

/-- Method `addOnceDo`. -/
def addOnceDo (s : AnalysisState) : AnalysisState :=
  { s with counts := { s.counts with onceDo := s.counts.onceDo + 1 } }

/-- Method `addUnknownDone`. -/
def addUnknownDone (s : AnalysisState) : AnalysisState :=
  { s with counts := { s.counts with unknownDone := s.counts.unknownDone + 1 } }

/-- Method `addUnknownAdd`. -/
def addUnknownAdd (s : AnalysisState) : AnalysisState :=
  { s with counts := { s.counts with unknownAdd := s.counts.unknownAdd + 1 } }

/-- Method `addUnknownWait`. -/
def addUnknownWait (s : AnalysisState) : AnalysisState :=
  { s with counts := { s.counts with unknownWait := s.counts.unknownWait + 1 } }

/-- Method `addUnknownLock`. -/
def addUnknownLock (s : AnalysisState) : AnalysisState :=
  { s with counts := { s.counts with unknownLock := s.counts.unknownLock + 1 } }

/-- Method `addUnknownUnlock`. -/
def addUnknownUnlock (s : AnalysisState) : AnalysisState :=
  { s with counts := { s.counts with unknownUnlock := s.counts.unknownUnlock + 1 } }

/-- Method `addUnknownSignal`. -/
def addUnknownSignal (s : AnalysisState) : AnalysisState :=
  { s with counts := { s.counts with unknownSignal := s.counts.unknownSignal + 1 } }

/-- Method `addUnknownBroadcast`. -/
def addUnknownBroadcast (s : AnalysisState) : AnalysisState :=
  { s with counts := { s.counts with unknownBroadcast := s.counts.unknownBroadcast + 1 } }

/-- Method `addUnknownDo`. -/
def addUnknownDo (s : AnalysisState) : AnalysisState :=
  { s with counts := { s.counts with unknownDo := s.counts.unknownDo + 1 } }

end AnalysisState

/-! ## Receiver text helpers (lines 245-253) -/

/-- Segments of a character list cut at every occurrence of `sep`; the result is never
empty, as for `strings.Split` with a non-empty separator. -/
def splitChars (sep : Char) : List Char → List (List Char)
  | [] => [[]]
  | c :: cs =>
    if c = sep then [] :: splitChars sep cs
    else
      match splitChars sep cs with
      | [] => [[c]]
      | p :: ps => (c :: p) :: ps

/-- The call `strings.Split(target, ".")`. -/
def stringsSplitDot (target : String) : List String :=
  (splitChars '.' target.data).map String.mk

/-- Function `splitTarget`: `parts[len(parts)-1]`, the last dotted segment. -/
def splitTarget (target : String) : String :=
  let parts := stringsSplitDot target
  parts.getLastD ""

/-- Function `targetPieces`: the number of dotted segments. -/
def targetPieces (target : String) : Nat :=
  let parts := stringsSplitDot target
  parts.length

/-- The slice expression `target[:len(target)-2]`. -/
def dropLastTwo (target : String) : String :=
  String.mk (target.data.take (target.data.length - 2))

/-- Lines 360-364 of `addLock` (identically 395-399 of `addUnlock`): the name that the
lock operations look up.  The trailing `.L` is cut off when the whole text is not a key,
has more than one segment and its last segment is `L`; then the last segment is taken. -/
def lockTarget (s : AnalysisState) (target : String) : String :=
  let ok := (mapGet s.decls target).isSome
  let target :=
    if !ok && decide (targetPieces target > 1) && decide (splitTarget target = "L") then
      dropLastTwo target
    else target
  splitTarget target

namespace AnalysisState

/-! ### The eight classification routines (lines 290-493) -/

/-- Method `addDone`. -/
def addDone (s : AnalysisState) (target : String) : AnalysisState :=
  let target := splitTarget target
  match mapGet s.decls target with
  | some [d] => if d.typeof = DeclType.WaitGroup then s.addWaitGroupDone else s.addUnknownDone
  | some _ => s.addUnknownDone
  | none => s.addUnknownDone

/-- Method `addAdd`. -/
def addAdd (s : AnalysisState) (target : String) : AnalysisState :=
  let target := splitTarget target
  match mapGet s.decls target with
  | some [d] => if d.typeof = DeclType.WaitGroup then s.addWaitGroupAdd else s.addUnknownAdd
  | some _ => s.addUnknownAdd
  | none => s.addUnknownAdd

/-- Method `addWait`. -/
def addWait (s : AnalysisState) (target : String) : AnalysisState :=
  let target := splitTarget target
  match mapGet s.decls target with
  | some [d] =>
    if d.typeof = DeclType.WaitGroup then s.addWaitGroupWait
    else if d.typeof = DeclType.Cond then s.addCondWait
    else s.addUnknownWait
  | some _ => s.addUnknownWait
  | none => s.addUnknownWait

/-- Method `addLock`. -/
def addLock (s : AnalysisState) (target : String) : AnalysisState :=
  let target := lockTarget s target
  match mapGet s.decls target with
  | some [d] =>
    if d.typeof = DeclType.Cond then s.addCondLock
    else if d.typeof = DeclType.Mutex then s.addMutexLock
    else if d.typeof = DeclType.RWMutex then s.addRWMutexLock
    else if d.typeof = DeclType.Locker then s.addLockerLock
    else s.addUnknownLock
  | some _ => s.addUnknownLock
  | none => s.addUnknownLock

/-- Method `addUnlock`. -/
def addUnlock (s : AnalysisState) (target : String) : AnalysisState :=
  let target := lockTarget s target
  match mapGet s.decls target with
  | some [d] =>
    if d.typeof = DeclType.Cond then s.addCondUnlock
    else if d.typeof = DeclType.Mutex then s.addMutexUnlock
    else if d.typeof = DeclType.RWMutex then s.addRWMutexUnlock
    else if d.typeof = DeclType.Locker then s.addLockerUnlock
    else s.addUnknownUnlock
  | some _ => s.addUnknownUnlock
  | none => s.addUnknownUnlock

/-- Method `addSignal`. -/
def addSignal (s : AnalysisState) (target : String) : AnalysisState :=
  let target := splitTarget target
  match mapGet s.decls target with
  | some [d] => if d.typeof = DeclType.Cond then s.addCondSignal else s.addUnknownSignal
  | some _ => s.addUnknownSignal
  | none => s.addUnknownSignal

/-- Method `addBroadcast`. -/
def addBroadcast (s : AnalysisState) (target : String) : AnalysisState :=
  let target := splitTarget target
  match mapGet s.decls target with
  | some [d] => if d.typeof = DeclType.Cond then s.addCondBroadcast else s.addUnknownBroadcast
  | some _ => s.addUnknownBroadcast
  | none => s.addUnknownBroadcast

/-- Method `addDo`. -/
def addDo (s : AnalysisState) (target : String) : AnalysisState :=
  let target := splitTarget target
  match mapGet s.decls target with
  | some [d] => if d.typeof = DeclType.Once then s.addOnceDo else s.addUnknownDo
  | some _ => s.addUnknownDo
  | none => s.addUnknownDo

end AnalysisState

/-! ## Syntax trees (`go/ast`) -/

/-- The node types of `go/ast` that occur in the analysed programs, with the fields that
`ast.Walk` and the analysis read.  Identifier-typed fields (`Sel`, `Names`, `Name`) hold
the identifier name; optional fields hold `none` for a Go `nil`. -/
inductive Node where
  | Ident (name : String)
  | BasicLit (value : String)
  | SelectorExpr (x : Node) (sel : String)
  | StarExpr (x : Node)
  | UnaryExpr (op : String) (x : Node)
  | BinaryExpr (x : Node) (op : String) (y : Node)
  | ParenExpr (x : Node)
  | IndexExpr (x : Node) (index : Node)
  | CallExpr (fn : Node) (args : List Node)
  | FuncLit (type : Node) (body : Node)
  | CompositeLit (type : Option Node) (elts : List Node)
  | FuncType (params : Option Node) (results : Option Node)
  | StructType (fields : Node)
  | FieldList (list : List Node)
  | Field (names : List String) (type : Option Node)
  | ExprStmt (x : Node)
  | AssignStmt (lhs : List Node) (rhs : List Node)
  | DeclStmt (decl : Node)
  | GoStmt (call : Node)
  | DeferStmt (call : Node)
  | ReturnStmt (results : List Node)
  | BlockStmt (list : List Node)
  | IfStmt (init : Option Node) (cond : Node) (body : Node) (els : Option Node)
  | ForStmt (init : Option Node) (cond : Option Node) (post : Option Node) (body : Node)
  | RangeStmt (key : Option Node) (value : Option Node) (x : Node) (body : Node)
  | ImportSpec (path : String)
  | ValueSpec (names : List String) (type : Option Node) (values : List Node)
  | TypeSpec (name : String) (type : Node)
  | GenDecl (specs : List Node)
  | FuncDecl (recv : Option Node) (name : String) (type : Node) (body : Option Node)
  | File (name : String) (decls : List Node)

mutual
/-- The nodes of a tree in the order in which `ast.Walk` hands them to `Visit`
(depth first, a node before its children, children in the field order of `walk.go`). -/
def preorder : Node → List Node
  | .Ident name => [.Ident name]
  | .BasicLit value => [.BasicLit value]
  | .SelectorExpr x sel => .SelectorExpr x sel :: (preorder x ++ [.Ident sel])
  | .StarExpr x => .StarExpr x :: preorder x
  | .UnaryExpr op x => .UnaryExpr op x :: preorder x
  | .BinaryExpr x op y => .BinaryExpr x op y :: (preorder x ++ preorder y)
  | .ParenExpr x => .ParenExpr x :: preorder x
  | .IndexExpr x index => .IndexExpr x index :: (preorder x ++ preorder index)
  | .CallExpr fn args => .CallExpr fn args :: (preorder fn ++ preorderList args)
  | .FuncLit type body => .FuncLit type body :: (preorder type ++ preorder body)
  | .CompositeLit type elts =>
    .CompositeLit type elts :: (preorderOpt type ++ preorderList elts)
  | .FuncType params results =>
    .FuncType params results :: (preorderOpt params ++ preorderOpt results)
  | .StructType fields => .StructType fields :: preorder fields
  | .FieldList list => .FieldList list :: preorderList list
  | .Field names type => .Field names type :: (names.map Node.Ident ++ preorderOpt type)
  | .ExprStmt x => .ExprStmt x :: preorder x
  | .AssignStmt lhs rhs => .AssignStmt lhs rhs :: (preorderList lhs ++ preorderList rhs)
  | .DeclStmt decl => .DeclStmt decl :: preorder decl
  | .GoStmt call => .GoStmt call :: preorder call
  | .DeferStmt call => .DeferStmt call :: preorder call
  | .ReturnStmt results => .ReturnStmt results :: preorderList results
  | .BlockStmt list => .BlockStmt list :: preorderList list
  | .IfStmt init cond body els =>
    .IfStmt init cond body els ::
      (preorderOpt init ++ preorder cond ++ preorder body ++ preorderOpt els)
  | .ForStmt init cond post body =>
    .ForStmt init cond post body ::
      (preorderOpt init ++ preorderOpt cond ++ preorderOpt post ++ preorder body)
  | .RangeStmt key value x body =>
    .RangeStmt key value x body ::
      (preorderOpt key ++ preorderOpt value ++ preorder x ++ preorder body)
  | .ImportSpec path => [.ImportSpec path, .BasicLit path]
  | .ValueSpec names type values =>
    .ValueSpec names type values ::
      (names.map Node.Ident ++ preorderOpt type ++ preorderList values)
  | .TypeSpec name type => .TypeSpec name type :: (.Ident name :: preorder type)
  | .GenDecl specs => .GenDecl specs :: preorderList specs
  | .FuncDecl recv name type body =>
    .FuncDecl recv name type body ::
      (preorderOpt recv ++ [.Ident name] ++ preorder type ++ preorderOpt body)
  | .File name decls => .File name decls :: (.Ident name :: preorderList decls)
/-- The helper `walkList` of `walk.go`. -/
def preorderList : List Node → List Node
  | [] => []
  | n :: ns => preorder n ++ preorderList ns
/-- An optional child: walked only when it is not `nil`. -/
def preorderOpt : Option Node → List Node
  | none => []
  | some n => preorder n
end

/-! ## The visitor (lines 575-1068) -/

/-- The `Visitor` struct.  `fprint` stands for `printer.Fprint(&buf, v.fset, e)` followed by
`buf.String()`: the source text of an expression as `go/printer` renders it. -/
structure Visitor where
  fprint : Node → String
  mode : Bool
  state : AnalysisState

/-- Method `addDef`. -/
def Visitor.addDef (v : Visitor) (d : Declaration) : Visitor :=
  { v with state := v.state.addDecl d }

/-- The loop body shared by the `match*Decl` functions: for every name of a value spec
whose type is written `sync.<typeName>`, add the declaration and bump the counter. -/
def matchSpecNames (typeName : String) (typeof : DeclType)
    (bump : AnalysisState → AnalysisState) (spec : Node) (v : Visitor) : Visitor :=
  match spec with
  | .ValueSpec names type _ =>
    names.foldl (fun v id =>
      match type with
      | some (.SelectorExpr (.Ident tsel) tname) =>
        if tsel = "sync" ∧ tname = typeName then
          let v := v.addDef (createDecl id typeof)
          { v with state := bump v.state }
        else v
      | _ => v) v
  | _ => v

/-- Function `matchWaitGroupDecl`; `specs` is `x.Specs`. -/
def matchWaitGroupDecl (specs : List Node) (v : Visitor) : Visitor :=
  specs.foldl (fun v spec =>
    matchSpecNames "WaitGroup" .WaitGroup AnalysisState.addWaitGroupDecl spec v) v

/-- Function `matchMutexDecl`. -/
def matchMutexDecl (specs : List Node) (v : Visitor) : Visitor :=
  specs.foldl (fun v spec =>
    matchSpecNames "Mutex" .Mutex AnalysisState.addMutexDecl spec v) v

/-- Function `matchRWMutexDecl`. -/
def matchRWMutexDecl (specs : List Node) (v : Visitor) : Visitor :=
  specs.foldl (fun v spec =>
    matchSpecNames "RWMutex" .RWMutex AnalysisState.addRWMutexDecl spec v) v

/-- Function `matchLockerDecl`: unlike its siblings it reads `x.Specs[0]` only. -/
def matchLockerDecl (specs : List Node) (v : Visitor) : Visitor :=
  match specs with
  | [] => v
  | spec :: _ => matchSpecNames "Locker" .Locker AnalysisState.addLockerDecl spec v

/-- Function `matchOnceDecl`. -/
def matchOnceDecl (specs : List Node) (v : Visitor) : Visitor :=
  specs.foldl (fun v spec =>
    matchSpecNames "Once" .Once AnalysisState.addOnceDecl spec v) v

/-- Function `matchCondDecl`. -/
def matchCondDecl (specs : List Node) (v : Visitor) : Visitor :=
  specs.foldl (fun v spec =>
    matchSpecNames "Cond" .Cond AnalysisState.addCondDecl spec v) v

/-- Function `getFieldType` applied to `x.Type`: the selector expression itself, or the
selector expression under one `*`; `none` is the `nil` result. -/
def getFieldType (type : Option Node) : Option (Node × String) :=
  match type with
  | some (.SelectorExpr x sel) => some (x, sel)
  | some (.StarExpr (.SelectorExpr x sel)) => some (x, sel)
  | _ => none

/-- The body shared by the `match*ParamDecl` functions; `names` and `type` are `x.Names`
and `x.Type` of the field. -/
def matchFieldNames (typeName : String) (typeof : DeclType)
    (bump : AnalysisState → AnalysisState) (names : List String) (type : Option Node)
    (v : Visitor) : Visitor :=
  names.foldl (fun v fieldName =>
    match getFieldType type with
    | some (.Ident tsel, sel) =>
      if tsel = "sync" ∧ sel = typeName then
        let v := v.addDef (createDecl fieldName typeof)
        { v with state := bump v.state }
      else v
    | _ => v) v

/-- Function `matchWaitGroupParamDecl`. -/
def matchWaitGroupParamDecl (names : List String) (type : Option Node) (v : Visitor) :
    Visitor :=
  matchFieldNames "WaitGroup" .WaitGroup AnalysisState.addWaitGroupDecl names type v

/-- Function `matchMutexParamDecl`. -/
def matchMutexParamDecl (names : List String) (type : Option Node) (v : Visitor) : Visitor :=
  matchFieldNames "Mutex" .Mutex AnalysisState.addMutexDecl names type v

/-- Function `matchRWMutexParamDecl`. -/
def matchRWMutexParamDecl (names : List String) (type : Option Node) (v : Visitor) :
    Visitor :=
  matchFieldNames "RWMutex" .RWMutex AnalysisState.addRWMutexDecl names type v

/-- Function `matchLockerParamDecl`. -/
def matchLockerParamDecl (names : List String) (type : Option Node) (v : Visitor) : Visitor :=
  matchFieldNames "Locker" .Locker AnalysisState.addLockerDecl names type v

/-- Function `matchOnceParamDecl`. -/
def matchOnceParamDecl (names : List String) (type : Option Node) (v : Visitor) : Visitor :=
  matchFieldNames "Once" .Once AnalysisState.addOnceDecl names type v

/-- Function `matchCondParamDecl`. -/
def matchCondParamDecl (names : List String) (type : Option Node) (v : Visitor) : Visitor :=
  matchFieldNames "Cond" .Cond AnalysisState.addCondDecl names type v

/-- Function `matchCondAssignDecl`; `lhs` and `rhs` are `x.Lhs` and `x.Rhs`.  Every
right-hand side that is a call of `sync.NewCond` records `x.Lhs[0]` when that is an
identifier (the parser never builds an assignment with an empty left-hand side). -/
def matchCondAssignDecl (lhs rhs : List Node) (v : Visitor) : Visitor :=
  rhs.foldl (fun v r =>
    match r with
    | .CallExpr (.SelectorExpr (.Ident tid) sel) _ =>
      if tid = "sync" ∧ sel = "NewCond" then
        match lhs.head? with
        | some (.Ident id) =>
          let v := v.addDef (createDecl id .Cond)
          { v with state := v.state.addCondDecl }
        | _ => v
      else v
    | _ => v) v

/-- Function `matchDone`; `x` and `sel` are `x.X` and `x.Sel.Name` of the selector. -/
def matchDone (x : Node) (sel : String) (v : Visitor) : Visitor :=
  if sel = "Done" then { v with state := v.state.addDone (v.fprint x) } else v

/-- Function `matchAdd`. -/
def matchAdd (x : Node) (sel : String) (v : Visitor) : Visitor :=
  if sel = "Add" then { v with state := v.state.addAdd (v.fprint x) } else v

/-- Function `matchLock`. -/
def matchLock (x : Node) (sel : String) (v : Visitor) : Visitor :=
  if sel = "Lock" then { v with state := v.state.addLock (v.fprint x) } else v

/-- Function `matchUnlock`. -/
def matchUnlock (x : Node) (sel : String) (v : Visitor) : Visitor :=
  if sel = "Unlock" then { v with state := v.state.addUnlock (v.fprint x) } else v

/-- Function `matchWait`. -/
def matchWait (x : Node) (sel : String) (v : Visitor) : Visitor :=
  if sel = "Wait" then { v with state := v.state.addWait (v.fprint x) } else v

/-- Function `matchSignal`. -/
def matchSignal (x : Node) (sel : String) (v : Visitor) : Visitor :=
  if sel = "Signal" then { v with state := v.state.addSignal (v.fprint x) } else v

/-- Function `matchBroadcast`. -/
def matchBroadcast (x : Node) (sel : String) (v : Visitor) : Visitor :=
  if sel = "Broadcast" then { v with state := v.state.addBroadcast (v.fprint x) } else v

/-- Function `matchDo`. -/
def matchDo (x : Node) (sel : String) (v : Visitor) : Visitor :=
  if sel = "Do" then { v with state := v.state.addDo (v.fprint x) } else v

/-- Function `matchNewCond`; `fn` is `x.Fun` of the call. -/
def matchNewCond (fn : Node) (v : Visitor) : Visitor :=
  match fn with
  | .SelectorExpr (.Ident targetName) funName =>
    if funName = "NewCond" ∧ targetName = "sync" then
      { v with state := v.state.addCondNew }
    else v
  | _ => v

/-- Method `Visit` on a node that is not `nil`.  The Go method returns the visitor itself
for every such node, so `ast.Walk` descends into all children; the result here is the
visitor with the updated state.  (`Visit(nil)` returns `nil` and changes nothing.) -/
def Visitor.Visit (v : Visitor) (n : Node) : Visitor :=
  if v.mode then
    match n with
    | .GenDecl specs =>
      let v := matchWaitGroupDecl specs v
      let v := matchMutexDecl specs v
      let v := matchRWMutexDecl specs v
      let v := matchLockerDecl specs v
      let v := matchOnceDecl specs v
      matchCondDecl specs v
    | .Field names type =>
      let v := matchWaitGroupParamDecl names type v
      let v := matchMutexParamDecl names type v
      let v := matchRWMutexParamDecl names type v
      let v := matchLockerParamDecl names type v
      let v := matchOnceParamDecl names type v
      matchCondParamDecl names type v
    | .AssignStmt lhs rhs => matchCondAssignDecl lhs rhs v
    | _ => v
  else
    match n with
    | .CallExpr fn _ => matchNewCond fn v
    | .SelectorExpr x sel =>
      let v := matchDone x sel v
      let v := matchAdd x sel v
      let v := matchWait x sel v
      let v := matchLock x sel v
      let v := matchUnlock x sel v
      let v := matchSignal x sel v
      let v := matchBroadcast x sel v
      matchDo x sel v
    | _ => v

/-- The call `ast.Walk(v, node)`: `Visit` on every node of the tree in walk order. -/
def Walk (v : Visitor) (node : Node) : Visitor :=
  (preorder node).foldl Visitor.Visit v

/-- Function `processFile` between parsing and writing the CSV row: a fresh state, the
declaration walk (`mode: true`), then the usage walk (`mode: false`) on the same state. -/
def processFile (fprint : Node → String) (file : Node) : AnalysisState :=
  let fileState : AnalysisState := { decls := [] }
  let declVisitor : Visitor := { fprint := fprint, mode := true, state := fileState }
  let declVisitor := Walk declVisitor file
  let usesVisitor : Visitor := { fprint := fprint, mode := false, state := declVisitor.state }
  (Walk usesVisitor file).state

/-- A printer for receiver expressions built from identifiers, selectors, `*`, parentheses,
unary operators and literals, which `go/printer` renders by plain concatenation.  Other
expression forms are outside its domain and give the empty text. -/
def printNode : Node → String
  | .Ident name => name
  | .BasicLit value => value
  | .SelectorExpr x sel => printNode x ++ "." ++ sel
  | .StarExpr x => "*" ++ printNode x
  | .ParenExpr x => "(" ++ printNode x ++ ")"
  | .UnaryExpr op x => op ++ printNode x
  | _ => ""

/-! ## Sample units -/

/-- The selector expression `sync.<name>`. -/
def syncSel (name : String) : Node := .SelectorExpr (.Ident "sync") name

/-- A method call statement `<recv>.<method>(<args>)`. -/
def callStmt (recv : Node) (method : String) (args : List Node) : Node :=
  .ExprStmt (.CallExpr (.SelectorExpr recv method) args)

/-- A function declaration `func <name>() { <body> }`. -/
def funcDecl (name : String) (body : List Node) : Node :=
  .FuncDecl none name (.FuncType (some (.FieldList [])) none) (some (.BlockStmt body))

/-- The declaration statement `var <name> sync.<typeName>`. -/
def varDecl (name typeName : String) : Node :=
  .DeclStmt (.GenDecl [.ValueSpec [name] (some (syncSel typeName)) []])

/-- The import declaration `import "sync"`. -/
def importSync : Node := .GenDecl [.ImportSpec "\"sync\""]

/-- Unit: `var wg sync.WaitGroup`, `wg.Add(1)`, `wg.Done()` inside a function literal launched
with `go`, and `wg.Wait()`,
inside `func main()`. -/
def waitGroupUnit : Node :=
  .File "main" [importSync,
    funcDecl "main" [
      varDecl "wg" "WaitGroup",
      callStmt (.Ident "wg") "Add" [.BasicLit "1"],
      .GoStmt (.CallExpr
        (.FuncLit (.FuncType (some (.FieldList [])) none)
          (.BlockStmt [callStmt (.Ident "wg") "Done" []])) []),
      callStmt (.Ident "wg") "Wait" []]]

/-- The call `sync.NewCond(&mu)`. -/
def newCondCall : Node := .CallExpr (syncSel "NewCond") [.UnaryExpr "&" (.Ident "mu")]

/-- Unit: `var mu sync.Mutex; var c = sync.NewCond(&mu); c.L.Lock(); c.L.Unlock()`
inside `func main()`. -/
def condVarUnit : Node :=
  .File "main" [importSync,
    funcDecl "main" [
      varDecl "mu" "Mutex",
      .DeclStmt (.GenDecl [.ValueSpec ["c"] none [newCondCall]]),
      callStmt (.SelectorExpr (.Ident "c") "L") "Lock" [],
      callStmt (.SelectorExpr (.Ident "c") "L") "Unlock" []]]

/-- Unit: as `condVarUnit` with the short declaration `c := sync.NewCond(&mu)`. -/
def condAssignUnit : Node :=
  .File "main" [importSync,
    funcDecl "main" [
      varDecl "mu" "Mutex",
      .AssignStmt [.Ident "c"] [newCondCall],
      callStmt (.SelectorExpr (.Ident "c") "L") "Lock" [],
      callStmt (.SelectorExpr (.Ident "c") "L") "Unlock" []]]

/-- Unit: `var wg sync.WaitGroup` declared in two functions `f` and `g`. -/
def twiceDeclaredUnit : Node :=
  .File "main" [importSync,
    funcDecl "f" [varDecl "wg" "WaitGroup"],
    funcDecl "g" [varDecl "wg" "WaitGroup"]]

/-- Unit: a struct type `Box` with the field `L sync.Locker`, and a function `f(c *Box)`
whose body calls `c.L.Lock()`. -/
def lockerFieldUnit : Node :=
  .File "main" [importSync,
    .GenDecl [.TypeSpec "Box" (.StructType (.FieldList [.Field ["L"] (some (syncSel "Locker"))]))],
    .FuncDecl none "f"
      (.FuncType (some (.FieldList [.Field ["c"] (some (.StarExpr (.Ident "Box")))])) none)
      (some (.BlockStmt [callStmt (.SelectorExpr (.Ident "c") "L") "Lock" []]))]

/-! ## Vocabulary of the statements -/

/-- The eight recognised operation names. -/
inductive Operation where
  | Done
  | Add
  | Wait
  | Lock
  | Unlock
  | Signal
  | Broadcast
  | Do
  deriving DecidableEq, Repr

namespace Operation

/-- The classification routine of the source that handles an operation. -/
def classify : Operation → AnalysisState → String → AnalysisState
  | .Done => AnalysisState.addDone
  | .Add => AnalysisState.addAdd
  | .Wait => AnalysisState.addWait
  | .Lock => AnalysisState.addLock
  | .Unlock => AnalysisState.addUnlock
  | .Signal => AnalysisState.addSignal
  | .Broadcast => AnalysisState.addBroadcast
  | .Do => AnalysisState.addDo

/-- The increment of the unknown counter of an operation. -/
def unknown : Operation → AnalysisState → AnalysisState
  | .Done => AnalysisState.addUnknownDone
  | .Add => AnalysisState.addUnknownAdd
  | .Wait => AnalysisState.addUnknownWait
  | .Lock => AnalysisState.addUnknownLock
  | .Unlock => AnalysisState.addUnknownUnlock
  | .Signal => AnalysisState.addUnknownSignal
  | .Broadcast => AnalysisState.addUnknownBroadcast
  | .Do => AnalysisState.addUnknownDo

/-- The name that the routine of an operation looks up for a receiver text: `lockTarget`
for `Lock` and `Unlock`, the last dotted segment for the other six. -/
def resolved (op : Operation) (s : AnalysisState) (target : String) : String :=
  match op with
  | .Lock => lockTarget s target
  | .Unlock => lockTarget s target
  | _ => splitTarget target

/-- The compatibility table of the specification (operation, compatible kinds). -/
def compatible : Operation → DeclType → Bool
  | .Add, .WaitGroup => true
  | .Done, .WaitGroup => true
  | .Wait, .WaitGroup => true
  | .Wait, .Cond => true
  | .Signal, .Cond => true
  | .Broadcast, .Cond => true
  | .Lock, .Cond => true
  | .Lock, .Mutex => true
  | .Lock, .RWMutex => true
  | .Lock, .Locker => true
  | .Unlock, .Cond => true
  | .Unlock, .Mutex => true
  | .Unlock, .RWMutex => true
  | .Unlock, .Locker => true
  | .Do, .Once => true
  | _, _ => false

/-- The increment of the counter cell named after a kind and an operation, for the pairs
that have such a cell in `Counts`; the other pairs have none and are mapped to the
unknown cell of the operation. -/
def cell : Operation → DeclType → AnalysisState → AnalysisState
  | .Done, .WaitGroup => AnalysisState.addWaitGroupDone
  | .Add, .WaitGroup => AnalysisState.addWaitGroupAdd
  | .Wait, .WaitGroup => AnalysisState.addWaitGroupWait
  | .Wait, .Cond => AnalysisState.addCondWait
  | .Signal, .Cond => AnalysisState.addCondSignal
  | .Broadcast, .Cond => AnalysisState.addCondBroadcast
  | .Lock, .Cond => AnalysisState.addCondLock
  | .Lock, .Mutex => AnalysisState.addMutexLock
  | .Lock, .RWMutex => AnalysisState.addRWMutexLock
  | .Lock, .Locker => AnalysisState.addLockerLock
  | .Unlock, .Cond => AnalysisState.addCondUnlock
  | .Unlock, .Mutex => AnalysisState.addMutexUnlock
  | .Unlock, .RWMutex => AnalysisState.addRWMutexUnlock
  | .Unlock, .Locker => AnalysisState.addLockerUnlock
  | .Do, .Once => AnalysisState.addOnceDo
  | op, _ => op.unknown

end Operation

/-- The thirty cells of a count record, in field order. -/
def Counts.cells (c : Counts) : List Nat :=
  [c.waitGroupDecls, c.condDecls, c.onceDecls, c.mutexDecls, c.rwMutexDecls, c.lockerDecls,
   c.waitGroupDone, c.waitGroupAdd, c.waitGroupWait, c.mutexLock, c.mutexUnlock,
   c.rwMutexLock, c.rwMutexUnlock, c.lockerLock, c.lockerUnlock, c.condLock, c.condUnlock,
   c.condWait, c.condSignal, c.condBroadcast, c.condNew, c.onceDo, c.unknownDone,
   c.unknownAdd, c.unknownWait, c.unknownLock, c.unknownUnlock, c.unknownSignal,
   c.unknownBroadcast, c.unknownDo]

/-- The sum of all cells of a count record. -/
def Counts.total (c : Counts) : Nat := c.cells.sum

/-- The declaration counter of a primitive kind (there is none for `Unknown`). -/
def Counts.declCount (c : Counts) : DeclType → Nat
  | .WaitGroup => c.waitGroupDecls
  | .Cond => c.condDecls
  | .Once => c.onceDecls
  | .Mutex => c.mutexDecls
  | .RWMutex => c.rwMutexDecls
  | .Locker => c.lockerDecls
  | .Unknown => 0

/-- The type name `sync.<name>` under which a primitive kind is recognised in a
declaration, as written in the `match*Decl` functions. -/
def DeclType.typeName : DeclType → String
  | .WaitGroup => "WaitGroup"
  | .Cond => "Cond"
  | .Once => "Once"
  | .Mutex => "Mutex"
  | .RWMutex => "RWMutex"
  | .Locker => "Locker"
  | .Unknown => "Unknown"

/-- No key of the table contains a dot: keys are identifier names. -/
def DotFreeKeys (m : DeclMap) : Prop := ∀ p ∈ m, '.' ∉ p.1.data

instance (m : DeclMap) : Decidable (DotFreeKeys m) := by
  unfold DotFreeKeys; infer_instance

/-- The receivers of the selector expressions of a node list. -/
def receiversOf : List Node → List Node
  | [] => []
  | .SelectorExpr x _ :: rest => x :: receiversOf rest
  | _ :: rest => receiversOf rest

/-- Expressions made of identifiers and selectors only, such as `wg` or `c.L`. -/
def isNameChain : Node → Bool
  | .Ident _ => true
  | .SelectorExpr x _ => isNameChain x
  | _ => false

/-- States used as concrete inputs. -/
def ambiguousState : AnalysisState :=
  { decls := [("m", [⟨"m", .Mutex⟩, ⟨"m", .RWMutex⟩])] }

/-- A table with one declaration per primitive kind. -/
def sixKindsState : AnalysisState :=
  { decls := [("wg", [⟨"wg", .WaitGroup⟩]), ("c", [⟨"c", .Cond⟩]), ("once", [⟨"once", .Once⟩]),
              ("mu", [⟨"mu", .Mutex⟩]), ("rw", [⟨"rw", .RWMutex⟩]), ("lk", [⟨"lk", .Locker⟩])] }

/-- A table in which only `L` is declared, as a `Locker`. -/
def lockerFieldState : AnalysisState :=
  { decls := [("L", [⟨"L", .Locker⟩])] }

/-- A visitor transformer that keeps the printer and the mode, and whose effect on the state
depends on the printer only through its values on the receivers in `R`. -/
def Local (R : Node → Prop) (g : Visitor → Visitor) : Prop :=
  ∀ v, (g v).fprint = v.fprint ∧ (g v).mode = v.mode ∧
    ∀ w, w.state = v.state → w.mode = v.mode → (∀ x, R x → w.fprint x = v.fprint x) →
      (g w).state = (g v).state

/-- The node `var <name> sync.<typeName of k>` as `ast.Walk` hands it to `Visit`. -/
def varSpecDecl (name : String) (k : DeclType) : Node :=
  .GenDecl [.ValueSpec [name] (some (syncSel k.typeName)) []]

/-! ## Vocabulary of the statements on tables, walks and rows -/

/-- The invariant of a symbol table: keys are unique, no key has an empty list, every
declaration is listed under its own name, and the kinds listed under one key are
pairwise different. -/
def TableInv (m : DeclMap) : Prop :=
  (m.map Prod.fst).Nodup ∧
    ∀ p ∈ m, p.2 ≠ [] ∧ (∀ d ∈ p.2, d.name = p.1) ∧ (p.2.map Declaration.typeof).Nodup

instance (m : DeclMap) : Decidable (TableInv m) := by
  unfold TableInv; infer_instance

/-- The states that the analysis can reach: it starts from an empty table, and every step
is either a call of `addDecl` or a change of the counters. -/
inductive Reachable : AnalysisState → Prop where
  | fresh (c : Counts) : Reachable { decls := [], counts := c }
  | addDecl (s : AnalysisState) (d : Declaration) : Reachable s → Reachable (s.addDecl d)
  | counts (s : AnalysisState) (c : Counts) : Reachable s → Reachable { s with counts := c }

/-- The table holds the declaration (under some key). -/
def Holds (m : DeclMap) (d : Declaration) : Prop := ∃ p ∈ m, d ∈ p.2

instance (m : DeclMap) (d : Declaration) : Decidable (Holds m d) := by
  unfold Holds; infer_instance

/-- The increment of the declaration counter of a kind (`Unknown` has no counter). -/
def bumpDecl : DeclType → AnalysisState → AnalysisState
  | .WaitGroup => AnalysisState.addWaitGroupDecl
  | .Cond => AnalysisState.addCondDecl
  | .Once => AnalysisState.addOnceDecl
  | .Mutex => AnalysisState.addMutexDecl
  | .RWMutex => AnalysisState.addRWMutexDecl
  | .Locker => AnalysisState.addLockerDecl
  | .Unknown => fun s => s

/-- What every declaration matcher does with a matching name: `addDecl` of the declaration,
followed by the increment of the declaration counter of its kind. -/
def record (s : AnalysisState) (d : Declaration) : AnalysisState :=
  bumpDecl d.typeof (s.addDecl d)

/-- The declarations that one `match*Decl` function records for one spec: one per name
of a value spec whose type is written `sync.<typeName>`. -/
def specDecls (typeName : String) (typeof : DeclType) (spec : Node) : List Declaration :=
  match spec with
  | .ValueSpec names type _ =>
    match type with
    | some (.SelectorExpr (.Ident tsel) tname) =>
      if tsel = "sync" ∧ tname = typeName then names.map (fun id => createDecl id typeof)
      else []
    | _ => []
  | _ => []

/-- The declarations that the six `match*Decl` functions record for the specs of a generic
declaration, in the order of the calls in `Visit`. -/
def genDeclDecls (specs : List Node) : List Declaration :=
  specs.flatMap (specDecls "WaitGroup" .WaitGroup) ++
  specs.flatMap (specDecls "Mutex" .Mutex) ++
  specs.flatMap (specDecls "RWMutex" .RWMutex) ++
  (match specs with
    | [] => []
    | spec :: _ => specDecls "Locker" .Locker spec) ++
  specs.flatMap (specDecls "Once" .Once) ++
  specs.flatMap (specDecls "Cond" .Cond)

/-- The declarations that one `match*ParamDecl` function records for a field. -/
def fieldKindDecls (typeName : String) (typeof : DeclType) (names : List String)
    (type : Option Node) : List Declaration :=
  match getFieldType type with
  | some (.Ident tsel, sel) =>
    if tsel = "sync" ∧ sel = typeName then names.map (fun id => createDecl id typeof)
    else []
  | _ => []

/-- The declarations that the six `match*ParamDecl` functions record for a field, in the
order of the calls in `Visit`. -/
def fieldDecls (names : List String) (type : Option Node) : List Declaration :=
  fieldKindDecls "WaitGroup" .WaitGroup names type ++
  fieldKindDecls "Mutex" .Mutex names type ++
  fieldKindDecls "RWMutex" .RWMutex names type ++
  fieldKindDecls "Locker" .Locker names type ++
  fieldKindDecls "Once" .Once names type ++
  fieldKindDecls "Cond" .Cond names type

/-- The declarations that `matchCondAssignDecl` records for one right-hand side. -/
def assignRhsDecls (lhs : List Node) (r : Node) : List Declaration :=
  match r with
  | .CallExpr (.SelectorExpr (.Ident tid) sel) _ =>
    if tid = "sync" ∧ sel = "NewCond" then
      match lhs.head? with
      | some (.Ident id) => [createDecl id .Cond]
      | _ => []
    else []
  | _ => []

/-- The declarations that the declaration walk records at a node, in order. -/
def declsOf : Node → List Declaration
  | .GenDecl specs => genDeclDecls specs
  | .Field names type => fieldDecls names type
  | .AssignStmt lhs rhs => rhs.flatMap (assignRhsDecls lhs)
  | _ => []

/-- The operation named by a selector, if any. -/
def opOfName (sel : String) : Option Operation :=
  if sel = "Done" then some .Done
  else if sel = "Add" then some .Add
  else if sel = "Wait" then some .Wait
  else if sel = "Lock" then some .Lock
  else if sel = "Unlock" then some .Unlock
  else if sel = "Signal" then some .Signal
  else if sel = "Broadcast" then some .Broadcast
  else if sel = "Do" then some .Do
  else none

/-- The callee is exactly the qualified name `sync.NewCond`. -/
def isNewCond : Node → Bool
  | .SelectorExpr (.Ident targetName) funName => funName = "NewCond" ∧ targetName = "sync"
  | _ => false

/-- What the usage walk does to the state at one node. -/
def useStep (fprint : Node → String) (s : AnalysisState) (n : Node) : AnalysisState :=
  match n with
  | .CallExpr fn _ => if isNewCond fn then s.addCondNew else s
  | .SelectorExpr x sel =>
    match opOfName sel with
    | some op => op.classify s (fprint x)
    | none => s
  | _ => s

/-- A declaration of kind `k` is listed under the key `name`. -/
def Listed (m : DeclMap) (name : String) (k : DeclType) : Prop :=
  ∃ ds, mapGet m name = some ds ∧ ∃ e ∈ ds, e.typeof = k

/-- A selector expression whose `Sel` is one of the eight operation names. -/
def isOpSelector : Node → Bool
  | .SelectorExpr _ sel => (opOfName sel).isSome
  | _ => false

/-- A call expression whose callee is a selector expression named like one of the eight
operations. -/
def isOpCall : Node → Bool
  | .CallExpr (.SelectorExpr _ sel) _ => (opOfName sel).isSome
  | _ => false

/-- A call expression whose callee is exactly `sync.NewCond`. -/
def isNewCondCall : Node → Bool
  | .CallExpr fn _ => isNewCond fn
  | _ => false

/-- A node at which neither walk changes the state: it records no declaration, is no
selector named like an operation and no call of `sync.NewCond`. -/
def quietNode (n : Node) : Bool :=
  (declsOf n).isEmpty && !isOpSelector n && !isNewCondCall n

/-- The sum of the operation-classification counters other than `condNew`. -/
def Counts.opTotal (c : Counts) : Nat :=
  c.waitGroupDone + c.waitGroupAdd + c.waitGroupWait + c.mutexLock + c.mutexUnlock +
  c.rwMutexLock + c.rwMutexUnlock + c.lockerLock + c.lockerUnlock + c.condLock +
  c.condUnlock + c.condWait + c.condSignal + c.condBroadcast + c.onceDo + c.unknownDone +
  c.unknownAdd + c.unknownWait + c.unknownLock + c.unknownUnlock + c.unknownSignal +
  c.unknownBroadcast + c.unknownDo

/-- Function `stateHeaders` (lines 255-267). -/
def stateHeaders : List String :=
  ["fileName", "waitGroupDecls", "condDecls", "onceDecls",
    "mutexDecls", "rwMutexDecls", "lockerDecls", "waitGroupDone",
    "waitGroupAdd", "waitGroupWait", "mutexLock", "mutexUnlock",
    "rwMutexLock", "rwMutexUnlock", "lockerLock", "lockerUnlock",
    "condLock", "condUnlock",
    "condWait", "condSignal", "condBroadcast", "condNew",
    "onceDo", "unknownDone", "unknownAdd", "unknownWait",
    "unknownLock", "unknownUnlock", "unknownSignal", "unknownBroadcast",
    "unknownDo"]

/-- The call `strconv.Itoa` on a counter: its decimal rendering. -/
def strconvItoa (n : Nat) : String := toString n

/-- Method `stateToSlice` (lines 269-288). -/
def AnalysisState.stateToSlice (s : AnalysisState) (fileName : String) : List String :=
  [fileName, strconvItoa s.counts.waitGroupDecls,
    strconvItoa s.counts.condDecls, strconvItoa s.counts.onceDecls,
    strconvItoa s.counts.mutexDecls, strconvItoa s.counts.rwMutexDecls,
    strconvItoa s.counts.lockerDecls, strconvItoa s.counts.waitGroupDone,
    strconvItoa s.counts.waitGroupAdd, strconvItoa s.counts.waitGroupWait,
    strconvItoa s.counts.mutexLock, strconvItoa s.counts.mutexUnlock,
    strconvItoa s.counts.rwMutexLock, strconvItoa s.counts.rwMutexUnlock,
    strconvItoa s.counts.lockerLock, strconvItoa s.counts.lockerUnlock,
    strconvItoa s.counts.condLock, strconvItoa s.counts.condUnlock,
    strconvItoa s.counts.condWait, strconvItoa s.counts.condSignal,
    strconvItoa s.counts.condBroadcast, strconvItoa s.counts.condNew,
    strconvItoa s.counts.onceDo, strconvItoa s.counts.unknownDone,
    strconvItoa s.counts.unknownAdd, strconvItoa s.counts.unknownWait,
    strconvItoa s.counts.unknownLock, strconvItoa s.counts.unknownUnlock,
    strconvItoa s.counts.unknownSignal, strconvItoa s.counts.unknownBroadcast,
    strconvItoa s.counts.unknownDo]

/-- The fields of the `Counts` struct by name: each field name of the source with the
value of that field. -/
def Counts.fields (c : Counts) : List (String × Nat) :=
  [("waitGroupDecls", c.waitGroupDecls), ("condDecls", c.condDecls),
   ("onceDecls", c.onceDecls), ("mutexDecls", c.mutexDecls),
   ("rwMutexDecls", c.rwMutexDecls), ("lockerDecls", c.lockerDecls),
   ("waitGroupDone", c.waitGroupDone), ("waitGroupAdd", c.waitGroupAdd),
   ("waitGroupWait", c.waitGroupWait), ("mutexLock", c.mutexLock),
   ("mutexUnlock", c.mutexUnlock), ("rwMutexLock", c.rwMutexLock),
   ("rwMutexUnlock", c.rwMutexUnlock), ("lockerLock", c.lockerLock),
   ("lockerUnlock", c.lockerUnlock), ("condLock", c.condLock),
   ("condUnlock", c.condUnlock), ("condWait", c.condWait),
   ("condSignal", c.condSignal), ("condBroadcast", c.condBroadcast),
   ("condNew", c.condNew), ("onceDo", c.onceDo), ("unknownDone", c.unknownDone),
   ("unknownAdd", c.unknownAdd), ("unknownWait", c.unknownWait),
   ("unknownLock", c.unknownLock), ("unknownUnlock", c.unknownUnlock),
   ("unknownSignal", c.unknownSignal), ("unknownBroadcast", c.unknownBroadcast),
   ("unknownDo", c.unknownDo)]

/-- Unit: the grouped declaration `var ( a sync.Mutex; b sync.Locker )` at package level. -/
def groupedVarUnit : Node :=
  .File "main" [importSync,
    .GenDecl [.ValueSpec ["a"] (some (syncSel "Mutex")) [],
              .ValueSpec ["b"] (some (syncSel "Locker")) []]]

/-- Unit: the same grouped declaration with the `Locker` spec first,
`var ( b sync.Locker; a sync.Mutex )`. -/
def lockerFirstUnit : Node :=
  .File "main" [importSync,
    .GenDecl [.ValueSpec ["b"] (some (syncSel "Locker")) [],
              .ValueSpec ["a"] (some (syncSel "Mutex")) []]]

/-- Unit: `var wg sync.WaitGroup` followed by the method value `f := wg.Done`, which is
no call, inside `func main()`. -/
def methodValueUnit : Node :=
  .File "main" [importSync,
    funcDecl "main" [
      varDecl "wg" "WaitGroup",
      .AssignStmt [.Ident "f"] [.SelectorExpr (.Ident "wg") "Done"]]]

/-- Unit `sample/goroutines/simple01.go`: `func main()` with `go sayHello()` and
`func sayHello()` with `fmt.Println("hello")`. -/
def simple01Unit : Node :=
  .File "main" [.GenDecl [.ImportSpec "\"fmt\""],
    funcDecl "main" [.GoStmt (.CallExpr (.Ident "sayHello") [])],
    funcDecl "sayHello" [callStmt (.Ident "fmt") "Println" [.BasicLit "\"hello\""]]]

/-- Unit: `var wg sync.WaitGroup` before `wg.Done()` inside `func main()`. -/
def declFirstUnit : Node :=
  .File "main" [importSync,
    funcDecl "main" [varDecl "wg" "WaitGroup", callStmt (.Ident "wg") "Done" []]]

/-- Unit: `wg.Done()` before `var wg sync.WaitGroup` inside `func main()`. -/
def callFirstUnit : Node :=
  .File "main" [importSync,
    funcDecl "main" [callStmt (.Ident "wg") "Done" [], varDecl "wg" "WaitGroup"]]

/-- The list under a key after `addDecl`: the declaration is appended unless a declaration
of the same kind is already there. -/
def insertKind (vs : List Declaration) (d : Declaration) : List Declaration :=
  if ∃ e ∈ vs, e.typeof = d.typeof then vs else vs ++ [d]

/-- Two tables with the same keys whose lists agree up to the order of the entries. -/
def TableEquiv (m m' : DeclMap) : Prop :=
  ∀ k, (mapGet m k).isSome = (mapGet m' k).isSome ∧
    ((mapGet m k).getD []).Perm ((mapGet m' k).getD [])

/-- Two states with the same counters and equivalent tables. -/
def StateEquiv (s t : AnalysisState) : Prop :=
  s.counts = t.counts ∧ TableEquiv s.decls t.decls

/-- The method `Visit` does the same at both nodes, whatever the visitor. -/
def VisitAlike (n m : Node) : Prop := ∀ v : Visitor, v.Visit n = v.Visit m

/-- The kind that a classification routine reads off a table entry: the kind of the
declaration when there is exactly one. -/
def verdict : Option (List Declaration) → Option DeclType
  | some [d] => some d.typeof
  | _ => none

/-- The increment that a classification routine applies, given what it read. -/
def Operation.pick (op : Operation) : Option DeclType → AnalysisState → AnalysisState
  | some k => op.cell k
  | none => op.unknown

/-- The steps of the usage walk: no change, or one of the single-cell increments of the
operation counters. -/
def allBumps : List (AnalysisState → AnalysisState) :=
  [fun s => s, AnalysisState.addCondNew, AnalysisState.addWaitGroupDone,
   AnalysisState.addWaitGroupAdd, AnalysisState.addWaitGroupWait, AnalysisState.addMutexLock,
   AnalysisState.addMutexUnlock, AnalysisState.addRWMutexLock, AnalysisState.addRWMutexUnlock,
   AnalysisState.addLockerLock, AnalysisState.addLockerUnlock, AnalysisState.addCondLock,
   AnalysisState.addCondUnlock, AnalysisState.addCondWait, AnalysisState.addCondSignal,
   AnalysisState.addCondBroadcast, AnalysisState.addOnceDo, AnalysisState.addUnknownDone,
   AnalysisState.addUnknownAdd, AnalysisState.addUnknownWait, AnalysisState.addUnknownLock,
   AnalysisState.addUnknownUnlock, AnalysisState.addUnknownSignal,
   AnalysisState.addUnknownBroadcast, AnalysisState.addUnknownDo]

/-- The node types that have a case in one of the two type switches of `Visit`. -/
def isVisited : Node → Bool
  | .GenDecl _ => true
  | .Field _ _ => true
  | .AssignStmt _ _ => true
  | .CallExpr _ _ => true
  | .SelectorExpr _ _ => true
  | _ => false

/-! ## Vocabulary of the statements on kinds, bounds and branches -/

/-- The `iota` value of a `DeclType` constant; the Go type is `int64`. -/
def DeclType.toInt64 : DeclType → Int
  | .WaitGroup => 0
  | .Cond => 1
  | .Once => 2
  | .Mutex => 3
  | .RWMutex => 4
  | .Locker => 5
  | .Unknown => 6

/-- Method `DeclType.String` (lines 37-56) on the underlying `int64` value; `none` stands
for the panic of the `default` branch. -/
def DeclType.String (d : Int) : Option String :=
  if d = DeclType.WaitGroup.toInt64 then some "WaitGroup"
  else if d = DeclType.Cond.toInt64 then some "Cond"
  else if d = DeclType.Once.toInt64 then some "Once"
  else if d = DeclType.Mutex.toInt64 then some "Mutex"
  else if d = DeclType.RWMutex.toInt64 then some "RWMutex"
  else if d = DeclType.Locker.toInt64 then some "Locker"
  else if d = DeclType.Unknown.toInt64 then some "Unknown"
  else none

/-- The six primitive kinds. -/
def sixKinds : List DeclType := [.WaitGroup, .Cond, .Once, .Mutex, .RWMutex, .Locker]

/-- The bytes of a Go string: the UTF-8 encoding of its characters. -/
def utf8Bytes (s : String) : List UInt8 := s.data.flatMap String.utf8EncodeChar

/-- The Go slice expression `target[:n]` on the bytes of the string; `none` stands for the
run-time panic `slice bounds out of range`. -/
def sliceTo (target : String) (n : Int) : Option (List UInt8) :=
  if 0 ≤ n ∧ n ≤ (utf8Bytes target).length then some ((utf8Bytes target).take n.toNat)
  else none

/-- The Go index expression `parts[i]`; `none` stands for the run-time panic
`index out of range`. -/
def indexAt (parts : List String) (i : Int) : Option String :=
  if 0 ≤ i ∧ i < parts.length then parts[i.toNat]? else none


/-- The outcome of the table lookup with which every classification routine starts
(`vs, ok := s.decls[target]`): exactly one declaration, the `Multiple matches` branch
(`ok` and `len(vs) != 1`), or the `No match` branch. -/
inductive LookupBranch where
  | single (d : Declaration)
  | multiple
  | noMatch
  deriving DecidableEq, Repr

/-- The branch that a classification routine takes on the result of the lookup. -/
def lookupBranch : Option (List Declaration) → LookupBranch
  | some [d] => .single d
  | some _ => .multiple
  | none => .noMatch

/-- What a classification routine does in each branch: the cell of the operation and the
kind of the single declaration, the unknown counter in the other two branches. -/
def Operation.onBranch (op : Operation) : LookupBranch → AnalysisState → AnalysisState
  | .single d => op.cell d.typeof
  | .multiple => op.unknown
  | .noMatch => op.unknown

/-- The number of declarations of a kind held in the table. -/
def heldOfKind (m : DeclMap) (k : DeclType) : Nat :=
  ((m.flatMap Prod.snd).filter (fun d => decide (d.typeof = k))).length

/-- The number of declarations of a kind that the declaration matchers hand to `addDecl`
over the nodes of a tree. -/
def recordedOfKind (file : Node) (k : DeclType) : Nat :=
  (((preorder file).flatMap declsOf).filter (fun d => decide (d.typeof = k))).length

/-- The type expression is written `sync.<typeName>`. -/
def isSyncType (typeName : String) : Node → Bool
  | .SelectorExpr (.Ident pkg) name => pkg = "sync" ∧ name = typeName
  | _ => false

/-- A type expression with one level of pointer indirection removed. -/
def pointee : Node → Node
  | .StarExpr x => x
  | t => t

/-- The names of a value spec whose type annotation is `sync.<typeName>`. -/
def specNames (typeName : String) : Node → List String
  | .ValueSpec names (some type) _ => if isSyncType typeName type then names else []
  | _ => []

/-- The names that a node declares with the type `sync.<typeName>`, by the first two
declaration shapes of the specification (section 4.1): every name of every value spec of
a generic declaration whose type annotation is `sync.<typeName>`, and every name of a
field or parameter whose type is `sync.<typeName>` or a pointer to it. -/
def declaredNames (typeName : String) : Node → List String
  | .GenDecl specs => specs.flatMap (specNames typeName)
  | .Field names (some type) => if isSyncType typeName (pointee type) then names else []
  | _ => []

/-- The identifiers that an assignment binds to a call of `sync.NewCond` (third shape of
section 4.1): the left-hand sides that are identifiers and whose right-hand side, at the
same position, is such a call. -/
def newCondNames : Node → List String
  | .AssignStmt lhs rhs => (lhs.zip rhs).filterMap (fun p =>
      match p.1 with
      | .Ident x => if isNewCondCall p.2 then some x else none
      | _ => none)
  | _ => []

/-- The number of matching name encounters of a kind in a tree, one per name per matching
declaration node, duplicates included: the names declared with the type of the kind and,
for Cond, the identifiers bound to a call of `sync.NewCond`. -/
def encounters (file : Node) (k : DeclType) : Nat :=
  ((preorder file).flatMap (fun n =>
    declaredNames k.typeName n ++ (if k = .Cond then newCondNames n else []))).length

/-- The candidate name of the specification (section 4.2, step 2): the rendered text is
split on `.` and the candidate is the last segment; if that segment is not a key of the
table, the text has more than one segment and the last segment is `L`, the candidate is
the last segment of the text without its trailing `.L`. -/
def candidateName (m : DeclMap) (target : String) : String :=
  let segments := stringsSplitDot target
  let last := segments.getLastD ""
  if (mapGet m last).isNone ∧ segments.length > 1 ∧ last = "L" then
    segments.dropLast.getLastD ""
  else last

/-- The Count Record with one more Operation Event `(operation, matched kind)`, by the
cells of the record (section 3 of the specification): the cell named after the kind and
the operation for the pairs of the compatibility table, the cell `unknown<Operation>`
when the matched kind is Unknown (`none`) or any other kind. -/
def Counts.tally (c : Counts) : Operation → Option DeclType → Counts
  | .Done, some .WaitGroup => { c with waitGroupDone := c.waitGroupDone + 1 }
  | .Add, some .WaitGroup => { c with waitGroupAdd := c.waitGroupAdd + 1 }
  | .Wait, some .WaitGroup => { c with waitGroupWait := c.waitGroupWait + 1 }
  | .Wait, some .Cond => { c with condWait := c.condWait + 1 }
  | .Signal, some .Cond => { c with condSignal := c.condSignal + 1 }
  | .Broadcast, some .Cond => { c with condBroadcast := c.condBroadcast + 1 }
  | .Lock, some .Cond => { c with condLock := c.condLock + 1 }
  | .Lock, some .Mutex => { c with mutexLock := c.mutexLock + 1 }
  | .Lock, some .RWMutex => { c with rwMutexLock := c.rwMutexLock + 1 }
  | .Lock, some .Locker => { c with lockerLock := c.lockerLock + 1 }
  | .Unlock, some .Cond => { c with condUnlock := c.condUnlock + 1 }
  | .Unlock, some .Mutex => { c with mutexUnlock := c.mutexUnlock + 1 }
  | .Unlock, some .RWMutex => { c with rwMutexUnlock := c.rwMutexUnlock + 1 }
  | .Unlock, some .Locker => { c with lockerUnlock := c.lockerUnlock + 1 }
  | .Do, some .Once => { c with onceDo := c.onceDo + 1 }
  | .Done, _ => { c with unknownDone := c.unknownDone + 1 }
  | .Add, _ => { c with unknownAdd := c.unknownAdd + 1 }
  | .Wait, _ => { c with unknownWait := c.unknownWait + 1 }
  | .Lock, _ => { c with unknownLock := c.unknownLock + 1 }
  | .Unlock, _ => { c with unknownUnlock := c.unknownUnlock + 1 }
  | .Signal, _ => { c with unknownSignal := c.unknownSignal + 1 }
  | .Broadcast, _ => { c with unknownBroadcast := c.unknownBroadcast + 1 }
  | .Do, _ => { c with unknownDo := c.unknownDo + 1 }

/-- A table in which `L` is declared as Mutex and as Locker, and `c` as Cond. -/
def ambiguousLockerState : AnalysisState :=
  { decls := [("L", [⟨"L", .Mutex⟩, ⟨"L", .Locker⟩]), ("c", [⟨"c", .Cond⟩])] }

/-- Unit: the struct types `A` with the field `L sync.Mutex` and `B` with the field
`L sync.Locker`, and a function `f()` with the body
`c := sync.NewCond(&sync.Mutex{}); c.L.Lock()`. -/
def ambiguousLockerUnit : Node :=
  .File "main" [importSync,
    .GenDecl [.TypeSpec "A" (.StructType (.FieldList [.Field ["L"] (some (syncSel "Mutex"))]))],
    .GenDecl [.TypeSpec "B" (.StructType (.FieldList [.Field ["L"] (some (syncSel "Locker"))]))],
    funcDecl "f" [
      .AssignStmt [.Ident "c"]
        [.CallExpr (syncSel "NewCond") [.UnaryExpr "&" (.CompositeLit (some (syncSel "Mutex")) [])]],
      callStmt (.SelectorExpr (.Ident "c") "L") "Lock" []]]

/-- A table in which only `L` is declared, as a Mutex. -/
def mutexFieldState : AnalysisState :=
  { decls := [("L", [⟨"L", .Mutex⟩])] }

/-- Unit: a struct type `Box` with the field `L sync.Mutex`, and a function `f(b *Box)`
whose body calls `b.L.Lock()` and `b.L.Unlock()`. -/
def mutexFieldUnit : Node :=
  .File "main" [importSync,
    .GenDecl [.TypeSpec "Box" (.StructType (.FieldList [.Field ["L"] (some (syncSel "Mutex"))]))],
    .FuncDecl none "f"
      (.FuncType (some (.FieldList [.Field ["b"] (some (.StarExpr (.Ident "Box")))])) none)
      (some (.BlockStmt [callStmt (.SelectorExpr (.Ident "b") "L") "Lock" [],
        callStmt (.SelectorExpr (.Ident "b") "L") "Unlock" []]))]

/-- The assignment `a, b := 1, sync.NewCond(&mu)`. -/
def secondRhsNewCond : Node :=
  .AssignStmt [.Ident "a", .Ident "b"] [.BasicLit "1", newCondCall]

/-- The assignment `a, b := sync.NewCond(&mu), sync.NewCond(&mu)`. -/
def twoNewCondAssign : Node :=
  .AssignStmt [.Ident "a", .Ident "b"] [newCondCall, newCondCall]

/-! ## Lemmas on the receiver text helpers and on the table -/

theorem splitChars_ne_nil (sep : Char) (l : List Char) : splitChars sep l ≠ [] := by
  cases l with
  | nil => simp [splitChars]
  | cons c cs =>
    simp only [splitChars]
    split_ifs
    · simp
    · split <;> simp

theorem splitChars_append_sep (sep : Char) (a b : List Char) :
    splitChars sep (a ++ sep :: b) = splitChars sep a ++ splitChars sep b := by
  induction a with
  | nil => simp [splitChars]
  | cons c a ih =>
    simp only [List.cons_append, splitChars]
    split_ifs
    · simp [ih]
    · have hne := splitChars_ne_nil sep a
      rw [show a.append (sep :: b) = a ++ sep :: b from rfl, ih]
      cases hsa : splitChars sep a with
      | nil => exact absurd hsa hne
      | cons p ps => simp

theorem splitChars_of_not_mem (sep : Char) (b : List Char) (h : sep ∉ b) :
    splitChars sep b = [b] := by
  induction b with
  | nil => simp [splitChars]
  | cons c b ih =>
    have hc : c ≠ sep := fun e => h (by simp [e])
    have hb : sep ∉ b := fun e => h (by simp [e])
    simp [splitChars, hc, ih hb]

theorem getLastD_map_mk (l : List (List Char)) :
    (l.map String.mk).getLastD "" = String.mk (l.getLastD []) := by
  induction l with
  | nil => rfl
  | cons a l ih =>
    cases l with
    | nil => rfl
    | cons b l => simpa [List.getLastD] using ih

theorem splitTarget_eq (t : String) :
    splitTarget t = String.mk ((splitChars '.' t.data).getLastD []) := by
  simp [splitTarget, stringsSplitDot, getLastD_map_mk]

theorem getLastD_append_of_ne_nil (a b : List (List Char)) (hb : b ≠ []) (d : List Char) :
    (a ++ b).getLastD d = b.getLastD d := by
  induction a with
  | nil => rfl
  | cons x a ih =>
    cases hab : a ++ b with
    | nil => simp at hab; exact absurd hab.2 hb
    | cons y r => 
      rw [List.cons_append, hab]
      rw [hab] at ih
      simpa [List.getLastD] using ih

theorem splitTarget_append_dot (y z : String) :
    splitTarget (y ++ "." ++ z) = splitTarget z := by
  have hdata : (y ++ "." ++ z).data = y.data ++ '.' :: z.data := by
    simp [String.data_append]
  rw [splitTarget_eq, splitTarget_eq, hdata, splitChars_append_sep,
    getLastD_append_of_ne_nil _ _ (splitChars_ne_nil _ _)]

theorem splitTarget_of_dotFree (x : String) (h : '.' ∉ x.data) : splitTarget x = x := by
  rw [splitTarget_eq, splitChars_of_not_mem _ _ h]
  rfl

theorem targetPieces_append_dot (y z : String) :
    targetPieces (y ++ "." ++ z) = targetPieces y + targetPieces z := by
  have hdata : (y ++ "." ++ z).data = y.data ++ '.' :: z.data := by
    simp [String.data_append]
  simp [targetPieces, stringsSplitDot, hdata, splitChars_append_sep]

theorem targetPieces_pos (y : String) : 0 < targetPieces y := by
  have := splitChars_ne_nil '.' y.data
  simp only [targetPieces, stringsSplitDot, List.length_map]
  exact List.length_pos.mpr this

theorem dropLastTwo_append_L (y : String) : dropLastTwo (y ++ "." ++ "L") = y := by
  have hdata : (y ++ "." ++ "L").data = y.data ++ ['.', 'L'] := by
    simp [String.data_append]
  simp [dropLastTwo, hdata]

theorem mapGet_mem (m : DeclMap) (k : String) (v : List Declaration)
    (h : mapGet m k = some v) : (k, v) ∈ m := by
  induction m with
  | nil => simp [mapGet] at h
  | cons p m ih =>
    obtain ⟨k1, v1⟩ := p
    simp only [mapGet] at h
    split_ifs at h with hk
    · simp at h; simp [hk, h]
    · simp [ih h]

theorem mapGet_none_of_dot (m : DeclMap) (hm : DotFreeKeys m) (t : String)
    (ht : '.' ∈ t.data) : mapGet m t = none := by
  cases h : mapGet m t with
  | none => rfl
  | some v => exact absurd ht (hm _ (mapGet_mem m t v h))

theorem lockTarget_locker_field (s : AnalysisState) (hkeys : DotFreeKeys s.decls) (y : String) :
    lockTarget s (y ++ "." ++ "L") = splitTarget y := by
  have h1 : mapGet s.decls (y ++ "." ++ "L") = none :=
    mapGet_none_of_dot _ hkeys _ (by simp [String.data_append])
  have h2 : targetPieces (y ++ "." ++ "L") > 1 := by
    rw [targetPieces_append_dot]
    have := targetPieces_pos y
    have : targetPieces "L" = 1 := by decide
    omega
  have h3 : splitTarget (y ++ "." ++ "L") = "L" := by
    rw [splitTarget_append_dot]; decide
  simp [lockTarget, h1, h2, h3, dropLastTwo_append_L]

theorem mapGet_mapSet_self (m : DeclMap) (k : String) (v : List Declaration) :
    mapGet (mapSet m k v) k = some v := by
  induction m with
  | nil => simp [mapSet, mapGet]
  | cons p m ih =>
    obtain ⟨k1, v1⟩ := p
    by_cases hk : k1 = k
    · simp [mapSet, mapGet, hk]
    · simp [mapSet, mapGet, hk, ih]

theorem addDecl_counts (s : AnalysisState) (d : Declaration) :
    (s.addDecl d).counts = s.counts := by
  unfold AnalysisState.addDecl
  split
  · dsimp only
    split_ifs <;> rfl
  · rfl

theorem addDecl_decls_congr (s t : AnalysisState) (d : Declaration) (h : s.decls = t.decls) :
    (s.addDecl d).decls = (t.addDecl d).decls := by
  unfold AnalysisState.addDecl
  rw [h]
  split
  · dsimp only
    split_ifs
    · rfl
    · exact h
  · rfl

theorem addDecl_listed (s : AnalysisState) (d : Declaration) :
    ∃ ds, mapGet (s.addDecl d).decls d.name = some ds ∧ ∃ e ∈ ds, e.typeof = d.typeof := by
  unfold AnalysisState.addDecl
  split
  · rename_i ds hds
    by_cases hf : ds.any (fun e => decide (e.typeof = d.typeof)) = true
    · simp only [hf, Bool.not_true, Bool.false_eq_true, if_false]
      refine ⟨ds, hds, ?_⟩
      simpa using hf
    · simp only [Bool.not_eq_true] at hf
      simp only [hf, Bool.not_false, if_true]
      exact ⟨ds ++ [d], mapGet_mapSet_self _ _ _, d, by simp, rfl⟩
  · exact ⟨[] ++ [d], mapGet_mapSet_self _ _ _, d, by simp, rfl⟩

theorem addDecl_of_listed (s : AnalysisState) (d : Declaration) (ds : List Declaration)
    (hds : mapGet s.decls d.name = some ds) (he : ∃ e ∈ ds, e.typeof = d.typeof) :
    s.addDecl d = s := by
  have hf : ds.any (fun e => decide (e.typeof = d.typeof)) = true := by simpa using he
  simp [AnalysisState.addDecl, hds, hf]

theorem addDecl_twice_decls (s t : AnalysisState) (d : Declaration)
    (h : t.decls = (s.addDecl d).decls) : (t.addDecl d).decls = (s.addDecl d).decls := by
  obtain ⟨ds, hds, he⟩ := addDecl_listed s d
  rw [← h] at hds
  rw [addDecl_of_listed t d ds hds he, h]

theorem visit_varSpecDecl (k : DeclType) (hk : k ≠ .Unknown) (v : Visitor)
    (hm : v.mode = true) (name : String) :
    (v.Visit (varSpecDecl name k)).state.decls = (v.state.addDecl ⟨name, k⟩).decls ∧
    (v.Visit (varSpecDecl name k)).state.counts.declCount k =
      v.state.counts.declCount k + 1 := by
  cases k with
  | Unknown => exact absurd rfl hk
  | _ =>
    simp [Visitor.Visit, hm, varSpecDecl, syncSel, DeclType.typeName, matchWaitGroupDecl,
        matchMutexDecl, matchRWMutexDecl, matchLockerDecl, matchOnceDecl, matchCondDecl,
        matchSpecNames, Visitor.addDef, createDecl, Counts.declCount, addDecl_counts,
        AnalysisState.addWaitGroupDecl,
        AnalysisState.addCondDecl, AnalysisState.addOnceDecl, AnalysisState.addMutexDecl,
        AnalysisState.addRWMutexDecl, AnalysisState.addLockerDecl]

/-! ## Lemmas on single cells -/

theorem getD_set_succ (l : List Nat) (i : Nat) (hi : i < l.length) (j : Nat) :
    (l.set i (l.getD i 0 + 1)).getD j 0 = l.getD j 0 + (if j = i then 1 else 0) := by
  induction l generalizing i j with
  | nil => simp at hi
  | cons a l ih =>
    cases i with
    | zero => cases j <;> simp
    | succ i =>
      cases j with
      | zero => simp
      | succ j =>
        have := ih i (by simpa using hi) j
        simpa using this

theorem sum_set_succ (l : List Nat) (i : Nat) (hi : i < l.length) :
    (l.set i (l.getD i 0 + 1)).sum = l.sum + 1 := by
  induction l generalizing i with
  | nil => simp at hi
  | cons a l ih =>
    cases i with
    | zero => simp; omega
    | succ i =>
      have := ih i (by simpa using hi)
      simp only [List.set_cons_succ, List.sum_cons, List.getD_cons_succ] 
      omega

theorem one_cell (s t : AnalysisState) (i : Nat) (hd : t.decls = s.decls) (hi : i < 30)
    (h : t.counts.cells = s.counts.cells.set i (s.counts.cells.getD i 0 + 1)) :
    t.decls = s.decls ∧
    (∃ i, i < 30 ∧ ∀ j, j < 30 →
      t.counts.cells.getD j 0 = s.counts.cells.getD j 0 + (if j = i then 1 else 0)) ∧
    t.counts.total = s.counts.total + 1 := by
  have hl : s.counts.cells.length = 30 := rfl
  refine ⟨hd, ⟨i, hi, fun j _ => ?_⟩, ?_⟩
  · rw [h]; exact getD_set_succ _ i (by omega) j
  · unfold Counts.total; rw [h]; exact sum_set_succ _ i (by omega)

/-! ## The walk depends on the printer only through the receivers -/

theorem Local.id (R : Node → Prop) : Local R (fun v => v) :=
  fun _ => ⟨rfl, rfl, fun _ hs _ _ => hs⟩

theorem Local.comp {R : Node → Prop} {g1 g2 : Visitor → Visitor} (h1 : Local R g1)
    (h2 : Local R g2) : Local R (fun v => g2 (g1 v)) := by
  intro v
  obtain ⟨f1, m1, c1⟩ := h1 v
  obtain ⟨f2, m2, c2⟩ := h2 (g1 v)
  refine ⟨f2.trans f1, m2.trans m1, fun w hs hm hp => ?_⟩
  obtain ⟨fw, mw, _⟩ := h1 w
  exact c2 (g1 w) (c1 w hs hm hp) (by rw [mw, m1, hm])
    (fun x hx => by rw [fw, f1]; exact hp x hx)

theorem Local.mono {R S : Node → Prop} {g : Visitor → Visitor} (h : Local R g)
    (hRS : ∀ x, R x → S x) : Local S g := by
  intro v
  obtain ⟨f1, m1, c1⟩ := h v
  exact ⟨f1, m1, fun w hs hm hp => c1 w hs hm (fun x hx => hp x (hRS x hx))⟩

theorem Local.foldl {R : Node → Prop} {α : Type} (f : Visitor → α → Visitor)
    (hf : ∀ a, Local R (fun v => f v a)) (l : List α) : Local R (fun v => l.foldl f v) := by
  induction l with
  | nil => exact Local.id R
  | cons a l ih => exact Local.comp (hf a) ih

theorem Local.state (R : Node → Prop) (h : AnalysisState → AnalysisState) :
    Local R (fun v => { v with state := h v.state }) :=
  fun _ => ⟨rfl, rfl, fun _ hs _ _ => by simp [hs]⟩

theorem Local.ite {R : Node → Prop} {g1 g2 : Visitor → Visitor} (c : Prop) [Decidable c]
    (h1 : Local R g1) (h2 : Local R g2) : Local R (fun v => if c then g1 v else g2 v) := by
  by_cases hc : c
  · simpa [hc] using h1
  · simpa [hc] using h2

theorem Local.byMode {R : Node → Prop} {g1 g2 : Visitor → Visitor}
    (h1 : Local R g1) (h2 : Local R g2) :
    Local R (fun v => if v.mode = true then g1 v else g2 v) := by
  intro v
  by_cases hv : v.mode = true
  · obtain ⟨f1, m1, c1⟩ := h1 v
    refine ⟨?_, ?_, fun w hs hm hp => ?_⟩
    · dsimp only; rw [if_pos hv]; exact f1
    · dsimp only; rw [if_pos hv]; exact m1
    · dsimp only; rw [if_pos hv, if_pos (hm.trans hv)]; exact c1 w hs hm hp
  · obtain ⟨f1, m1, c1⟩ := h2 v
    have hw : ∀ w : Visitor, w.mode = v.mode → ¬ w.mode = true := fun w hm => by
      rw [hm]; exact hv
    refine ⟨?_, ?_, fun w hs hm hp => ?_⟩
    · dsimp only; rw [if_neg hv]; exact f1
    · dsimp only; rw [if_neg hv]; exact m1
    · dsimp only; rw [if_neg hv, if_neg (hw w hm)]; exact c1 w hs hm hp

theorem matchSpecNames_local (R : Node → Prop) (tn : String) (k : DeclType)
    (bump : AnalysisState → AnalysisState) (spec : Node) :
    Local R (fun v => matchSpecNames tn k bump spec v) := by
  unfold matchSpecNames
  split
  · apply Local.foldl
    intro id
    split
    · apply Local.ite
      · exact Local.state R (fun s => bump (s.addDecl (createDecl id k)))
      · exact Local.id R
    · exact Local.id R
  · exact Local.id R

theorem matchFieldNames_local (R : Node → Prop) (tn : String) (k : DeclType)
    (bump : AnalysisState → AnalysisState) (names : List String) (type : Option Node) :
    Local R (fun v => matchFieldNames tn k bump names type v) := by
  unfold matchFieldNames
  apply Local.foldl
  intro id
  split
  · apply Local.ite
    · exact Local.state R (fun s => bump (s.addDecl (createDecl id k)))
    · exact Local.id R
  · exact Local.id R

theorem matchCondAssignDecl_local (R : Node → Prop) (lhs rhs : List Node) :
    Local R (fun v => matchCondAssignDecl lhs rhs v) := by
  unfold matchCondAssignDecl
  apply Local.foldl
  intro r
  split
  · apply Local.ite
    · split
      · rename_i id _
        exact Local.state R (fun s => (s.addDecl (createDecl id .Cond)).addCondDecl)
      · exact Local.id R
    · exact Local.id R
  · exact Local.id R

theorem matchNewCond_local (R : Node → Prop) (fn : Node) :
    Local R (fun v => matchNewCond fn v) := by
  unfold matchNewCond
  split
  · apply Local.ite
    · exact Local.state R AnalysisState.addCondNew
    · exact Local.id R
  · exact Local.id R

theorem Local.usePrinter (x : Node) (h : AnalysisState → String → AnalysisState) :
    Local (fun y => y = x) (fun v => { v with state := h v.state (v.fprint x) }) :=
  fun _ => ⟨rfl, rfl, fun _ hs _ hp => by simp [hs, hp x rfl]⟩

theorem matchGenDecl_local (R : Node → Prop) (specs : List Node) :
    Local R (fun v => matchCondDecl specs (matchOnceDecl specs (matchLockerDecl specs
      (matchRWMutexDecl specs (matchMutexDecl specs (matchWaitGroupDecl specs v)))))) := by
  have hWG : Local R (fun v => matchWaitGroupDecl specs v) :=
    Local.foldl _ (fun spec => matchSpecNames_local R _ _ _ spec) specs
  have hMu : Local R (fun v => matchMutexDecl specs v) :=
    Local.foldl _ (fun spec => matchSpecNames_local R _ _ _ spec) specs
  have hRW : Local R (fun v => matchRWMutexDecl specs v) :=
    Local.foldl _ (fun spec => matchSpecNames_local R _ _ _ spec) specs
  have hLk : Local R (fun v => matchLockerDecl specs v) := by
    unfold matchLockerDecl
    split
    · exact Local.id R
    · exact matchSpecNames_local R _ _ _ _
  have hOn : Local R (fun v => matchOnceDecl specs v) :=
    Local.foldl _ (fun spec => matchSpecNames_local R _ _ _ spec) specs
  have hCo : Local R (fun v => matchCondDecl specs v) :=
    Local.foldl _ (fun spec => matchSpecNames_local R _ _ _ spec) specs
  exact Local.comp (Local.comp (Local.comp (Local.comp (Local.comp hWG hMu) hRW) hLk) hOn) hCo

theorem matchField_local (R : Node → Prop) (names : List String) (type : Option Node) :
    Local R (fun v => matchCondParamDecl names type (matchOnceParamDecl names type
      (matchLockerParamDecl names type (matchRWMutexParamDecl names type
        (matchMutexParamDecl names type (matchWaitGroupParamDecl names type v)))))) := by
  have h : ∀ tn k bump, Local R (fun v => matchFieldNames tn k bump names type v) :=
    fun tn k bump => matchFieldNames_local R tn k bump names type
  exact Local.comp (Local.comp (Local.comp (Local.comp (Local.comp (h _ _ _) (h _ _ _))
    (h _ _ _)) (h _ _ _)) (h _ _ _)) (h _ _ _)

theorem matchSelector_local (x : Node) (sel : String) :
    Local (fun y => y = x) (fun v => matchDo x sel (matchBroadcast x sel (matchSignal x sel
      (matchUnlock x sel (matchLock x sel (matchWait x sel (matchAdd x sel
        (matchDone x sel v)))))))) := by
  have h : ∀ (name : String) (op : AnalysisState → String → AnalysisState),
      Local (fun y => y = x)
        (fun v => if sel = name then { v with state := op v.state (v.fprint x) } else v) :=
    fun name op => Local.ite _ (Local.usePrinter x op) (Local.id _)
  exact Local.comp (Local.comp (Local.comp (Local.comp (Local.comp (Local.comp (Local.comp
    (h "Done" AnalysisState.addDone) (h "Add" AnalysisState.addAdd))
    (h "Wait" AnalysisState.addWait)) (h "Lock" AnalysisState.addLock))
    (h "Unlock" AnalysisState.addUnlock)) (h "Signal" AnalysisState.addSignal))
    (h "Broadcast" AnalysisState.addBroadcast)) (h "Do" AnalysisState.addDo)

theorem Visit_local (n : Node) :
    Local (fun x => x ∈ receiversOf [n]) (fun v => v.Visit n) := by
  cases n with
  | GenDecl specs => exact Local.byMode (matchGenDecl_local _ specs) (Local.id _)
  | Field names type => exact Local.byMode (matchField_local _ names type) (Local.id _)
  | AssignStmt lhs rhs =>
    exact Local.byMode (matchCondAssignDecl_local _ lhs rhs) (Local.id _)
  | CallExpr fn args => exact Local.byMode (Local.id _) (matchNewCond_local _ fn)
  | SelectorExpr x sel =>
    exact Local.byMode (Local.id _)
      (Local.mono (matchSelector_local x sel) (fun y hy => by simp [receiversOf, hy]))
  | _ => exact Local.byMode (Local.id _) (Local.id _)

theorem receiversOf_cons (n : Node) (rest : List Node) :
    receiversOf (n :: rest) = receiversOf [n] ++ receiversOf rest := by
  cases n <;> rfl

theorem walk_nodes_local (nodes : List Node) :
    Local (fun x => x ∈ receiversOf nodes) (fun v => nodes.foldl Visitor.Visit v) := by
  induction nodes with
  | nil => exact Local.id _
  | cons n rest ih =>
    refine @Local.comp _ (fun v => v.Visit n) _ (Local.mono (Visit_local n) ?_)
      (Local.mono ih ?_)
    · intro x hx; rw [receiversOf_cons]; exact List.mem_append_left _ hx
    · intro x hx; rw [receiversOf_cons]; exact List.mem_append_right _ hx

theorem processFile_congr (f g : Node → String) (file : Node)
    (h : ∀ x ∈ receiversOf (preorder file), f x = g x) :
    processFile f file = processFile g file := by
  have hL := walk_nodes_local (preorder file)
  have h1 := (hL ⟨g, true, { decls := [] }⟩).2.2 ⟨f, true, { decls := [] }⟩ rfl rfl h
  simp only [processFile, Walk]
  rw [h1]
  exact (hL ⟨g, false, _⟩).2.2 ⟨f, false, _⟩ rfl rfl h

theorem print_nameChain (fprint : Node → String) (hid : ∀ name, fprint (.Ident name) = name)
    (hsel : ∀ x sel, fprint (.SelectorExpr x sel) = fprint x ++ "." ++ sel) :
    ∀ x, isNameChain x = true → fprint x = printNode x
  | .Ident name, _ => by simp [hid, printNode]
  | .SelectorExpr x sel, h => by
    rw [hsel, print_nameChain fprint hid hsel x (by simpa [isNameChain] using h)]
    simp [printNode]
  | .BasicLit _, h | .StarExpr _, h | .UnaryExpr _ _, h | .BinaryExpr _ _ _, h
  | .ParenExpr _, h | .IndexExpr _ _, h | .CallExpr _ _, h | .FuncLit _ _, h
  | .CompositeLit _ _, h | .FuncType _ _, h | .StructType _, h | .FieldList _, h
  | .Field _ _, h | .ExprStmt _, h | .AssignStmt _ _, h | .DeclStmt _, h | .GoStmt _, h
  | .DeferStmt _, h | .ReturnStmt _, h | .BlockStmt _, h | .IfStmt _ _ _ _, h
  | .ForStmt _ _ _ _, h | .RangeStmt _ _ _ _, h | .ImportSpec _, h | .ValueSpec _ _ _, h
  | .TypeSpec _ _, h | .GenDecl _, h | .FuncDecl _ _ _ _, h | .File _ _, h => by
    simp [isNameChain] at h

theorem processFile_of_nameChains (fprint : Node → String)
    (hid : ∀ name, fprint (.Ident name) = name)
    (hsel : ∀ x sel, fprint (.SelectorExpr x sel) = fprint x ++ "." ++ sel) (file : Node)
    (hfile : (receiversOf (preorder file)).all isNameChain = true) :
    processFile fprint file = processFile printNode file :=
  processFile_congr fprint printNode file (fun x hx =>
    print_nameChain fprint hid hsel x (List.all_eq_true.mp hfile x hx))

/-! ## Declarations met more than once -/

/-- C1, as amended.  The declaration counter counts encounters, not insertions: visiting
the declaration `var name sync.K` in declaration mode increments the counter of `K` by one
every time, so two visits increment it by two, while the second visit leaves the table as
it was after the first one, with a declaration of kind `K` listed under the name. -/
theorem declaration_counter_counts_encounters (k : DeclType) (hk : k ≠ .Unknown)
    (v : Visitor) (hm : v.mode = true) (name : String) :
    (v.Visit (varSpecDecl name k)).state.counts.declCount k =
      v.state.counts.declCount k + 1 ∧
    ((v.Visit (varSpecDecl name k)).Visit (varSpecDecl name k)).state.counts.declCount k =
      v.state.counts.declCount k + 2 ∧
    ((v.Visit (varSpecDecl name k)).Visit (varSpecDecl name k)).state.decls =
      (v.Visit (varSpecDecl name k)).state.decls ∧
    ∃ ds, mapGet (v.Visit (varSpecDecl name k)).state.decls name = some ds ∧
      ∃ e ∈ ds, e.typeof = k := by
  have h1 := visit_varSpecDecl k hk v hm name
  have hm1 : (v.Visit (varSpecDecl name k)).mode = true :=
    ((Visit_local (varSpecDecl name k) v).2.1).trans hm
  have h2 := visit_varSpecDecl k hk (v.Visit (varSpecDecl name k)) hm1 name
  refine ⟨h1.2, by rw [h2.2, h1.2], ?_, ?_⟩
  · rw [h2.1]; exact (addDecl_twice_decls v.state _ ⟨name, k⟩ h1.1).trans h1.1.symm
  · rw [h1.1]; exact addDecl_listed v.state ⟨name, k⟩

/-- C1, at a concrete input: `var wg sync.WaitGroup` met twice by a fresh visitor. -/
theorem declaration_counter_counts_encounters_witness :
    ((Visitor.mk printNode true {}).Visit
      (varSpecDecl "wg" .WaitGroup)).state.counts.declCount .WaitGroup =
      (Visitor.mk printNode true {}).state.counts.declCount .WaitGroup + 1 ∧
    (((Visitor.mk printNode true {}).Visit (varSpecDecl "wg" .WaitGroup)).Visit
      (varSpecDecl "wg" .WaitGroup)).state.counts.declCount .WaitGroup =
      (Visitor.mk printNode true {}).state.counts.declCount .WaitGroup + 2 ∧
    (((Visitor.mk printNode true {}).Visit (varSpecDecl "wg" .WaitGroup)).Visit
      (varSpecDecl "wg" .WaitGroup)).state.decls =
      ((Visitor.mk printNode true {}).Visit (varSpecDecl "wg" .WaitGroup)).state.decls ∧
    ∃ ds, mapGet ((Visitor.mk printNode true {}).Visit
        (varSpecDecl "wg" .WaitGroup)).state.decls "wg" = some ds ∧
      ∃ e ∈ ds, e.typeof = DeclType.WaitGroup :=
  declaration_counter_counts_encounters .WaitGroup (by decide) (Visitor.mk printNode true {})
    rfl "wg"

/-- C1, counterexample to the claim as stated.  In the unit that declares
`var wg sync.WaitGroup` in two functions the counter `waitGroupDecls` ends at 2, not 1,
although the table holds a single declaration of `wg`. -/
theorem twice_declared_counted_twice :
    (processFile printNode twiceDeclaredUnit).counts.waitGroupDecls = 2 ∧
    (processFile printNode twiceDeclaredUnit).counts.waitGroupDecls ≠ 1 ∧
    (processFile printNode twiceDeclaredUnit).decls = [("wg", [⟨"wg", .WaitGroup⟩])] := by
  decide

/-! ## End-to-end scenarios -/

/-- C2, as amended.  For every printer that renders identifiers and selectors as
`go/printer` does: when `c` is bound by the assignment statement `c := sync.NewCond(&mu)`
after `var mu sync.Mutex`, the calls `c.L.Lock()` and `c.L.Unlock()` are counted under
Cond (`mutexDecls`, `condDecls`, `condNew`, `condLock`, `condUnlock` are 1, every other
cell is 0); when `c` is bound by the declaration `var c = sync.NewCond(&mu)`, which is a
value spec without a type and not an assignment statement, `c` is not recorded and both
calls are counted under Unknown. -/
theorem cond_unit_counts (fprint : Node → String)
    (hid : ∀ name, fprint (.Ident name) = name)
    (hsel : ∀ x sel, fprint (.SelectorExpr x sel) = fprint x ++ "." ++ sel) :
    (processFile fprint condAssignUnit).counts =
      { mutexDecls := 1, condDecls := 1, condNew := 1, condLock := 1, condUnlock := 1 } ∧
    (processFile fprint condVarUnit).counts =
      { mutexDecls := 1, condNew := 1, unknownLock := 1, unknownUnlock := 1 } := by
  rw [processFile_of_nameChains fprint hid hsel condAssignUnit (by decide),
    processFile_of_nameChains fprint hid hsel condVarUnit (by decide)]
  decide

/-- C2, at a concrete input: the printer `printNode`. -/
theorem cond_unit_counts_witness :
    (processFile printNode condAssignUnit).counts =
      { mutexDecls := 1, condDecls := 1, condNew := 1, condLock := 1, condUnlock := 1 } ∧
    (processFile printNode condVarUnit).counts =
      { mutexDecls := 1, condNew := 1, unknownLock := 1, unknownUnlock := 1 } :=
  cond_unit_counts printNode (fun _ => rfl) (fun _ _ => rfl)

/-- C2, counterexample to the claim as stated.  For the unit written with
`var c = sync.NewCond(&mu)` the analysis gives `condDecls = 0`, `condLock = 0` and
`condUnlock = 0`; the two calls are counted in `unknownLock` and `unknownUnlock`. -/
theorem cond_var_unit_not_recorded :
    (processFile printNode condVarUnit).counts.mutexDecls = 1 ∧
    (processFile printNode condVarUnit).counts.condNew = 1 ∧
    (processFile printNode condVarUnit).counts.condDecls = 0 ∧
    (processFile printNode condVarUnit).counts.condLock = 0 ∧
    (processFile printNode condVarUnit).counts.condUnlock = 0 ∧
    (processFile printNode condVarUnit).counts.unknownLock = 1 ∧
    (processFile printNode condVarUnit).counts.unknownUnlock = 1 := by
  decide

/-- C3.  For every printer that renders identifiers and selectors as `go/printer` does,
the unit with `var wg sync.WaitGroup`, `wg.Add(1)`, `wg.Wait()` and `wg.Done()` inside a
function literal started with `go` yields `waitGroupDecls`, `waitGroupAdd`,
`waitGroupWait` and `waitGroupDone` equal to 1 and every other cell equal to 0. -/
theorem waitgroup_unit_counts (fprint : Node → String)
    (hid : ∀ name, fprint (.Ident name) = name)
    (hsel : ∀ x sel, fprint (.SelectorExpr x sel) = fprint x ++ "." ++ sel) :
    (processFile fprint waitGroupUnit).counts =
      { waitGroupDecls := 1, waitGroupAdd := 1, waitGroupWait := 1, waitGroupDone := 1 } := by
  rw [processFile_of_nameChains fprint hid hsel waitGroupUnit (by decide)]
  decide

/-- C3, at a concrete input: the printer `printNode`. -/
theorem waitgroup_unit_counts_witness :
    (processFile printNode waitGroupUnit).counts =
      { waitGroupDecls := 1, waitGroupAdd := 1, waitGroupWait := 1, waitGroupDone := 1 } :=
  waitgroup_unit_counts printNode (fun _ => rfl) (fun _ _ => rfl)

/-! ## The embedded locker field `L` -/

/-- C9, the code at the failing input.  With `L` declared once as Locker and `c`
undeclared, the last segment of the receiver text `c.L` is the key `L`, yet `addLock`
tests the whole text `c.L` against the table, strips `.L`, looks up `c` and increments
`unknownLock` instead of `lockerLock`; so does the whole analysis of a unit with a struct
field `L sync.Locker` and the call `c.L.Lock()`. -/
theorem locker_field_resolved_against_base :
    mapGet lockerFieldState.decls (splitTarget "c.L") = some [⟨"L", .Locker⟩] ∧
    lockTarget lockerFieldState "c.L" = "c" ∧
    lockerFieldState.addLock "c.L" = lockerFieldState.addUnknownLock ∧
    lockerFieldState.addLock "c.L" ≠ lockerFieldState.addLockerLock ∧
    lockerFieldState.addUnlock "c.L" = lockerFieldState.addUnknownUnlock ∧
    (processFile printNode lockerFieldUnit).decls = [("L", [⟨"L", .Locker⟩])] ∧
    (processFile printNode lockerFieldUnit).counts = { lockerDecls := 1, unknownLock := 1 } := by
  decide

/-! ## Frame of a classified call -/

/-- C10.  For each of the eight operations, every state and every receiver text, the call
leaves the table unchanged, increases exactly one of the thirty cells by exactly one and
leaves the other cells unchanged, so the sum of all cells grows by exactly one. -/
theorem classify_increments_one_cell (op : Operation) (s : AnalysisState) (target : String) :
    (op.classify s target).decls = s.decls ∧
    (∃ i, i < 30 ∧ ∀ j, j < 30 →
      (op.classify s target).counts.cells.getD j 0 =
        s.counts.cells.getD j 0 + (if j = i then 1 else 0)) ∧
    (op.classify s target).counts.total = s.counts.total + 1 := by
  cases op <;>
    simp only [Operation.classify, AnalysisState.addDone,
        AnalysisState.addAdd, AnalysisState.addWait, AnalysisState.addLock,
        AnalysisState.addUnlock, AnalysisState.addSignal, AnalysisState.addBroadcast,
        AnalysisState.addDo] <;>
    split <;> (try split_ifs) <;>
    first
    | exact one_cell s _ 6 rfl (by decide) rfl
    | exact one_cell s _ 7 rfl (by decide) rfl
    | exact one_cell s _ 8 rfl (by decide) rfl
    | exact one_cell s _ 9 rfl (by decide) rfl
    | exact one_cell s _ 10 rfl (by decide) rfl
    | exact one_cell s _ 11 rfl (by decide) rfl
    | exact one_cell s _ 12 rfl (by decide) rfl
    | exact one_cell s _ 13 rfl (by decide) rfl
    | exact one_cell s _ 14 rfl (by decide) rfl
    | exact one_cell s _ 15 rfl (by decide) rfl
    | exact one_cell s _ 16 rfl (by decide) rfl
    | exact one_cell s _ 17 rfl (by decide) rfl
    | exact one_cell s _ 18 rfl (by decide) rfl
    | exact one_cell s _ 19 rfl (by decide) rfl
    | exact one_cell s _ 21 rfl (by decide) rfl
    | exact one_cell s _ 22 rfl (by decide) rfl
    | exact one_cell s _ 23 rfl (by decide) rfl
    | exact one_cell s _ 24 rfl (by decide) rfl
    | exact one_cell s _ 25 rfl (by decide) rfl
    | exact one_cell s _ 26 rfl (by decide) rfl
    | exact one_cell s _ 27 rfl (by decide) rfl
    | exact one_cell s _ 28 rfl (by decide) rfl
    | exact one_cell s _ 29 rfl (by decide) rfl

/-! ## Tables, declaration shapes, the usage walk and the output row -/

theorem mapGet_mapSet_ne (m : DeclMap) (k k' : String) (v : List Declaration) (h : k' ≠ k) :
    mapGet (mapSet m k v) k' = mapGet m k' := by
  induction m with
  | nil =>
    have h' : ¬ k = k' := fun e => h e.symm
    simp [mapSet, mapGet, h']
  | cons p m ih =>
    obtain ⟨k1, v1⟩ := p
    by_cases hk : k1 = k
    · subst hk
      have h' : ¬ k1 = k' := fun e => h e.symm
      simp [mapSet, mapGet, h']
    · simp only [mapSet, hk, if_false, mapGet, ih]

theorem mem_mapSet (m : DeclMap) (k : String) (v : List Declaration)
    (p : String × List Declaration) (hp : p ∈ mapSet m k v) : p = (k, v) ∨ p ∈ m := by
  induction m with
  | nil => simp [mapSet] at hp; exact Or.inl hp
  | cons q m ih =>
    obtain ⟨k1, v1⟩ := q
    by_cases hk : k1 = k
    · simp only [mapSet, hk, if_true, List.mem_cons] at hp
      rcases hp with hp | hp
      · exact Or.inl hp
      · exact Or.inr (by simp [hp])
    · simp only [mapSet, hk, if_false, List.mem_cons] at hp
      rcases hp with hp | hp
      · exact Or.inr (by simp [hp])
      · rcases ih hp with h | h
        · exact Or.inl h
        · exact Or.inr (by simp [h])

theorem mapGet_eq_none_iff (m : DeclMap) (k : String) :
    mapGet m k = none ↔ k ∉ m.map Prod.fst := by
  induction m with
  | nil => simp [mapGet]
  | cons q m ih =>
    obtain ⟨k1, v1⟩ := q
    by_cases hk : k1 = k
    · simp [mapGet, hk]
    · have hk' : ¬ k = k1 := fun e => hk e.symm
      simp only [mapGet, hk, if_false, ih, List.map_cons, List.mem_cons, hk', false_or]

theorem keys_mapSet (m : DeclMap) (k : String) (v : List Declaration) :
    (mapSet m k v).map Prod.fst =
      if k ∈ m.map Prod.fst then m.map Prod.fst else m.map Prod.fst ++ [k] := by
  induction m with
  | nil => simp [mapSet]
  | cons q m ih =>
    obtain ⟨k1, v1⟩ := q
    by_cases hk : k1 = k
    · simp [mapSet, hk]
    · have hk' : ¬ k = k1 := fun e => hk e.symm
      simp only [mapSet, hk, if_false, List.map_cons, ih, List.mem_cons, hk', false_or]
      split_ifs <;> simp

theorem keys_mapSet_nodup (m : DeclMap) (k : String) (v : List Declaration)
    (h : (m.map Prod.fst).Nodup) : ((mapSet m k v).map Prod.fst).Nodup := by
  rw [keys_mapSet]
  split_ifs with hk
  · exact h
  · exact List.Nodup.append h (List.nodup_singleton k) (by simpa using hk)

theorem mapGet_of_mem (m : DeclMap) (h : (m.map Prod.fst).Nodup)
    (p : String × List Declaration) (hp : p ∈ m) : mapGet m p.1 = some p.2 := by
  induction m with
  | nil => simp at hp
  | cons q m ih =>
    obtain ⟨k1, v1⟩ := q
    simp only [List.map_cons, List.nodup_cons] at h
    rcases List.mem_cons.mp hp with hp | hp
    · subst hp; simp [mapGet]
    · have hne : k1 ≠ p.1 := fun e => h.1 (e ▸ List.mem_map_of_mem Prod.fst hp)
      simp only [mapGet, hne, if_false]
      exact ih h.2 hp

theorem tableInv_mapSet {m : DeclMap} (hm : TableInv m) (k : String) (v : List Declaration)
    (h1 : v ≠ []) (h2 : ∀ d ∈ v, d.name = k) (h3 : (v.map Declaration.typeof).Nodup) :
    TableInv (mapSet m k v) := by
  refine ⟨keys_mapSet_nodup m k v hm.1, fun p hp => ?_⟩
  rcases mem_mapSet m k v p hp with rfl | hp
  · exact ⟨h1, h2, h3⟩
  · exact hm.2 p hp

theorem tableInv_addDecl {s : AnalysisState} (hs : TableInv s.decls) (d : Declaration) :
    TableInv (s.addDecl d).decls := by
  unfold AnalysisState.addDecl
  split
  · rename_i ds hds
    dsimp only
    split_ifs with hf
    · obtain ⟨h1, h2, h3⟩ := hs.2 _ (mapGet_mem _ _ _ hds)
      refine tableInv_mapSet hs _ _ (by simp) ?_ ?_
      · intro e he
        rcases List.mem_append.mp he with he | he
        · exact h2 e he
        · simp at he; rw [he]
      · have hnot : d.typeof ∉ ds.map Declaration.typeof := by
          simp only [Bool.not_eq_true', List.any_eq_false, decide_eq_true_eq] at hf
          simpa using hf
        simp only [List.map_append, List.map_cons, List.map_nil]
        exact List.Nodup.append h3 (List.nodup_singleton _) (by simpa using hnot)
    · exact hs
  · exact tableInv_mapSet hs _ _ (by simp) (by simp) (by simp)

theorem reachable_tableInv {s : AnalysisState} (hs : Reachable s) : TableInv s.decls := by
  induction hs with
  | fresh c => exact ⟨List.nodup_nil, fun p hp => by simp at hp⟩
  | addDecl s d _ ih => exact tableInv_addDecl ih d
  | counts s c _ ih => exact ih

theorem reachable_foldl (s : AnalysisState) (hs : Reachable s) (ds : List Declaration) :
    Reachable (ds.foldl AnalysisState.addDecl s) := by
  induction ds generalizing s with
  | nil => exact hs
  | cons d ds ih => exact ih _ (Reachable.addDecl s d hs)

theorem tableInv_all_nodup {m : DeclMap} (hm : TableInv m) :
    (m.flatMap Prod.snd).Nodup := by
  rw [List.nodup_flatMap]
  refine ⟨fun p hp => List.Nodup.of_map _ (hm.2 p hp).2.2, ?_⟩
  have hk : List.Pairwise (fun a b : String × List Declaration => a.1 ≠ b.1) m := by
    have := hm.1
    rwa [List.Nodup, List.pairwise_map] at this
  refine List.Pairwise.imp_of_mem ?_ hk
  intro a b ha hb hab d hda hdb
  exact hab (((hm.2 a ha).2.1 d hda).symm.trans ((hm.2 b hb).2.1 d hdb))

/-- C11.  After any sequence of `addDecl` calls that starts from the empty table, the
keys of the table are pairwise different, the list of all declarations held in the table
has no duplicates (no two declarations with identical name and kind), and under every key
the declarations, and even their kinds, are pairwise different. -/
theorem table_never_holds_duplicates (c : Counts) (ds : List Declaration) :
    ((ds.foldl AnalysisState.addDecl { decls := [], counts := c }).decls.map Prod.fst).Nodup ∧
    ((ds.foldl AnalysisState.addDecl { decls := [], counts := c }).decls.flatMap Prod.snd).Nodup ∧
    ∀ p ∈ (ds.foldl AnalysisState.addDecl { decls := [], counts := c }).decls,
      p.2.Nodup ∧ (p.2.map Declaration.typeof).Nodup := by
  have hinv := reachable_tableInv (reachable_foldl _ (Reachable.fresh c) ds)
  exact ⟨hinv.1, tableInv_all_nodup hinv, fun p hp =>
    ⟨List.Nodup.of_map _ (hinv.2 p hp).2.2, (hinv.2 p hp).2.2⟩⟩

theorem holds_iff_listed {m : DeclMap} (hm : TableInv m) (d : Declaration) :
    Holds m d ↔ ∃ ds, mapGet m d.name = some ds ∧ ∃ e ∈ ds, e.typeof = d.typeof := by
  constructor
  · rintro ⟨p, hp, hd⟩
    have hname : d.name = p.1 := (hm.2 p hp).2.1 d hd
    refine ⟨p.2, ?_, d, hd, rfl⟩
    rw [hname]; exact mapGet_of_mem m hm.1 p hp
  · rintro ⟨ds, hds, e, he, het⟩
    have hp := mapGet_mem m d.name ds hds
    have hname : e.name = d.name := (hm.2 _ hp).2.1 e he
    have : e = d := by
      cases e; cases d; simp_all
    exact ⟨_, hp, this ▸ he⟩

theorem addDecl_of_not_listed (s : AnalysisState) (d : Declaration)
    (h : ¬ ∃ ds, mapGet s.decls d.name = some ds ∧ ∃ e ∈ ds, e.typeof = d.typeof) :
    s.addDecl d =
      { s with decls := mapSet s.decls d.name ((mapGet s.decls d.name).getD [] ++ [d]) } := by
  unfold AnalysisState.addDecl
  split
  · rename_i ds hds
    have hf : ds.any (fun e => decide (e.typeof = d.typeof)) = false := by
      rw [Bool.eq_false_iff]
      intro hany
      exact h ⟨ds, hds, by simpa using hany⟩
    simp [hf, hds]
  · rename_i hnone
    simp [hnone]

theorem addDecl_idem (s : AnalysisState) (d : Declaration) :
    (s.addDecl d).addDecl d = s.addDecl d := by
  obtain ⟨ds, hds, he⟩ := addDecl_listed s d
  exact addDecl_of_listed _ d ds hds he

/-- C12.  `addDecl` is insert-if-absent and idempotent.  In every reachable state: if the
table already holds the declaration, the state is unchanged; otherwise the counters are
unchanged, the declaration is appended at the end of the list under its name, and every
other key keeps its list; and a second `addDecl` of the same declaration changes nothing. -/
theorem addDecl_insert_if_absent (s : AnalysisState) (hs : Reachable s) (d : Declaration) :
    (Holds s.decls d → s.addDecl d = s) ∧
    (¬ Holds s.decls d →
      (s.addDecl d).counts = s.counts ∧
      mapGet (s.addDecl d).decls d.name = some ((mapGet s.decls d.name).getD [] ++ [d]) ∧
      ∀ k, k ≠ d.name → mapGet (s.addDecl d).decls k = mapGet s.decls k) ∧
    (s.addDecl d).addDecl d = s.addDecl d := by
  have hinv := reachable_tableInv hs
  refine ⟨fun h => ?_, fun h => ?_, addDecl_idem s d⟩
  · obtain ⟨ds, hds, he⟩ := (holds_iff_listed hinv d).mp h
    exact addDecl_of_listed s d ds hds he
  · have hnl := fun hl => h ((holds_iff_listed hinv d).mpr hl)
    rw [addDecl_of_not_listed s d hnl]
    exact ⟨rfl, mapGet_mapSet_self _ _ _, fun k hk => mapGet_mapSet_ne _ _ _ _ hk⟩

theorem sixKindsState_reachable : Reachable sixKindsState :=
  reachable_foldl _ (Reachable.fresh {})
    [⟨"wg", .WaitGroup⟩, ⟨"c", .Cond⟩, ⟨"once", .Once⟩, ⟨"mu", .Mutex⟩, ⟨"rw", .RWMutex⟩,
      ⟨"lk", .Locker⟩]

/-- C12, at concrete inputs: `mu` as Mutex is already held, `mu` as Cond is not. -/
theorem addDecl_insert_if_absent_witness :
    sixKindsState.addDecl ⟨"mu", .Mutex⟩ = sixKindsState ∧
    ((sixKindsState.addDecl ⟨"mu", .Cond⟩).counts = sixKindsState.counts ∧
      mapGet (sixKindsState.addDecl ⟨"mu", .Cond⟩).decls "mu" =
        some ((mapGet sixKindsState.decls "mu").getD [] ++ [⟨"mu", .Cond⟩]) ∧
      ∀ k, k ≠ "mu" →
        mapGet (sixKindsState.addDecl ⟨"mu", .Cond⟩).decls k = mapGet sixKindsState.decls k) ∧
    (sixKindsState.addDecl ⟨"mu", .Cond⟩).addDecl ⟨"mu", .Cond⟩ =
      sixKindsState.addDecl ⟨"mu", .Cond⟩ :=
  ⟨(addDecl_insert_if_absent sixKindsState sixKindsState_reachable ⟨"mu", .Mutex⟩).1
      (by decide),
   (addDecl_insert_if_absent sixKindsState sixKindsState_reachable ⟨"mu", .Cond⟩).2.1
      (by decide),
   (addDecl_insert_if_absent sixKindsState sixKindsState_reachable ⟨"mu", .Cond⟩).2.2⟩

theorem foldl_keep (names : List String) (v : Visitor) :
    names.foldl (fun v _ => v) v = v := by
  induction names with
  | nil => rfl
  | cons a l ih => exact ih

theorem foldl_record_names (bump : AnalysisState → AnalysisState) (k : DeclType)
    (hb : bump = bumpDecl k) (names : List String) (v : Visitor) :
    names.foldl (fun v id =>
        { v.addDef (createDecl id k) with state := bump (v.addDef (createDecl id k)).state })
      v = { v with state := (names.map (fun id => createDecl id k)).foldl record v.state } := by
  subst hb
  induction names generalizing v with
  | nil => rfl
  | cons a l ih =>
    simp only [List.foldl_cons, List.map_cons]
    rw [ih]
    rfl

theorem matchSpecNames_eq (tn : String) (k : DeclType) (bump : AnalysisState → AnalysisState)
    (hb : bump = bumpDecl k) (spec : Node) (v : Visitor) :
    matchSpecNames tn k bump spec v =
      { v with state := (specDecls tn k spec).foldl record v.state } := by
  cases spec with
  | ValueSpec names type values =>
    simp only [matchSpecNames, specDecls]
    cases type with
    | none => simp [foldl_keep]
    | some t =>
      cases t with
      | SelectorExpr x sel =>
        cases x with
        | Ident tsel =>
          by_cases h : tsel = "sync" ∧ sel = tn
          · simp only [h, and_self, if_true]
            exact foldl_record_names bump k hb names v
          · simp only [h, if_false, foldl_keep, List.foldl_nil]
        | _ => simp [foldl_keep]
      | _ => simp [foldl_keep]
  | _ => rfl

theorem foldl_matchSpecNames (tn : String) (k : DeclType)
    (bump : AnalysisState → AnalysisState) (hb : bump = bumpDecl k) (specs : List Node)
    (v : Visitor) :
    specs.foldl (fun v spec => matchSpecNames tn k bump spec v) v =
      { v with state := (specs.flatMap (specDecls tn k)).foldl record v.state } := by
  induction specs generalizing v with
  | nil => rfl
  | cons a l ih =>
    simp only [List.foldl_cons, List.flatMap_cons, List.foldl_append]
    rw [matchSpecNames_eq tn k bump hb, ih]

theorem matchFieldNames_eq (tn : String) (k : DeclType) (bump : AnalysisState → AnalysisState)
    (hb : bump = bumpDecl k) (names : List String) (type : Option Node) (v : Visitor) :
    matchFieldNames tn k bump names type v =
      { v with state := (fieldKindDecls tn k names type).foldl record v.state } := by
  simp only [matchFieldNames, fieldKindDecls]
  cases hg : getFieldType type with
  | none => simp [foldl_keep]
  | some p =>
    obtain ⟨x, sel⟩ := p
    cases x with
    | Ident tsel =>
      by_cases h : tsel = "sync" ∧ sel = tn
      · simp only [h, and_self, if_true]
        exact foldl_record_names bump k hb names v
      · simp only [h, if_false, foldl_keep, List.foldl_nil]
    | _ => simp [foldl_keep]

theorem matchCondAssignDecl_cons (lhs : List Node) (r : Node) (l : List Node) (v : Visitor) :
    matchCondAssignDecl lhs (r :: l) v = matchCondAssignDecl lhs l
      { v with state := (assignRhsDecls lhs r).foldl record v.state } := by
  simp only [matchCondAssignDecl, List.foldl_cons]
  congr 1
  cases r with
  | CallExpr fn args =>
    cases fn with
    | SelectorExpr x sel =>
      cases x with
      | Ident tid =>
        simp only [assignRhsDecls]
        by_cases h : tid = "sync" ∧ sel = "NewCond"
        · simp only [h, and_self, if_true]
          cases lhs.head? with
          | none => rfl
          | some t => cases t <;> rfl
        · simp only [h, if_false, List.foldl_nil]
      | _ => rfl
    | _ => rfl
  | _ => rfl

theorem matchCondAssignDecl_eq (lhs rhs : List Node) (v : Visitor) :
    matchCondAssignDecl lhs rhs v =
      { v with state := (rhs.flatMap (assignRhsDecls lhs)).foldl record v.state } := by
  induction rhs generalizing v with
  | nil => rfl
  | cons r l ih =>
    rw [matchCondAssignDecl_cons, ih]
    simp only [List.flatMap_cons, List.foldl_append]

theorem matchGenDecl_eq (specs : List Node) (v : Visitor) :
    matchCondDecl specs (matchOnceDecl specs (matchLockerDecl specs
      (matchRWMutexDecl specs (matchMutexDecl specs (matchWaitGroupDecl specs v))))) =
      { v with state := (genDeclDecls specs).foldl record v.state } := by
  have hWG : ∀ v, matchWaitGroupDecl specs v = { v with state :=
      (specs.flatMap (specDecls "WaitGroup" .WaitGroup)).foldl record v.state } :=
    foldl_matchSpecNames "WaitGroup" .WaitGroup _ rfl specs
  have hMu : ∀ v, matchMutexDecl specs v = { v with state :=
      (specs.flatMap (specDecls "Mutex" .Mutex)).foldl record v.state } :=
    foldl_matchSpecNames "Mutex" .Mutex _ rfl specs
  have hRW : ∀ v, matchRWMutexDecl specs v = { v with state :=
      (specs.flatMap (specDecls "RWMutex" .RWMutex)).foldl record v.state } :=
    foldl_matchSpecNames "RWMutex" .RWMutex _ rfl specs
  have hLk : ∀ v, matchLockerDecl specs v = { v with state :=
      (match specs with
        | [] => []
        | spec :: _ => specDecls "Locker" .Locker spec).foldl record v.state } := by
    intro v
    cases specs with
    | nil => rfl
    | cons a l => exact matchSpecNames_eq "Locker" .Locker _ rfl a v
  have hOn : ∀ v, matchOnceDecl specs v = { v with state :=
      (specs.flatMap (specDecls "Once" .Once)).foldl record v.state } :=
    foldl_matchSpecNames "Once" .Once _ rfl specs
  have hCo : ∀ v, matchCondDecl specs v = { v with state :=
      (specs.flatMap (specDecls "Cond" .Cond)).foldl record v.state } :=
    foldl_matchSpecNames "Cond" .Cond _ rfl specs
  rw [hWG, hMu, hRW, hLk, hOn, hCo]
  simp only [genDeclDecls, List.foldl_append]

theorem matchField_eq (names : List String) (type : Option Node) (v : Visitor) :
    matchCondParamDecl names type (matchOnceParamDecl names type
      (matchLockerParamDecl names type (matchRWMutexParamDecl names type
        (matchMutexParamDecl names type (matchWaitGroupParamDecl names type v))))) =
      { v with state := (fieldDecls names type).foldl record v.state } := by
  have h : ∀ tn k bump, bump = bumpDecl k → ∀ v, matchFieldNames tn k bump names type v =
      { v with state := (fieldKindDecls tn k names type).foldl record v.state } :=
    fun tn k bump hb v => matchFieldNames_eq tn k bump hb names type v
  simp only [matchWaitGroupParamDecl, matchMutexParamDecl, matchRWMutexParamDecl,
    matchLockerParamDecl, matchOnceParamDecl, matchCondParamDecl]
  rw [h "WaitGroup" .WaitGroup AnalysisState.addWaitGroupDecl rfl,
    h "Mutex" .Mutex AnalysisState.addMutexDecl rfl,
    h "RWMutex" .RWMutex AnalysisState.addRWMutexDecl rfl,
    h "Locker" .Locker AnalysisState.addLockerDecl rfl,
    h "Once" .Once AnalysisState.addOnceDecl rfl, h "Cond" .Cond AnalysisState.addCondDecl rfl]
  simp only [fieldDecls, List.foldl_append]

theorem Visit_decl (v : Visitor) (hm : v.mode = true) (n : Node) :
    v.Visit n = { v with state := (declsOf n).foldl record v.state } := by
  obtain ⟨fp, m, st⟩ := v
  simp only at hm
  subst hm
  cases n with
  | GenDecl specs => exact matchGenDecl_eq specs _
  | Field names type => exact matchField_eq names type _
  | AssignStmt lhs rhs => exact matchCondAssignDecl_eq lhs rhs _
  | _ => rfl

theorem opOfName_cases (sel : String) :
    (sel = "Done" ∧ opOfName sel = some .Done) ∨ (sel = "Add" ∧ opOfName sel = some .Add) ∨
    (sel = "Wait" ∧ opOfName sel = some .Wait) ∨ (sel = "Lock" ∧ opOfName sel = some .Lock) ∨
    (sel = "Unlock" ∧ opOfName sel = some .Unlock) ∨
    (sel = "Signal" ∧ opOfName sel = some .Signal) ∨
    (sel = "Broadcast" ∧ opOfName sel = some .Broadcast) ∨
    (sel = "Do" ∧ opOfName sel = some .Do) ∨
    ((sel ≠ "Done" ∧ sel ≠ "Add" ∧ sel ≠ "Wait" ∧ sel ≠ "Lock" ∧ sel ≠ "Unlock" ∧
      sel ≠ "Signal" ∧ sel ≠ "Broadcast" ∧ sel ≠ "Do") ∧ opOfName sel = none) := by
  unfold opOfName
  split_ifs <;> simp_all

theorem matchNewCond_eq (fn : Node) (v : Visitor) :
    matchNewCond fn v = { v with state := if isNewCond fn then v.state.addCondNew else v.state } := by
  cases fn with
  | SelectorExpr x sel =>
    cases x with
    | Ident t =>
      simp only [matchNewCond, isNewCond]
      by_cases h : sel = "NewCond" ∧ t = "sync"
      · simp [h]
      · simp [h]
    | _ => rfl
  | _ => rfl

theorem matchSelector_eq (x : Node) (sel : String) (v : Visitor) :
    matchDo x sel (matchBroadcast x sel (matchSignal x sel (matchUnlock x sel
      (matchLock x sel (matchWait x sel (matchAdd x sel (matchDone x sel v))))))) =
      { v with state := match opOfName sel with
          | some op => op.classify v.state (v.fprint x)
          | none => v.state } := by
  simp only [matchDone, matchAdd, matchWait, matchLock, matchUnlock, matchSignal,
    matchBroadcast, matchDo]
  rcases opOfName_cases sel with h | h | h | h | h | h | h | h | h
  all_goals
    obtain ⟨h1, h2⟩ := h
    first
    | (subst h1; rw [h2]; rfl)
    | (obtain ⟨a1, a2, a3, a4, a5, a6, a7, a8⟩ := h1
       simp only [h2, a1, a2, a3, a4, a5, a6, a7, a8, if_false])

theorem Visit_use (v : Visitor) (hm : v.mode = false) (n : Node) :
    v.Visit n = { v with state := useStep v.fprint v.state n } := by
  obtain ⟨fp, m, st⟩ := v
  simp only at hm
  subst hm
  cases n with
  | CallExpr fn args => exact matchNewCond_eq fn _
  | SelectorExpr x sel => exact matchSelector_eq x sel _
  | _ => rfl

theorem Walk_decl_nodes (nodes : List Node) (v : Visitor) (hm : v.mode = true) :
    nodes.foldl Visitor.Visit v =
      { v with state := (nodes.flatMap declsOf).foldl record v.state } := by
  induction nodes generalizing v with
  | nil => rfl
  | cons n l ih =>
    simp only [List.foldl_cons, List.flatMap_cons, List.foldl_append]
    rw [Visit_decl v hm]
    exact ih _ hm

theorem Walk_use_nodes (nodes : List Node) (v : Visitor) (hm : v.mode = false) :
    nodes.foldl Visitor.Visit v =
      { v with state := nodes.foldl (useStep v.fprint) v.state } := by
  induction nodes generalizing v with
  | nil => rfl
  | cons n l ih =>
    simp only [List.foldl_cons]
    rw [Visit_use v hm]
    exact ih _ hm

theorem processFile_eq (fprint : Node → String) (file : Node) :
    processFile fprint file =
      (preorder file).foldl (useStep fprint)
        (((preorder file).flatMap declsOf).foldl record { decls := [] }) := by
  have h1 := Walk_decl_nodes (preorder file) ⟨fprint, true, { decls := [] }⟩ rfl
  simp only [processFile, Walk]
  rw [h1]
  exact congrArg Visitor.state (Walk_use_nodes (preorder file) ⟨fprint, false, _⟩ rfl)

theorem bumpDecl_decls (k : DeclType) (s : AnalysisState) : (bumpDecl k s).decls = s.decls := by
  cases k <;> rfl

theorem record_decls (s : AnalysisState) (d : Declaration) :
    (record s d).decls = (s.addDecl d).decls :=
  bumpDecl_decls _ _

theorem listed_addDecl {s : AnalysisState} {name : String} {k : DeclType}
    (h : Listed s.decls name k) (d : Declaration) : Listed (s.addDecl d).decls name k := by
  by_cases hl : ∃ ds, mapGet s.decls d.name = some ds ∧ ∃ e ∈ ds, e.typeof = d.typeof
  · obtain ⟨ds, hds, he⟩ := hl
    rw [addDecl_of_listed s d ds hds he]; exact h
  · rw [addDecl_of_not_listed s d hl]
    obtain ⟨ds, hds, e, he, hek⟩ := h
    by_cases hn : name = d.name
    · subst hn
      refine ⟨_, mapGet_mapSet_self _ _ _, e, ?_, hek⟩
      simp [hds, he]
    · exact ⟨ds, by simpa [mapGet_mapSet_ne _ _ _ _ hn] using hds, e, he, hek⟩

theorem listed_record {s : AnalysisState} {name : String} {k : DeclType}
    (h : Listed s.decls name k) (d : Declaration) : Listed (record s d).decls name k := by
  rw [record_decls]; exact listed_addDecl h d

theorem listed_foldl_record {s : AnalysisState} {name : String} {k : DeclType}
    (h : Listed s.decls name k) (ds : List Declaration) :
    Listed (ds.foldl AstSearch.record s).decls name k := by
  induction ds generalizing s with
  | nil => exact h
  | cons d l ih => exact ih (listed_record h d)

theorem listed_record_self (s : AnalysisState) (d : Declaration) :
    Listed (record s d).decls d.name d.typeof := by
  rw [record_decls]; exact addDecl_listed s d

theorem listed_of_mem_foldl_record (ds : List Declaration) (s : AnalysisState)
    (d : Declaration) (hd : d ∈ ds) : Listed (ds.foldl record s).decls d.name d.typeof := by
  induction ds generalizing s with
  | nil => simp at hd
  | cons e l ih =>
    rcases List.mem_cons.mp hd with h | h
    · subst h
      exact listed_foldl_record (listed_record_self s d) l
    · exact ih _ h

theorem record_declCount (s : AnalysisState) (d : Declaration) (k : DeclType) :
    (record s d).counts.declCount k =
      s.counts.declCount k + (if d.typeof = k ∧ k ≠ .Unknown then 1 else 0) := by
  obtain ⟨n, t⟩ := d
  cases t <;> cases k <;>
    simp [record, bumpDecl, Counts.declCount, addDecl_counts, AnalysisState.addWaitGroupDecl,
      AnalysisState.addCondDecl, AnalysisState.addOnceDecl, AnalysisState.addMutexDecl,
      AnalysisState.addRWMutexDecl, AnalysisState.addLockerDecl]

theorem foldl_record_declCount (ds : List Declaration) (s : AnalysisState) (k : DeclType)
    (hk : k ≠ .Unknown) :
    (ds.foldl record s).counts.declCount k =
      s.counts.declCount k + (ds.filter (fun d => decide (d.typeof = k))).length := by
  induction ds generalizing s with
  | nil => simp
  | cons d l ih =>
    rw [List.foldl_cons, ih, record_declCount]
    by_cases h : d.typeof = k
    · simp [h, hk]; omega
    · simp [h]

theorem getFieldType_eq_some (type : Option Node) (x : Node) (sel : String)
    (h : getFieldType type = some (x, sel)) :
    type = some (.SelectorExpr x sel) ∨ type = some (.StarExpr (.SelectorExpr x sel)) := by
  cases type with
  | none => simp [getFieldType] at h
  | some t =>
    cases t with
    | SelectorExpr y s =>
      simp only [getFieldType, Option.some.injEq, Prod.mk.injEq] at h
      obtain ⟨rfl, rfl⟩ := h
      exact Or.inl rfl
    | StarExpr y =>
      cases y with
      | SelectorExpr z s =>
        simp only [getFieldType, Option.some.injEq, Prod.mk.injEq] at h
        obtain ⟨rfl, rfl⟩ := h
        exact Or.inr rfl
      | _ => simp [getFieldType] at h
    | _ => simp [getFieldType] at h

theorem fieldDecls_of_kind (k : DeclType) (hk : k ≠ .Unknown) (names : List String)
    (type : Option Node)
    (h : type = some (syncSel k.typeName) ∨ type = some (.StarExpr (syncSel k.typeName))) :
    fieldDecls names type = names.map (fun n => createDecl n k) := by
  rcases h with rfl | rfl <;> cases k <;>
    first
    | exact absurd rfl hk
    | simp [fieldDecls, fieldKindDecls, getFieldType, syncSel, DeclType.typeName]

theorem fieldKindDecls_eq_nil (tn : String) (k : DeclType) (names : List String)
    (type : Option Node)
    (h : type ≠ some (syncSel tn) ∧ type ≠ some (.StarExpr (syncSel tn))) :
    fieldKindDecls tn k names type = [] := by
  unfold fieldKindDecls
  cases hg : getFieldType type with
  | none => rfl
  | some p =>
    obtain ⟨x, sel⟩ := p
    cases x with
    | Ident tsel =>
      by_cases hc : tsel = "sync" ∧ sel = tn
      · obtain ⟨rfl, rfl⟩ := hc
        rcases getFieldType_eq_some type _ _ hg with ht | ht
        · exact absurd ht h.1
        · exact absurd ht h.2
      · simp [hc]
    | _ => rfl

theorem fieldDecls_eq_nil (names : List String) (type : Option Node)
    (h : ∀ k : DeclType, k ≠ .Unknown →
      type ≠ some (syncSel k.typeName) ∧ type ≠ some (.StarExpr (syncSel k.typeName))) :
    fieldDecls names type = [] := by
  simp only [fieldDecls,
    fieldKindDecls_eq_nil "WaitGroup" _ names type (h .WaitGroup (by decide)),
    fieldKindDecls_eq_nil "Mutex" _ names type (h .Mutex (by decide)),
    fieldKindDecls_eq_nil "RWMutex" _ names type (h .RWMutex (by decide)),
    fieldKindDecls_eq_nil "Locker" _ names type (h .Locker (by decide)),
    fieldKindDecls_eq_nil "Once" _ names type (h .Once (by decide)),
    fieldKindDecls_eq_nil "Cond" _ names type (h .Cond (by decide)), List.append_nil]

/-- C15.  For each of the six kinds `K` and every field node visited in declaration mode:
when the type of the field is `sync.K` or `*sync.K`, every name of the field is recorded
as a declaration of kind `K` (handed to `addDecl` and counted, so that a declaration of
kind `K` is listed under the name); when the type is `**sync.K`, or any expression other
than `sync.K'` and `*sync.K'` for the six kinds, nothing is recorded. -/
theorem field_records_direct_or_pointer (k : DeclType) (hk : k ≠ .Unknown) (v : Visitor)
    (hm : v.mode = true) (names : List String) :
    (∀ type, type = some (syncSel k.typeName) ∨ type = some (.StarExpr (syncSel k.typeName)) →
      (v.Visit (.Field names type)).state =
        (names.map (fun n => createDecl n k)).foldl record v.state ∧
      (∀ n ∈ names, Listed (v.Visit (.Field names type)).state.decls n k) ∧
      (v.Visit (.Field names type)).state.counts.declCount k =
        v.state.counts.declCount k + names.length) ∧
    (v.Visit (.Field names (some (.StarExpr (.StarExpr (syncSel k.typeName)))))).state =
      v.state ∧
    (∀ type, (∀ k' : DeclType, k' ≠ .Unknown →
        type ≠ some (syncSel k'.typeName) ∧ type ≠ some (.StarExpr (syncSel k'.typeName))) →
      (v.Visit (.Field names type)).state = v.state) := by
  have hnil : ∀ type, (∀ k' : DeclType, k' ≠ .Unknown →
        type ≠ some (syncSel k'.typeName) ∧ type ≠ some (.StarExpr (syncSel k'.typeName))) →
      (v.Visit (.Field names type)).state = v.state := by
    intro type h
    rw [Visit_decl v hm]
    simp only [declsOf, fieldDecls_eq_nil names type h, List.foldl_nil]
  refine ⟨fun type ht => ?_, ?_, hnil⟩
  · have hst : (v.Visit (.Field names type)).state =
        (names.map (fun n => createDecl n k)).foldl record v.state := by
      rw [Visit_decl v hm]
      simp only [declsOf, fieldDecls_of_kind k hk names type ht]
    refine ⟨hst, fun n hn => ?_, ?_⟩
    · rw [hst]
      exact listed_of_mem_foldl_record _ _ (createDecl n k)
        (List.mem_map_of_mem _ hn)
    · rw [hst, foldl_record_declCount _ _ _ hk, List.filter_eq_self.mpr, List.length_map]
      intro d hd
      obtain ⟨n, _, rfl⟩ := List.mem_map.mp hd
      simp [createDecl]
  · apply hnil
    intro k' _
    constructor <;> simp [syncSel]

theorem classify_eq_pick (op : Operation) (s : AnalysisState) (target : String) :
    op.classify s target = op.pick (verdict (mapGet s.decls (op.resolved s target))) s := by
  cases op
  case Lock | Unlock =>
    simp only [Operation.classify, Operation.resolved, AnalysisState.addLock,
      AnalysisState.addUnlock]
    generalize mapGet s.decls (lockTarget s target) = o
    rcases o with _ | (_ | ⟨⟨n, k⟩, _ | ⟨e, l⟩⟩) <;> (try cases k) <;>
      simp [verdict, Operation.pick, Operation.cell, Operation.unknown]
  all_goals
    simp only [Operation.classify, Operation.resolved, AnalysisState.addDone,
      AnalysisState.addAdd, AnalysisState.addWait, AnalysisState.addSignal,
      AnalysisState.addBroadcast, AnalysisState.addDo]
    generalize mapGet s.decls (splitTarget target) = o
    rcases o with _ | (_ | ⟨⟨n, k⟩, _ | ⟨e, l⟩⟩) <;> (try cases k) <;>
      simp [verdict, Operation.pick, Operation.cell, Operation.unknown]

theorem classify_decls (op : Operation) (s : AnalysisState) (target : String) :
    (op.classify s target).decls = s.decls := by
  rw [classify_eq_pick]
  generalize verdict (mapGet s.decls (op.resolved s target)) = o
  cases o with
  | none => cases op <;> rfl
  | some k => cases op <;> cases k <;> rfl

/-- C16.  In declaration mode an assignment with the single left-hand side `x`, an
identifier, and a single right-hand side that is a call of `sync.NewCond` records `x` as a
declaration of kind Cond and increments `condDecls`; when the left-hand side is not a bare
identifier, or the right-hand side is not a call whose callee is exactly `sync.NewCond`,
the state is unchanged. -/
theorem newcond_assignment_records_cond (v : Visitor) (hm : v.mode = true) :
    (∀ x args,
      (v.Visit (.AssignStmt [.Ident x] [.CallExpr (syncSel "NewCond") args])).state =
        (v.state.addDecl (createDecl x .Cond)).addCondDecl ∧
      Listed (v.Visit (.AssignStmt [.Ident x] [.CallExpr (syncSel "NewCond") args])).state.decls
        x .Cond ∧
      (v.Visit (.AssignStmt [.Ident x] [.CallExpr (syncSel "NewCond") args])).state.counts.condDecls
        = v.state.counts.condDecls + 1) ∧
    (∀ lhs rhs, ((∀ x, lhs ≠ .Ident x) ∨ (∀ args, rhs ≠ .CallExpr (syncSel "NewCond") args)) →
      (v.Visit (.AssignStmt [lhs] [rhs])).state = v.state) := by
  constructor
  · intro x args
    have hst : (v.Visit (.AssignStmt [.Ident x] [.CallExpr (syncSel "NewCond") args])).state =
        (v.state.addDecl (createDecl x .Cond)).addCondDecl := by
      rw [Visit_decl v hm]
      simp [declsOf, assignRhsDecls, syncSel, record, bumpDecl, createDecl]
    refine ⟨hst, ?_, ?_⟩
    · rw [hst]
      exact addDecl_listed v.state (createDecl x .Cond)
    · rw [hst]
      simp [AnalysisState.addCondDecl, addDecl_counts]
  · intro lhs rhs h
    rw [Visit_decl v hm]
    have : assignRhsDecls [lhs] rhs = [] := by
      unfold assignRhsDecls
      split
      · rename_i tid sel args
        by_cases hc : tid = "sync" ∧ sel = "NewCond"
        · obtain ⟨rfl, rfl⟩ := hc
          rcases h with h | h
          · simp only [and_self, if_true, List.head?_cons]
            split
            · rename_i id heq
              simp only [Option.some.injEq] at heq
              exact absurd heq (h id)
            · rfl
          · exact absurd rfl (h args)
        · simp [hc]
      · rfl
    simp [declsOf, this]

theorem record_opTotal (s : AnalysisState) (d : Declaration) :
    (record s d).counts.opTotal = s.counts.opTotal ∧
    (record s d).counts.condNew = s.counts.condNew := by
  obtain ⟨n, t⟩ := d
  cases t <;>
    simp [record, bumpDecl, Counts.opTotal, addDecl_counts, AnalysisState.addWaitGroupDecl,
      AnalysisState.addCondDecl, AnalysisState.addOnceDecl, AnalysisState.addMutexDecl,
      AnalysisState.addRWMutexDecl, AnalysisState.addLockerDecl]

theorem foldl_record_opTotal (ds : List Declaration) (s : AnalysisState) :
    (ds.foldl record s).counts.opTotal = s.counts.opTotal ∧
    (ds.foldl record s).counts.condNew = s.counts.condNew := by
  induction ds generalizing s with
  | nil => exact ⟨rfl, rfl⟩
  | cons d l ih =>
    rw [List.foldl_cons]
    exact ⟨(ih _).1.trans (record_opTotal s d).1, (ih _).2.trans (record_opTotal s d).2⟩

theorem classify_opTotal (op : Operation) (s : AnalysisState) (target : String) :
    (op.classify s target).counts.opTotal = s.counts.opTotal + 1 ∧
    (op.classify s target).counts.condNew = s.counts.condNew := by
  cases op <;>
    simp only [Operation.classify, AnalysisState.addDone,
        AnalysisState.addAdd, AnalysisState.addWait, AnalysisState.addLock,
        AnalysisState.addUnlock, AnalysisState.addSignal, AnalysisState.addBroadcast,
        AnalysisState.addDo] <;>
    split <;> (try split_ifs) <;>
    (constructor
     · simp only [Counts.opTotal, AnalysisState.addWaitGroupDone, AnalysisState.addWaitGroupAdd,
        AnalysisState.addWaitGroupWait, AnalysisState.addMutexLock, AnalysisState.addMutexUnlock,
        AnalysisState.addRWMutexLock, AnalysisState.addRWMutexUnlock,
        AnalysisState.addLockerLock, AnalysisState.addLockerUnlock, AnalysisState.addCondLock,
        AnalysisState.addCondUnlock, AnalysisState.addCondWait, AnalysisState.addCondSignal,
        AnalysisState.addCondBroadcast, AnalysisState.addOnceDo, AnalysisState.addUnknownDone,
        AnalysisState.addUnknownAdd, AnalysisState.addUnknownWait, AnalysisState.addUnknownLock,
        AnalysisState.addUnknownUnlock, AnalysisState.addUnknownSignal,
        AnalysisState.addUnknownBroadcast, AnalysisState.addUnknownDo]
       omega
     · rfl)

theorem useSel_counts (o : Option Operation) (s : AnalysisState) (target : String) :
    (match o with
      | some op => op.classify s target
      | none => s).counts.opTotal = s.counts.opTotal + (if o.isSome = true then 1 else 0) ∧
    (match o with
      | some op => op.classify s target
      | none => s).counts.condNew = s.counts.condNew ∧
    (match o with
      | some op => op.classify s target
      | none => s).decls = s.decls := by
  cases o with
  | none => simp
  | some op =>
    have h := classify_opTotal op s target
    have hd := classify_decls op s target
    simp [h.1, h.2, hd]

theorem useStep_counts (fprint : Node → String) (s : AnalysisState) (n : Node) :
    (useStep fprint s n).counts.opTotal =
      s.counts.opTotal + (if isOpSelector n = true then 1 else 0) ∧
    (useStep fprint s n).counts.condNew =
      s.counts.condNew + (if isNewCondCall n = true then 1 else 0) ∧
    (useStep fprint s n).decls = s.decls := by
  cases n with
  | CallExpr fn args =>
    simp only [useStep, isOpSelector, isNewCondCall]
    by_cases h : isNewCond fn = true
    · simp [h, AnalysisState.addCondNew, Counts.opTotal]
    · simp [h]
  | SelectorExpr x sel =>
    obtain ⟨h1, h2, h3⟩ := useSel_counts (opOfName sel) s (fprint x)
    exact ⟨h1, by simpa [useStep, isNewCondCall] using h2, h3⟩
  | _ => simp [useStep, isOpSelector, isNewCondCall]

theorem foldl_useStep_counts (fprint : Node → String) (nodes : List Node) (s : AnalysisState) :
    (nodes.foldl (useStep fprint) s).counts.opTotal =
      s.counts.opTotal + (nodes.filter isOpSelector).length ∧
    (nodes.foldl (useStep fprint) s).counts.condNew =
      s.counts.condNew + (nodes.filter isNewCondCall).length ∧
    (nodes.foldl (useStep fprint) s).decls = s.decls := by
  induction nodes generalizing s with
  | nil => simp
  | cons n l ih =>
    obtain ⟨h1, h2, h3⟩ := useStep_counts fprint s n
    obtain ⟨i1, i2, i3⟩ := ih (useStep fprint s n)
    rw [List.foldl_cons]
    refine ⟨?_, ?_, i3.trans h3⟩
    · rw [i1, h1, List.filter_cons]
      split_ifs
      · simp only [List.length_cons]; omega
      · omega
    · rw [i2, h2, List.filter_cons]
      split_ifs
      · simp only [List.length_cons]; omega
      · omega

/-- What the usage walk counts: for every tree, the sum of the operation-classification
counters other than `condNew` after the two walks equals the number of selector
expressions of the tree whose `Sel` is one of the eight operation names, whether or not
the selector is the callee of a call. -/
theorem opTotal_eq_op_selectors (fprint : Node → String) (file : Node) :
    (processFile fprint file).counts.opTotal =
      ((preorder file).filter isOpSelector).length := by
  rw [processFile_eq]
  have h := (foldl_useStep_counts fprint (preorder file)
    (((preorder file).flatMap declsOf).foldl record { decls := [] })).1
  rw [h, (foldl_record_opTotal _ _).1]
  simp [Counts.opTotal]

/-- C17, the code at the failing input.  The unit with the method value `f := wg.Done`
has no call expression whose callee is named like an operation, yet the usage walk, which
dispatches on the selector expression and not on the call, counts the selector:
`waitGroupDone = 1` and the sum of the operation counters is 1 instead of 0. -/
theorem method_value_is_counted :
    (processFile printNode methodValueUnit).counts.opTotal = 1 ∧
    (processFile printNode methodValueUnit).counts.waitGroupDone = 1 ∧
    ((preorder methodValueUnit).filter isOpCall).length = 0 ∧
    (processFile printNode methodValueUnit).counts =
      { waitGroupDecls := 1, waitGroupDone := 1 } := by
  decide

/-- C18.  In usage mode `Visit` on a call whose callee is exactly `sync.NewCond`
increments `condNew` by one and changes nothing else, whatever the table holds; on a call
with any other callee it leaves the state unchanged; and after the two walks `condNew`
equals the number of calls of `sync.NewCond` in the tree. -/
theorem newcond_call_counts_condNew (fprint : Node → String) (s : AnalysisState) :
    (∀ args, (Visitor.Visit ⟨fprint, false, s⟩ (.CallExpr (syncSel "NewCond") args)).state =
      s.addCondNew) ∧
    (∀ fn args, fn ≠ syncSel "NewCond" →
      (Visitor.Visit ⟨fprint, false, s⟩ (.CallExpr fn args)).state = s) ∧
    ∀ file, (processFile fprint file).counts.condNew =
      ((preorder file).filter isNewCondCall).length := by
  refine ⟨fun args => ?_, fun fn args hfn => ?_, fun file => ?_⟩
  · rw [Visit_use _ rfl]
    simp [useStep, isNewCond, syncSel]
  · rw [Visit_use _ rfl]
    have : isNewCond fn = false := by
      cases fn with
      | SelectorExpr x sel =>
        cases x with
        | Ident t =>
          simp only [isNewCond, decide_eq_false_iff_not]
          rintro ⟨rfl, rfl⟩
          exact hfn rfl
        | _ => rfl
      | _ => rfl
    simp [useStep, this]
  · rw [processFile_eq]
    have h := (foldl_useStep_counts fprint (preorder file)
      (((preorder file).flatMap declsOf).foldl record { decls := [] })).2.1
    rw [h, (foldl_record_opTotal _ _).2]
    simp

theorem useStep_quiet (fprint : Node → String) (s : AnalysisState) (n : Node)
    (h1 : isOpSelector n = false) (h2 : isNewCondCall n = false) : useStep fprint s n = s := by
  cases n with
  | CallExpr fn args =>
    simp only [isNewCondCall] at h2
    simp [useStep, h2]
  | SelectorExpr x sel =>
    have hnone : opOfName sel = none := by
      cases h : opOfName sel with
      | none => rfl
      | some op => simp [isOpSelector, h] at h1
    simp [useStep, hnone]
  | _ => rfl

/-- C19.  When no node of the tree records a declaration, is a selector named like one
of the eight operations, or is a call of `sync.NewCond`, the two walks on a fresh state
leave every cell of the Count Record at zero (and the table empty). -/
theorem quiet_unit_counts_zero (fprint : Node → String) (file : Node)
    (h : (preorder file).all quietNode = true) :
    (processFile fprint file).counts = {} ∧ (processFile fprint file).decls = [] := by
  have hq : ∀ n ∈ preorder file,
      declsOf n = [] ∧ isOpSelector n = false ∧ isNewCondCall n = false := by
    intro n hn
    have := List.all_eq_true.mp h n hn
    simpa [quietNode, List.isEmpty_iff, and_assoc] using this
  have hd : (preorder file).flatMap declsOf = [] := by
    rw [List.flatMap_eq_nil_iff]
    exact fun n hn => (hq n hn).1
  have hu : ∀ (l : List Node) (s : AnalysisState),
      (∀ n ∈ l, isOpSelector n = false ∧ isNewCondCall n = false) →
      l.foldl (useStep fprint) s = s := by
    intro l
    induction l with
    | nil => intro s _; rfl
    | cons n l ih =>
      intro s hl
      rw [List.foldl_cons, useStep_quiet fprint s n (hl n (by simp)).1 (hl n (by simp)).2]
      exact ih s (fun m hm => hl m (by simp [hm]))
  rw [processFile_eq, hd, List.foldl_nil, hu _ _ (fun n hn => (hq n hn).2)]
  exact ⟨rfl, rfl⟩

/-- C19, at a concrete input: the unit `sample/goroutines/simple01.go`. -/
theorem quiet_unit_counts_zero_witness :
    (processFile printNode simple01Unit).counts = {} ∧
    (processFile printNode simple01Unit).decls = [] :=
  quiet_unit_counts_zero printNode simple01Unit (by decide)

/-- C20.  The row of `stateToSlice` has as many entries as `stateHeaders`, namely 31; its
first entry is the file name; the headers after the first are the names of the fields of
`Counts` in source order (the six declaration counts, then the operation counts), and
entry `i` of the row, for `i` from 1 to 30, is the decimal rendering of the field that
header `i` names. -/
theorem row_follows_headers (s : AnalysisState) (fileName : String) :
    (s.stateToSlice fileName).length = stateHeaders.length ∧
    stateHeaders.length = 31 ∧
    (s.stateToSlice fileName).head? = some fileName ∧
    stateHeaders = "fileName" :: s.counts.fields.map Prod.fst ∧
    s.stateToSlice fileName = fileName :: s.counts.fields.map (fun f => strconvItoa f.2) ∧
    s.counts.fields.map Prod.snd = s.counts.cells ∧
    ∀ i, 1 ≤ i → i ≤ 30 →
      ∃ f ∈ s.counts.fields, stateHeaders.getD i "" = f.1 ∧
        (s.stateToSlice fileName).getD i "" = strconvItoa f.2 := by
  refine ⟨rfl, rfl, rfl, rfl, rfl, rfl, fun i h1 h2 => ?_⟩
  refine ⟨s.counts.fields.getD (i - 1) ("", 0), ?_, ?_, ?_⟩
  · have hlen : s.counts.fields.length = 30 := rfl
    rw [List.getD_eq_getElem _ _ (by omega)]
    exact List.getElem_mem _
  · interval_cases i <;> rfl
  · interval_cases i <;> rfl

theorem lookup_addDecl (s : AnalysisState) (d : Declaration) (k : String) :
    mapGet (s.addDecl d).decls k =
      if k = d.name then some (insertKind ((mapGet s.decls k).getD []) d)
      else mapGet s.decls k := by
  by_cases hl : ∃ ds, mapGet s.decls d.name = some ds ∧ ∃ e ∈ ds, e.typeof = d.typeof
  · obtain ⟨ds, hds, he⟩ := hl
    rw [addDecl_of_listed s d ds hds he]
    split_ifs with hk
    · subst hk
      simp [hds, insertKind, he]
    · rfl
  · rw [addDecl_of_not_listed s d hl]
    split_ifs with hk
    · subst hk
      rw [mapGet_mapSet_self]
      have hno : ¬ ∃ e ∈ (mapGet s.decls d.name).getD [], e.typeof = d.typeof := by
        intro he
        cases hg : mapGet s.decls d.name with
        | none => simp [hg] at he
        | some ds => exact hl ⟨ds, hg, by simpa [hg] using he⟩
      simp [insertKind, hno]
    · exact mapGet_mapSet_ne _ _ _ _ hk

theorem insertKind_perm {vs ws : List Declaration} (h : vs.Perm ws) (d : Declaration) :
    (insertKind vs d).Perm (insertKind ws d) := by
  have hiff : (∃ e ∈ vs, e.typeof = d.typeof) ↔ (∃ e ∈ ws, e.typeof = d.typeof) :=
    ⟨fun ⟨e, he, ht⟩ => ⟨e, h.mem_iff.mp he, ht⟩, fun ⟨e, he, ht⟩ => ⟨e, h.mem_iff.mpr he, ht⟩⟩
  unfold insertKind
  by_cases hv : ∃ e ∈ vs, e.typeof = d.typeof
  · rw [if_pos hv, if_pos (hiff.mp hv)]; exact h
  · rw [if_neg hv, if_neg (fun hw => hv (hiff.mpr hw))]
    exact h.append_right _

theorem insertKind_mem_kind (vs : List Declaration) (d : Declaration) (t : DeclType) :
    (∃ e ∈ insertKind vs d, e.typeof = t) ↔ (∃ e ∈ vs, e.typeof = t) ∨ d.typeof = t := by
  unfold insertKind
  split_ifs with h
  · constructor
    · exact Or.inl
    · rintro (h' | h')
      · exact h'
      · subst h'; exact h
  · constructor
    · rintro ⟨e, he, ht⟩
      rcases List.mem_append.mp he with he | he
      · exact Or.inl ⟨e, he, ht⟩
      · simp at he; subst he; exact Or.inr ht
    · rintro (⟨e, he, ht⟩ | h')
      · exact ⟨e, List.mem_append_left _ he, ht⟩
      · exact ⟨d, by simp, h'⟩

theorem insertKind_comm (vs : List Declaration) (d e : Declaration) (hn : d.name = e.name) :
    (insertKind (insertKind vs d) e).Perm (insertKind (insertKind vs e) d) := by
  by_cases hde : d.typeof = e.typeof
  · have : d = e := by cases d; cases e; simp_all
    subst this; exact List.Perm.refl _
  · have hed : ¬ e.typeof = d.typeof := fun h => hde h.symm
    have h1 : (∃ x ∈ insertKind vs d, x.typeof = e.typeof) ↔ ∃ x ∈ vs, x.typeof = e.typeof := by
      rw [insertKind_mem_kind]; simp [hde]
    have h2 : (∃ x ∈ insertKind vs e, x.typeof = d.typeof) ↔ ∃ x ∈ vs, x.typeof = d.typeof := by
      rw [insertKind_mem_kind]; simp [hed]
    have e1 : insertKind (insertKind vs d) e =
        if ∃ x ∈ vs, x.typeof = e.typeof then insertKind vs d else insertKind vs d ++ [e] := by
      by_cases he : ∃ x ∈ vs, x.typeof = e.typeof
      · rw [if_pos he]; exact if_pos (h1.mpr he)
      · rw [if_neg he]; exact if_neg (fun h => he (h1.mp h))
    have e2 : insertKind (insertKind vs e) d =
        if ∃ x ∈ vs, x.typeof = d.typeof then insertKind vs e else insertKind vs e ++ [d] := by
      by_cases hd : ∃ x ∈ vs, x.typeof = d.typeof
      · rw [if_pos hd]; exact if_pos (h2.mpr hd)
      · rw [if_neg hd]; exact if_neg (fun h => hd (h2.mp h))
    rw [e1, e2]
    by_cases hd : ∃ x ∈ vs, x.typeof = d.typeof <;> by_cases he : ∃ x ∈ vs, x.typeof = e.typeof
    · rw [if_pos he, if_pos hd, insertKind, insertKind, if_pos hd, if_pos he]
    · rw [if_neg he, if_pos hd, insertKind, insertKind, if_pos hd, if_neg he]
    · rw [if_pos he, if_neg hd, insertKind, insertKind, if_neg hd, if_pos he]
    · rw [if_neg he, if_neg hd, insertKind, insertKind, if_neg hd, if_neg he]
      simp only [List.append_assoc]
      exact List.Perm.append_left _ (List.Perm.swap _ _ _)

theorem tableEquiv_refl (m : DeclMap) : TableEquiv m m :=
  fun _ => ⟨rfl, List.Perm.refl _⟩

theorem tableEquiv_trans {a b c : DeclMap} (h1 : TableEquiv a b) (h2 : TableEquiv b c) :
    TableEquiv a c :=
  fun k => ⟨(h1 k).1.trans (h2 k).1, (h1 k).2.trans (h2 k).2⟩

theorem stateEquiv_refl (s : AnalysisState) : StateEquiv s s :=
  ⟨rfl, tableEquiv_refl _⟩

theorem stateEquiv_trans {a b c : AnalysisState} (h1 : StateEquiv a b) (h2 : StateEquiv b c) :
    StateEquiv a c :=
  ⟨h1.1.trans h2.1, tableEquiv_trans h1.2 h2.2⟩

theorem tableEquiv_addDecl {s t : AnalysisState} (h : TableEquiv s.decls t.decls)
    (d : Declaration) : TableEquiv (s.addDecl d).decls (t.addDecl d).decls := by
  intro k
  rw [lookup_addDecl, lookup_addDecl]
  split_ifs with hk
  · exact ⟨rfl, by simpa using insertKind_perm (h k).2 d⟩
  · exact h k

theorem lookup_addDecl_twice (s : AnalysisState) (d e : Declaration) (k : String) :
    mapGet ((s.addDecl d).addDecl e).decls k =
      if k = e.name then
        some (insertKind ((if k = d.name then
          some (insertKind ((mapGet s.decls k).getD []) d) else mapGet s.decls k).getD []) e)
      else if k = d.name then some (insertKind ((mapGet s.decls k).getD []) d)
      else mapGet s.decls k := by
  rw [lookup_addDecl, lookup_addDecl]

theorem addDecl_comm (s : AnalysisState) (d e : Declaration) :
    TableEquiv ((s.addDecl d).addDecl e).decls ((s.addDecl e).addDecl d).decls := by
  intro k
  rw [lookup_addDecl_twice s d e k, lookup_addDecl_twice s e d k]
  by_cases hd : k = d.name <;> by_cases he : k = e.name
  · rw [if_pos he, if_pos hd, if_pos hd, if_pos he]
    refine ⟨rfl, ?_⟩
    simp only [Option.getD_some]
    exact insertKind_comm _ d e (hd.symm.trans he)
  · rw [if_neg he, if_pos hd, if_pos hd, if_neg he]
    exact ⟨rfl, List.Perm.refl _⟩
  · rw [if_pos he, if_neg hd, if_neg hd, if_pos he]
    exact ⟨rfl, List.Perm.refl _⟩
  · rw [if_neg he, if_neg hd, if_neg hd, if_neg he]
    exact ⟨rfl, List.Perm.refl _⟩

theorem bumpDecl_eq (k : DeclType) (s : AnalysisState) :
    bumpDecl k s = { s with counts := (bumpDecl k { decls := [], counts := s.counts }).counts } := by
  cases k <;> rfl

theorem bumpDecl_comm (a b : DeclType) (c : Counts) :
    (bumpDecl a { decls := [], counts := (bumpDecl b { decls := [], counts := c }).counts }).counts =
    (bumpDecl b { decls := [], counts := (bumpDecl a { decls := [], counts := c }).counts }).counts := by
  cases a <;> cases b <;> rfl

theorem record_eq (s : AnalysisState) (d : Declaration) :
    record s d = { decls := (s.addDecl d).decls,
                   counts := (bumpDecl d.typeof { decls := [], counts := s.counts }).counts } := by
  rw [record, bumpDecl_eq, addDecl_counts]

theorem record_resp {s t : AnalysisState} (h : StateEquiv s t) (d : Declaration) :
    StateEquiv (record s d) (record t d) := by
  rw [record_eq, record_eq]
  exact ⟨by rw [h.1], tableEquiv_addDecl h.2 d⟩

theorem record_comm (s : AnalysisState) (d e : Declaration) :
    StateEquiv (record (record s d) e) (record (record s e) d) := by
  have h : ∀ (x y : Declaration),
      (record (record s x) y).decls = ((s.addDecl x).addDecl y).decls := by
    intro x y
    rw [record_decls]
    exact addDecl_decls_congr _ _ y (record_decls s x)
  refine ⟨?_, ?_⟩
  · simp only [record_eq]
    exact bumpDecl_comm _ _ _
  · rw [h d e, h e d]
    exact addDecl_comm s d e

theorem foldl_resp {α σ : Type} (R : σ → σ → Prop) (f : σ → α → σ)
    (hresp : ∀ s t a, R s t → R (f s a) (f t a)) (l : List α) :
    ∀ s t, R s t → R (l.foldl f s) (l.foldl f t) := by
  induction l with
  | nil => exact fun _ _ h => h
  | cons a l ih => exact fun s t h => ih _ _ (hresp s t a h)

theorem foldl_perm_rel {α σ : Type} (R : σ → σ → Prop) (hrefl : ∀ s, R s s)
    (htrans : ∀ a b c, R a b → R b c → R a c) (f : σ → α → σ)
    (hresp : ∀ s t a, R s t → R (f s a) (f t a))
    (hcomm : ∀ s a b, R (f (f s a) b) (f (f s b) a)) {l1 l2 : List α} (h : l1.Perm l2) :
    ∀ s t, R s t → R (l1.foldl f s) (l2.foldl f t) := by
  induction h with
  | nil => exact fun _ _ h => h
  | cons a _ ih => exact fun s t h => ih _ _ (hresp s t a h)
  | swap a b l =>
    intro s t h
    simp only [List.foldl_cons]
    refine foldl_resp R f hresp l _ _ ?_
    exact htrans _ _ _ (hcomm s b a) (hresp _ _ b (hresp _ _ a h))
  | trans _ _ ih1 ih2 =>
    exact fun s t h => htrans _ _ _ (ih1 s t h) (ih2 t t (hrefl t))

theorem foldl_record_perm {l1 l2 : List Declaration} (h : l1.Perm l2) (s t : AnalysisState)
    (hst : StateEquiv s t) : StateEquiv (l1.foldl record s) (l2.foldl record t) :=
  foldl_perm_rel StateEquiv stateEquiv_refl (fun _ _ _ => stateEquiv_trans) record
    (fun _ _ a h => record_resp h a) record_comm h s t hst

theorem lockTarget_congr {s t : AnalysisState} (h : TableEquiv s.decls t.decls)
    (target : String) : lockTarget s target = lockTarget t target := by
  simp only [lockTarget, (h target).1]

theorem resolved_congr (op : Operation) {s t : AnalysisState}
    (h : TableEquiv s.decls t.decls) (target : String) :
    op.resolved s target = op.resolved t target := by
  cases op <;> first | rfl | exact lockTarget_congr h target

theorem verdict_congr {m m' : DeclMap} (h : TableEquiv m m') (k : String) :
    verdict (mapGet m k) = verdict (mapGet m' k) := by
  obtain ⟨h1, h2⟩ := h k
  cases ha : mapGet m k with
  | none =>
    cases hb : mapGet m' k with
    | none => rfl
    | some ws => simp [ha, hb] at h1
  | some vs =>
    cases hb : mapGet m' k with
    | none => simp [ha, hb] at h1
    | some ws =>
      simp only [ha, hb, Option.getD_some] at h2
      match vs, ws, h2 with
      | [], ws, h2 => rw [List.nil_perm.mp h2]
      | [d], ws, h2 => rw [List.perm_singleton.mp h2.symm]
      | a :: b :: l, ws, h2 =>
        have hlen := h2.length_eq
        match ws, hlen with
        | c :: e :: l', _ => rfl

theorem pick_mem_allBumps (op : Operation) (o : Option DeclType) : op.pick o ∈ allBumps := by
  cases o with
  | none => cases op <;> simp [Operation.pick, Operation.unknown, allBumps]
  | some k => cases op <;> cases k <;>
      simp [Operation.pick, Operation.cell, Operation.unknown, allBumps]

theorem allBumps_decls (b : AnalysisState → AnalysisState) (hb : b ∈ allBumps)
    (s : AnalysisState) : (b s).decls = s.decls := by
  simp only [allBumps, List.mem_cons, List.mem_singleton, List.not_mem_nil, or_false] at hb
  rcases hb with rfl | rfl | rfl | rfl | rfl | rfl | rfl | rfl | rfl | rfl | rfl | rfl | rfl | rfl | rfl | rfl | rfl | rfl | rfl | rfl | rfl | rfl | rfl | rfl | rfl <;> rfl

theorem allBumps_counts (b : AnalysisState → AnalysisState) (hb : b ∈ allBumps)
    (s : AnalysisState) : (b s).counts = (b { decls := [], counts := s.counts }).counts := by
  simp only [allBumps, List.mem_cons, List.mem_singleton, List.not_mem_nil, or_false] at hb
  rcases hb with rfl | rfl | rfl | rfl | rfl | rfl | rfl | rfl | rfl | rfl | rfl | rfl | rfl | rfl | rfl | rfl | rfl | rfl | rfl | rfl | rfl | rfl | rfl | rfl | rfl <;> rfl

theorem allBumps_comm (b1 : AnalysisState → AnalysisState) (h1 : b1 ∈ allBumps)
    (b2 : AnalysisState → AnalysisState) (h2 : b2 ∈ allBumps) (s : AnalysisState) :
    b1 (b2 s) = b2 (b1 s) := by
  simp only [allBumps, List.mem_cons, List.mem_singleton, List.not_mem_nil, or_false] at h1 h2
  rcases h1 with rfl | rfl | rfl | rfl | rfl | rfl | rfl | rfl | rfl | rfl | rfl | rfl | rfl | rfl | rfl | rfl | rfl | rfl | rfl | rfl | rfl | rfl | rfl | rfl | rfl <;>
    rcases h2 with rfl | rfl | rfl | rfl | rfl | rfl | rfl | rfl | rfl | rfl | rfl | rfl | rfl | rfl | rfl | rfl | rfl | rfl | rfl | rfl | rfl | rfl | rfl | rfl | rfl <;> rfl

theorem useStep_bump (fprint : Node → String) (s : AnalysisState) (n : Node) :
    ∃ b ∈ allBumps, ∀ t, TableEquiv s.decls t.decls → useStep fprint t n = b t := by
  cases n with
  | CallExpr fn args =>
    by_cases h : isNewCond fn = true
    · exact ⟨AnalysisState.addCondNew, by simp [allBumps], fun t _ => by simp [useStep, h]⟩
    · exact ⟨fun s => s, by simp [allBumps], fun t _ => by simp [useStep, h]⟩
  | SelectorExpr x sel =>
    cases hop : opOfName sel with
    | none => exact ⟨fun s => s, by simp [allBumps], fun t _ => by simp [useStep, hop]⟩
    | some op =>
      refine ⟨op.pick (verdict (mapGet s.decls (op.resolved s (fprint x)))),
        pick_mem_allBumps _ _, fun t ht => ?_⟩
      simp only [useStep, hop]
      rw [classify_eq_pick, ← resolved_congr op ht, ← verdict_congr ht]
  | _ => exact ⟨fun s => s, by simp [allBumps], fun t _ => rfl⟩

theorem useStep_resp (fprint : Node → String) {s t : AnalysisState} (h : StateEquiv s t)
    (n : Node) : StateEquiv (useStep fprint s n) (useStep fprint t n) := by
  obtain ⟨b, hb, hall⟩ := useStep_bump fprint s n
  rw [hall s (tableEquiv_refl _), hall t h.2]
  refine ⟨?_, ?_⟩
  · rw [allBumps_counts b hb s, allBumps_counts b hb t, h.1]
  · rw [allBumps_decls b hb, allBumps_decls b hb]; exact h.2

theorem useStep_comm (fprint : Node → String) (s : AnalysisState) (n m : Node) :
    useStep fprint (useStep fprint s n) m = useStep fprint (useStep fprint s m) n := by
  obtain ⟨b, hb, hn⟩ := useStep_bump fprint s n
  obtain ⟨c, hc, hm⟩ := useStep_bump fprint s m
  have hbs : TableEquiv s.decls (b s).decls := by
    rw [allBumps_decls b hb]; exact tableEquiv_refl _
  have hcs : TableEquiv s.decls (c s).decls := by
    rw [allBumps_decls c hc]; exact tableEquiv_refl _
  rw [hn s (tableEquiv_refl _), hm s (tableEquiv_refl _), hm _ hbs, hn _ hcs]
  exact allBumps_comm c hc b hb s

theorem foldl_useStep_perm (fprint : Node → String) {l1 l2 : List Node} (h : l1.Perm l2)
    (s t : AnalysisState) (hst : StateEquiv s t) :
    StateEquiv (l1.foldl (useStep fprint) s) (l2.foldl (useStep fprint) t) :=
  foldl_perm_rel StateEquiv stateEquiv_refl (fun _ _ _ => stateEquiv_trans) (useStep fprint)
    (fun _ _ a h => useStep_resp fprint h a)
    (fun s a b => by rw [useStep_comm]; exact stateEquiv_refl _) h s t hst

theorem walks_perm (fprint : Node → String) {l1 l2 : List Node} (h : l1.Perm l2) :
    StateEquiv
      (l1.foldl (useStep fprint) ((l1.flatMap declsOf).foldl record { decls := [] }))
      (l2.foldl (useStep fprint) ((l2.flatMap declsOf).foldl record { decls := [] })) :=
  foldl_useStep_perm fprint h _ _
    (foldl_record_perm (h.flatMap_right declsOf) _ _ (stateEquiv_refl _))

theorem foldl_visit_alike {l1 l2 : List Node} (h : List.Forall₂ VisitAlike l1 l2) :
    ∀ v : Visitor, l1.foldl Visitor.Visit v = l2.foldl Visitor.Visit v := by
  induction h with
  | nil => exact fun _ => rfl
  | cons hab _ ih =>
    intro v
    simp only [List.foldl_cons]
    rw [hab v]
    exact ih _

theorem walk_nodes_eq (fprint : Node → String) (nodes : List Node) :
    (nodes.foldl Visitor.Visit
        ⟨fprint, false, (nodes.foldl Visitor.Visit ⟨fprint, true, { decls := [] }⟩).state⟩).state =
      nodes.foldl (useStep fprint) ((nodes.flatMap declsOf).foldl record { decls := [] }) := by
  rw [Walk_decl_nodes _ ⟨fprint, true, { decls := [] }⟩ rfl]
  exact congrArg Visitor.state (Walk_use_nodes nodes ⟨fprint, false, _⟩ rfl)

/-- C13.  The Count Record does not depend on the order in which the walk meets the nodes
of a unit: when the walk of a second tree hands `Visit` the nodes of the first tree in
another order (up to nodes at which `Visit` does the same, such as the enclosing blocks),
both trees yield the same Count Record.  Moving a declaration from before a call to after
it is such a reordering, so the call is classified against the complete table. -/
theorem count_record_independent_of_order (fprint : Node → String) (t1 t2 : Node)
    (nodes : List Node) (halike : List.Forall₂ VisitAlike (preorder t1) nodes)
    (hperm : nodes.Perm (preorder t2)) :
    (processFile fprint t1).counts = (processFile fprint t2).counts := by
  have h1 : processFile fprint t1 =
      nodes.foldl (useStep fprint) ((nodes.flatMap declsOf).foldl record { decls := [] }) := by
    rw [← walk_nodes_eq]
    simp only [processFile, Walk]
    rw [foldl_visit_alike halike, foldl_visit_alike halike]
  rw [h1, processFile_eq fprint t2]
  exact (walks_perm fprint hperm).1

theorem Visit_of_not_visited (v : Visitor) (n : Node) (h : isVisited n = false) :
    v.Visit n = v := by
  cases hm : v.mode
  · rw [Visit_use v hm]
    cases n <;> first | rfl | simp [isVisited] at h
  · rw [Visit_decl v hm]
    cases n <;> first | rfl | simp [isVisited] at h

theorem visitAlike_refl (n : Node) : VisitAlike n n := fun _ => rfl

theorem visitAlike_of_not_visited {n m : Node} (hn : isVisited n = false)
    (hm : isVisited m = false) : VisitAlike n m :=
  fun v => (Visit_of_not_visited v n hn).trans (Visit_of_not_visited v m hm).symm

theorem forall2_alike_refl (l : List Node) : List.Forall₂ VisitAlike l l := by
  induction l with
  | nil => exact List.Forall₂.nil
  | cons a l ih => exact List.Forall₂.cons (visitAlike_refl a) ih

theorem forall2_alike_append {a b c d : List Node} (h1 : List.Forall₂ VisitAlike a b)
    (h2 : List.Forall₂ VisitAlike c d) : List.Forall₂ VisitAlike (a ++ c) (b ++ d) := by
  induction h1 with
  | nil => exact h2
  | cons h _ ih => exact List.Forall₂.cons h ih

theorem preorderList_append (l1 l2 : List Node) :
    preorderList (l1 ++ l2) = preorderList l1 ++ preorderList l2 := by
  induction l1 with
  | nil => simp [preorderList]
  | cons a l ih => simp [preorderList, ih]

theorem preorder_funcDecl (name : String) (body : List Node) :
    preorder (funcDecl name body) =
      funcDecl name body :: .Ident name :: .FuncType (some (.FieldList [])) none ::
        .FieldList [] :: .BlockStmt body :: preorderList body := by
  simp [funcDecl, preorder, preorderList, preorderOpt]

theorem preorder_file_body (pkg : String) (before : List Node) (name : String)
    (body : List Node) :
    preorder (.File pkg (before ++ [funcDecl name body])) =
      Node.File pkg (before ++ [funcDecl name body]) :: .Ident pkg ::
        (preorderList before ++ (funcDecl name body :: .Ident name ::
          .FuncType (some (.FieldList [])) none :: .FieldList [] :: .BlockStmt body ::
          preorderList body)) := by
  have h : preorderList [funcDecl name body] = preorder (funcDecl name body) := by
    rw [preorderList, preorderList, List.append_nil]
  rw [preorder, preorderList_append, h, preorder_funcDecl]

theorem preorderList_pair (pre post : List Node) (a b : Node) :
    preorderList (pre ++ [a, b] ++ post) =
      preorderList pre ++ (preorder a ++ preorder b) ++ preorderList post := by
  simp [preorderList_append, preorderList]

/-- Swapping two neighbouring statements of the body of a function declared at the end of
the file gives a tree whose walk hands `Visit` the same nodes in another order. -/
theorem body_swap_alike (pkg : String) (before : List Node) (name : String)
    (pre post : List Node) (a b : Node) :
    ∃ nodes,
      List.Forall₂ VisitAlike
        (preorder (.File pkg (before ++ [funcDecl name (pre ++ [a, b] ++ post)]))) nodes ∧
      nodes.Perm (preorder (.File pkg (before ++ [funcDecl name (pre ++ [b, a] ++ post)]))) := by
  refine ⟨Node.File pkg (before ++ [funcDecl name (pre ++ [b, a] ++ post)]) :: .Ident pkg ::
    (preorderList before ++ (funcDecl name (pre ++ [b, a] ++ post) :: .Ident name ::
      .FuncType (some (.FieldList [])) none :: .FieldList [] ::
      .BlockStmt (pre ++ [b, a] ++ post) ::
      (preorderList pre ++ (preorder a ++ preorder b) ++ preorderList post))), ?_, ?_⟩
  · rw [preorder_file_body, preorderList_pair]
    refine List.Forall₂.cons (visitAlike_of_not_visited rfl rfl)
      (List.Forall₂.cons (visitAlike_refl _) (forall2_alike_append (forall2_alike_refl _) ?_))
    exact List.Forall₂.cons (visitAlike_of_not_visited rfl rfl)
      (List.Forall₂.cons (visitAlike_refl _) (List.Forall₂.cons (visitAlike_refl _)
        (List.Forall₂.cons (visitAlike_refl _)
          (List.Forall₂.cons (visitAlike_of_not_visited rfl rfl) (forall2_alike_refl _)))))
  · rw [preorder_file_body, preorderList_pair]
    refine List.Perm.cons _ (List.Perm.cons _ (List.Perm.append_left _ ?_))
    refine List.Perm.cons _ (List.Perm.cons _ (List.Perm.cons _ (List.Perm.cons _
      (List.Perm.cons _ ?_))))
    exact List.Perm.append_right _ (List.Perm.append_left _ List.perm_append_comm)

/-- C13, at a concrete input: `wg.Done()` before `var wg sync.WaitGroup` yields the same
Count Record as the declaration first, with `waitGroupDone = 1` and `unknownDone = 0`. -/
theorem count_record_independent_of_order_witness :
    (processFile printNode declFirstUnit).counts = (processFile printNode callFirstUnit).counts ∧
    (processFile printNode callFirstUnit).counts.waitGroupDone = 1 ∧
    (processFile printNode callFirstUnit).counts.unknownDone = 0 :=
  ⟨(body_swap_alike "main" [importSync] "main" [] []
      (varDecl "wg" "WaitGroup") (callStmt (.Ident "wg") "Done" [])).elim
    (fun nodes h => count_record_independent_of_order printNode declFirstUnit callFirstUnit
      nodes h.1 h.2), by decide, by decide⟩

/-- C14, the code at the failing input.  In the grouped declaration
`var ( a sync.Mutex; b sync.Locker )` only `a` is recorded: `matchLockerDecl` reads
`Specs[0]` only, so `b` is not in the table and `lockerDecls` stays 0, whereas with the
`Locker` spec first both names are recorded. -/
theorem locker_spec_after_first_not_recorded :
    (processFile printNode groupedVarUnit).decls = [("a", [⟨"a", .Mutex⟩])] ∧
    mapGet (processFile printNode groupedVarUnit).decls "b" = none ∧
    (processFile printNode groupedVarUnit).counts = { mutexDecls := 1 } ∧
    (processFile printNode lockerFirstUnit).decls =
      [("a", [⟨"a", .Mutex⟩]), ("b", [⟨"b", .Locker⟩])] ∧
    (processFile printNode lockerFirstUnit).counts = { mutexDecls := 1, lockerDecls := 1 } := by
  decide

/-- C15, at concrete inputs: the fields `mu, m2 *sync.Mutex` and `mu, m2 **sync.Mutex`. -/
theorem field_records_direct_or_pointer_witness :
    (Visitor.Visit ⟨printNode, true, {}⟩
      (.Field ["mu", "m2"] (some (.StarExpr (syncSel "Mutex"))))).state =
      { decls := [("mu", [⟨"mu", .Mutex⟩]), ("m2", [⟨"m2", .Mutex⟩])],
        counts := { mutexDecls := 2 } } ∧
    (Visitor.Visit ⟨printNode, true, {}⟩
      (.Field ["mu", "m2"] (some (.StarExpr (.StarExpr (syncSel "Mutex")))))).state = {} :=
  ⟨((field_records_direct_or_pointer .Mutex (by decide) ⟨printNode, true, {}⟩ rfl
      ["mu", "m2"]).1 _ (Or.inr rfl)).1,
   (field_records_direct_or_pointer .Mutex (by decide) ⟨printNode, true, {}⟩ rfl
      ["mu", "m2"]).2.1⟩

/-- C16, at concrete inputs: `c := sync.NewCond(&mu)` and `s.c = sync.NewCond(&mu)`. -/
theorem newcond_assignment_records_cond_witness :
    (Visitor.Visit ⟨printNode, true, {}⟩ (.AssignStmt [.Ident "c"] [newCondCall])).state =
      { decls := [("c", [⟨"c", .Cond⟩])], counts := { condDecls := 1 } } ∧
    (Visitor.Visit ⟨printNode, true, {}⟩
      (.AssignStmt [.SelectorExpr (.Ident "s") "c"] [newCondCall])).state = {} :=
  ⟨((newcond_assignment_records_cond ⟨printNode, true, {}⟩ rfl).1 "c" _).1,
   (newcond_assignment_records_cond ⟨printNode, true, {}⟩ rfl).2 _ _
     (Or.inl (fun x h => by cases h))⟩

/-- C18, at concrete inputs: `sync.NewCond(&mu)`, `cond.NewCond()` and a whole unit. -/
theorem newcond_call_counts_condNew_witness :
    (Visitor.Visit ⟨printNode, false, sixKindsState⟩ newCondCall).state =
      sixKindsState.addCondNew ∧
    (Visitor.Visit ⟨printNode, false, sixKindsState⟩
      (.CallExpr (.SelectorExpr (.Ident "cond") "NewCond") [])).state = sixKindsState ∧
    (processFile printNode condAssignUnit).counts.condNew = 1 :=
  ⟨(newcond_call_counts_condNew printNode sixKindsState).1 _,
   (newcond_call_counts_condNew printNode sixKindsState).2.1
     (.SelectorExpr (.Ident "cond") "NewCond") [] (fun h => by simp [syncSel] at h),
   ((newcond_call_counts_condNew printNode sixKindsState).2.2 condAssignUnit).trans
     (by decide)⟩

/-! ## Receiver texts: the last segment and the stripped suffix -/

theorem last_sep_split (sep : Char) (l : List Char) (h : sep ∈ l) :
    ∃ a b, l = a ++ sep :: b ∧ sep ∉ b := by
  induction l with
  | nil => simp at h
  | cons c l ih =>
    by_cases hl : sep ∈ l
    · obtain ⟨a, b, hab, hb⟩ := ih hl
      exact ⟨c :: a, b, by rw [hab]; rfl, hb⟩
    · have hc : sep = c := by
        rcases List.mem_cons.mp h with h | h
        · exact h
        · exact absurd h hl
      exact ⟨[], l, by rw [hc]; rfl, hl⟩

theorem splitChars_last_append (sep : Char) (a b : List Char) (hb : sep ∉ b) :
    (splitChars sep (a ++ sep :: b)).getLastD [] = b := by
  rw [splitChars_append_sep, getLastD_append_of_ne_nil _ _ (splitChars_ne_nil _ _),
    splitChars_of_not_mem _ _ hb]
  rfl

theorem splitTarget_data_cases (target : String) :
    ('.' ∉ target.data ∧ splitTarget target = target) ∨
    ∃ a b, target.data = a ++ '.' :: b ∧ '.' ∉ b ∧ splitTarget target = String.mk b := by
  by_cases h : '.' ∈ target.data
  · right
    obtain ⟨a, b, hab, hb⟩ := last_sep_split '.' target.data h
    exact ⟨a, b, hab, hb, by rw [splitTarget_eq, hab, splitChars_last_append _ _ _ hb]⟩
  · left
    exact ⟨h, splitTarget_of_dotFree target h⟩

theorem splitTarget_dotFree (target : String) : '.' ∉ (splitTarget target).data := by
  rcases splitTarget_data_cases target with ⟨h, he⟩ | ⟨a, b, _, hb, he⟩
  · rw [he]; exact h
  · rw [he]; exact hb

theorem targetPieces_one_of_dotFree (target : String) (h : '.' ∉ target.data) :
    targetPieces target = 1 := by
  simp [targetPieces, stringsSplitDot, splitChars_of_not_mem _ _ h]

theorem append_dot_L (y : String) : y ++ "." ++ "L" = y ++ ".L" := by
  rw [String.append_assoc]; rfl

theorem ends_in_dot_L (target : String) (hp : targetPieces target > 1)
    (hl : splitTarget target = "L") : ∃ y, target = y ++ "." ++ "L" := by
  rcases splitTarget_data_cases target with ⟨h, _⟩ | ⟨a, b, hab, _, he⟩
  · rw [targetPieces_one_of_dotFree target h] at hp
    omega
  · rw [hl] at he
    have hb : b = ['L'] := by
      have := congrArg String.data he
      simpa using this.symm
    refine ⟨String.mk a, ?_⟩
    apply String.ext
    rw [hab, hb]
    simp [String.data_append]

theorem lockTarget_of_not_strip (s : AnalysisState) (target : String)
    (h : ¬ (targetPieces target > 1 ∧ splitTarget target = "L")) :
    lockTarget s target = splitTarget target := by
  unfold lockTarget
  by_cases hp : targetPieces target > 1
  · have hl : ¬ splitTarget target = "L" := fun e => h ⟨hp, e⟩
    simp [hl]
  · simp [hp]

theorem utf8Bytes_append (a b : String) : utf8Bytes (a ++ b) = utf8Bytes a ++ utf8Bytes b := by
  simp [utf8Bytes, String.data_append]

theorem sliceTo_append_L (y : String) :
    sliceTo (y ++ ".L") ((utf8Bytes (y ++ ".L")).length - 2) = some (utf8Bytes y) := by
  have h2 : utf8Bytes ".L" = [46, 76] := by decide
  have hlen : (utf8Bytes (y ++ ".L")).length = (utf8Bytes y).length + 2 := by
    rw [utf8Bytes_append, h2]; simp
  unfold sliceTo
  rw [hlen]
  have e : (((utf8Bytes y).length + 2 : Nat) : Int) - 2 = ((utf8Bytes y).length : Nat) := by
    push_cast; ring
  rw [e, if_pos ⟨by omega, by omega⟩, utf8Bytes_append]
  simp

theorem indexAt_last (parts : List String) (h : parts ≠ []) :
    indexAt parts ((parts.length : Int) - 1) = some (parts.getLastD "") := by
  have hpos : 0 < parts.length := List.length_pos.mpr h
  unfold indexAt
  rw [if_pos ⟨by omega, by omega⟩]
  have e : ((parts.length : Int) - 1).toNat = parts.length - 1 := by omega
  rw [e]
  cases parts with
  | nil => exact absurd rfl h
  | cons a l =>
    rw [← List.getLast?_eq_getElem?, List.getLast?_cons]
    cases l with
    | nil => rfl
    | cons b l => simp [List.getLastD_cons, List.getLast?_cons]

/-- C22.  For every table whose keys contain no dot: when the receiver text has at least
two dotted segments and its last segment is `L`, the text is its own beginning followed by
`.L`, and `addLock` and `addUnlock` look up the last dotted segment of that beginning (the
text with exactly one trailing `.L` removed), whether or not `L` is a key; for every other
receiver text they look up its last dotted segment. -/
theorem lock_lookup_strips_one_dot_L (s : AnalysisState) (hkeys : DotFreeKeys s.decls)
    (target : String) :
    (targetPieces target ≥ 2 ∧ splitTarget target = "L" →
      target = dropLastTwo target ++ ".L" ∧
      lockTarget s target = splitTarget (dropLastTwo target) ∧
      s.addLock target =
        Operation.pick .Lock (verdict (mapGet s.decls (splitTarget (dropLastTwo target)))) s ∧
      s.addUnlock target =
        Operation.pick .Unlock (verdict (mapGet s.decls (splitTarget (dropLastTwo target)))) s) ∧
    (¬ (targetPieces target ≥ 2 ∧ splitTarget target = "L") →
      lockTarget s target = splitTarget target ∧
      s.addLock target = Operation.pick .Lock (verdict (mapGet s.decls (splitTarget target))) s ∧
      s.addUnlock target =
        Operation.pick .Unlock (verdict (mapGet s.decls (splitTarget target))) s) := by
  have hL := classify_eq_pick .Lock s target
  have hU := classify_eq_pick .Unlock s target
  simp only [Operation.classify, Operation.resolved] at hL hU
  constructor
  · rintro ⟨hp, hl⟩
    obtain ⟨y, hy⟩ := ends_in_dot_L target hp hl
    have hd : dropLastTwo target = y := by rw [hy, dropLastTwo_append_L]
    have ht : lockTarget s target = splitTarget (dropLastTwo target) := by
      rw [hd, hy]; exact lockTarget_locker_field s hkeys y
    refine ⟨?_, ht, ?_, ?_⟩
    · rw [hd, ← append_dot_L]; exact hy
    · rw [hL, ht]
    · rw [hU, ht]
  · intro h
    have ht : lockTarget s target = splitTarget target := lockTarget_of_not_strip s target h
    exact ⟨ht, by rw [hL, ht], by rw [hU, ht]⟩

/-- C22, at concrete inputs: with `L` itself a key, `c.L` resolves to `c`, `a.L.L`
resolves to `L`, and `a.b` resolves to `b`. -/
theorem lock_lookup_strips_one_dot_L_witness :
    DotFreeKeys lockerFieldState.decls ∧
    lockTarget lockerFieldState "c.L" = "c" ∧
    lockTarget lockerFieldState "a.L.L" = "L" ∧
    lockTarget lockerFieldState "a.b" = "b" :=
  ⟨by decide,
   ((lock_lookup_strips_one_dot_L lockerFieldState (by decide) "c.L").1
      ⟨by decide, by decide⟩).2.1.trans (by decide),
   ((lock_lookup_strips_one_dot_L lockerFieldState (by decide) "a.L.L").1
      ⟨by decide, by decide⟩).2.1.trans (by decide),
   ((lock_lookup_strips_one_dot_L lockerFieldState (by decide) "a.b").2
      (by decide)).1.trans (by decide)⟩

/-- C26.  For every receiver text the split on `.` is never empty, so the index
`len(parts)-1` of `splitTarget` is in range and yields the last segment; the last segment
contains no dot and is the whole text when the text has no dot, the text after its last dot
otherwise.  Whenever `addLock` and `addUnlock` take the stripping branch, the text ends in
`.L`, the slice bound `len(target)-2` is in range, and the slice is the text without that
two-byte suffix. -/
theorem name_helpers_stay_in_range (target : String) :
    stringsSplitDot target ≠ [] ∧
    indexAt (stringsSplitDot target) (((stringsSplitDot target).length : Int) - 1) =
      some (splitTarget target) ∧
    '.' ∉ (splitTarget target).data ∧
    (('.' ∉ target.data ∧ splitTarget target = target) ∨
      ∃ pre, target = pre ++ "." ++ splitTarget target) ∧
    (∀ s : AnalysisState,
      (!(mapGet s.decls target).isSome && decide (targetPieces target > 1) &&
        decide (splitTarget target = "L")) = true →
      target = dropLastTwo target ++ ".L" ∧
      lockTarget s target = splitTarget (dropLastTwo target) ∧
      utf8Bytes target = utf8Bytes (dropLastTwo target) ++ [46, 76] ∧
      sliceTo target (((utf8Bytes target).length : Int) - 2) =
        some (utf8Bytes (dropLastTwo target))) := by
  have hne : stringsSplitDot target ≠ [] := by
    simp [stringsSplitDot, splitChars_ne_nil]
  refine ⟨hne, indexAt_last _ hne, splitTarget_dotFree target, ?_, ?_⟩
  · rcases splitTarget_data_cases target with h | ⟨a, b, hab, _, he⟩
    · exact Or.inl h
    · refine Or.inr ⟨String.mk a, ?_⟩
      apply String.ext
      rw [he, hab]
      simp [String.data_append]
  · intro s hc
    simp only [Bool.and_eq_true, Bool.not_eq_true', decide_eq_true_eq] at hc
    obtain ⟨⟨hok, hp⟩, hl⟩ := hc
    obtain ⟨y, hy⟩ := ends_in_dot_L target hp hl
    have hd : dropLastTwo target = y := by rw [hy, dropLastTwo_append_L]
    have ht : target = dropLastTwo target ++ ".L" := by
      rw [hd, ← append_dot_L]; exact hy
    refine ⟨ht, ?_, ?_, ?_⟩
    · simp [lockTarget, hok, hp, hl]
    · have h := utf8Bytes_append (dropLastTwo target) ".L"
      rw [← ht] at h
      exact h
    · have h := sliceTo_append_L (dropLastTwo target)
      rw [← ht] at h
      exact h


/-- C26, at a concrete input: `c.L` with an empty table takes the stripping branch, and the
slice `target[:1]` is `c`. -/
theorem name_helpers_stay_in_range_witness :
    (!(mapGet ({} : AnalysisState).decls "c.L").isSome && decide (targetPieces "c.L" > 1) &&
      decide (splitTarget "c.L" = "L")) = true ∧
    "c.L" = dropLastTwo "c.L" ++ ".L" ∧
    sliceTo "c.L" (((utf8Bytes "c.L").length : Int) - 2) = some (utf8Bytes (dropLastTwo "c.L")) ∧
    dropLastTwo "c.L" = "c" :=
  ⟨by decide,
   ((name_helpers_stay_in_range "c.L").2.2.2.2 {} (by decide)).1,
   ((name_helpers_stay_in_range "c.L").2.2.2.2 {} (by decide)).2.2.2,
   by decide⟩

/-! ## Reachable tables and the branches of the lookup -/

theorem classify_onBranch (op : Operation) (s : AnalysisState) (target : String) :
    op.classify s target =
      op.onBranch (lookupBranch (mapGet s.decls (op.resolved s target))) s := by
  rw [classify_eq_pick]
  generalize mapGet s.decls (op.resolved s target) = o
  rcases o with _ | (_ | ⟨d, _ | ⟨e, l⟩⟩) <;> rfl

theorem lookupBranch_multiple (o : Option (List Declaration)) :
    lookupBranch o = .multiple ↔ ∃ vs, o = some vs ∧ vs.length ≠ 1 := by
  rcases o with _ | (_ | ⟨d, _ | ⟨e, l⟩⟩) <;> simp [lookupBranch]

theorem tableInv_lookup {m : DeclMap} (hm : TableInv m) (k : String) (vs : List Declaration)
    (h : mapGet m k = some vs) : vs ≠ [] ∧ ∀ d ∈ vs, d.name = k :=
  ⟨(hm.2 _ (mapGet_mem m k vs h)).1, (hm.2 _ (mapGet_mem m k vs h)).2.1⟩

/-- C24.  In every state reachable from the empty table by `addDecl` calls, every key maps
to a non-empty list and every declaration stored under a key has that key as its name.
Consequently a classification routine takes its `Multiple matches` branch exactly when the
resolved name has at least two declarations, and the test of `addDecl`, which compares
kinds only, agrees with the comparison of (name, kind) pairs. -/
theorem reachable_table_is_keyed_by_name (s : AnalysisState) (hs : Reachable s) :
    (∀ p ∈ s.decls, p.2 ≠ [] ∧ ∀ d ∈ p.2, d.name = p.1) ∧
    (∀ k vs, mapGet s.decls k = some vs → vs ≠ [] ∧ ∀ d ∈ vs, d.name = k) ∧
    (∀ (op : Operation) (target : String),
      op.classify s target =
        op.onBranch (lookupBranch (mapGet s.decls (op.resolved s target))) s ∧
      (lookupBranch (mapGet s.decls (op.resolved s target)) = .multiple ↔
        ∃ vs, mapGet s.decls (op.resolved s target) = some vs ∧ 2 ≤ vs.length)) ∧
    (∀ (d : Declaration) (vs : List Declaration), mapGet s.decls d.name = some vs →
      vs.any (fun e => decide (e.typeof = d.typeof)) =
        vs.any (fun e => decide (e.name = d.name ∧ e.typeof = d.typeof)) ∧
      (vs.any (fun e => decide (e.typeof = d.typeof)) = true ↔ d ∈ vs)) := by
  have hinv := reachable_tableInv hs
  refine ⟨fun p hp => ⟨(hinv.2 p hp).1, (hinv.2 p hp).2.1⟩,
    fun k vs h => tableInv_lookup hinv k vs h, fun op target => ⟨classify_onBranch op s target, ?_⟩,
    fun d vs h => ?_⟩
  · rw [lookupBranch_multiple]
    constructor
    · rintro ⟨vs, hvs, hlen⟩
      have hne := (tableInv_lookup hinv _ vs hvs).1
      have : 0 < vs.length := List.length_pos.mpr hne
      exact ⟨vs, hvs, by omega⟩
    · rintro ⟨vs, hvs, hlen⟩
      exact ⟨vs, hvs, by omega⟩
  · have hname := (tableInv_lookup hinv _ vs h).2
    have hany : vs.any (fun e => decide (e.typeof = d.typeof)) =
        vs.any (fun e => decide (e.name = d.name ∧ e.typeof = d.typeof)) := by
      rw [Bool.eq_iff_iff]
      simp only [List.any_eq_true, decide_eq_true_eq]
      constructor
      · rintro ⟨e, he, h⟩
        exact ⟨e, he, hname e he, h⟩
      · rintro ⟨e, he, _, h⟩
        exact ⟨e, he, h⟩
    refine ⟨hany, ?_⟩
    simp only [List.any_eq_true, decide_eq_true_eq]
    constructor
    · rintro ⟨e, he, het⟩
      have : e = d := by
        have := hname e he
        cases e; cases d; simp_all
      exact this ▸ he
    · intro hd
      exact ⟨d, hd, rfl⟩

theorem ambiguousState_reachable : Reachable ambiguousState :=
  reachable_foldl _ (Reachable.fresh {}) [⟨"m", .Mutex⟩, ⟨"m", .RWMutex⟩]

/-- C24, at a concrete input: with `m` declared both as Mutex and as RWMutex, `Lock` on
`m` takes the `Multiple matches` branch, and the list under `m` is not empty and holds
declarations named `m` only. -/
theorem reachable_table_is_keyed_by_name_witness :
    lookupBranch (mapGet ambiguousState.decls (Operation.resolved .Lock ambiguousState "m")) =
      .multiple ∧
    (([⟨"m", .Mutex⟩, ⟨"m", .RWMutex⟩] : List Declaration) ≠ [] ∧
      ∀ d ∈ ([⟨"m", .Mutex⟩, ⟨"m", .RWMutex⟩] : List Declaration), d.name = "m") :=
  ⟨(((reachable_table_is_keyed_by_name ambiguousState ambiguousState_reachable).2.2.1
      .Lock "m").2).mpr ⟨[⟨"m", .Mutex⟩, ⟨"m", .RWMutex⟩], by decide, by decide⟩,
   (reachable_table_is_keyed_by_name ambiguousState ambiguousState_reachable).2.1 "m" _
     (by decide)⟩

/-! ## Kinds of the recorded declarations -/

theorem specDecls_kind (tn : String) (k : DeclType) (spec : Node) :
    ∀ d ∈ specDecls tn k spec, d.typeof = k := by
  intro d hd
  unfold specDecls at hd
  split at hd
  · split at hd
    · split_ifs at hd
      · simp only [List.mem_map] at hd
        obtain ⟨id, _, rfl⟩ := hd
        rfl
      · simp at hd
    · simp at hd
  · simp at hd

theorem fieldKindDecls_kind (tn : String) (k : DeclType) (names : List String)
    (type : Option Node) : ∀ d ∈ fieldKindDecls tn k names type, d.typeof = k := by
  intro d hd
  unfold fieldKindDecls at hd
  split at hd
  · split_ifs at hd
    · simp only [List.mem_map] at hd
      obtain ⟨id, _, rfl⟩ := hd
      rfl
    · simp at hd
  · simp at hd

theorem assignRhsDecls_kind (lhs : List Node) (r : Node) :
    ∀ d ∈ assignRhsDecls lhs r, d.typeof = .Cond := by
  intro d hd
  unfold assignRhsDecls at hd
  split at hd
  · split_ifs at hd
    · split at hd
      · simp only [List.mem_singleton] at hd
        rw [hd]; rfl
      · simp at hd
    · simp at hd
  · simp at hd

theorem declsOf_kinds (n : Node) : ∀ d ∈ declsOf n, d.typeof ∈ sixKinds := by
  intro d hd
  cases n with
  | GenDecl specs =>
    simp only [declsOf, genDeclDecls, List.mem_append, List.mem_flatMap] at hd
    rcases hd with ((((⟨sp, _, h⟩ | ⟨sp, _, h⟩) | ⟨sp, _, h⟩) | h) | ⟨sp, _, h⟩) | ⟨sp, _, h⟩
    · rw [specDecls_kind _ _ _ d h]; decide
    · rw [specDecls_kind _ _ _ d h]; decide
    · rw [specDecls_kind _ _ _ d h]; decide
    · cases specs with
      | nil => simp at h
      | cons sp rest => rw [specDecls_kind _ _ _ d h]; decide
    · rw [specDecls_kind _ _ _ d h]; decide
    · rw [specDecls_kind _ _ _ d h]; decide
  | Field names type =>
    simp only [declsOf, fieldDecls, List.mem_append] at hd
    rcases hd with ((((h | h) | h) | h) | h) | h <;>
      (rw [fieldKindDecls_kind _ _ _ _ d h]; decide)
  | AssignStmt lhs rhs =>
    simp only [declsOf, List.mem_flatMap] at hd
    obtain ⟨r, _, h⟩ := hd
    rw [assignRhsDecls_kind _ _ d h]; decide
  | _ => simp [declsOf] at hd

theorem holds_addDecl (s : AnalysisState) (e d : Declaration)
    (h : Holds (s.addDecl e).decls d) : d = e ∨ Holds s.decls d := by
  unfold AnalysisState.addDecl at h
  split at h
  · rename_i ds hds
    dsimp only at h
    split_ifs at h
    · obtain ⟨p, hp, hd⟩ := h
      rcases mem_mapSet _ _ _ p hp with rfl | hp
      · rcases List.mem_append.mp hd with hd | hd
        · exact Or.inr ⟨_, mapGet_mem _ _ _ hds, hd⟩
        · exact Or.inl (List.mem_singleton.mp hd)
      · exact Or.inr ⟨p, hp, hd⟩
    · exact Or.inr h
  · obtain ⟨p, hp, hd⟩ := h
    rcases mem_mapSet _ _ _ p hp with rfl | hp
    · exact Or.inl (by simpa using hd)
    · exact Or.inr ⟨p, hp, hd⟩

theorem holds_foldl_record (ds : List Declaration) (s : AnalysisState) (d : Declaration)
    (h : Holds (ds.foldl record s).decls d) : d ∈ ds ∨ Holds s.decls d := by
  induction ds generalizing s with
  | nil => exact Or.inr h
  | cons e l ih =>
    rcases ih _ h with h | h
    · exact Or.inl (List.mem_cons_of_mem _ h)
    · rw [record_decls] at h
      rcases holds_addDecl s e d h with rfl | h
      · exact Or.inl (List.mem_cons_self _ _)
      · exact Or.inr h

theorem foldl_useStep_decls (fprint : Node → String) (nodes : List Node) (s : AnalysisState) :
    (nodes.foldl (useStep fprint) s).decls = s.decls := by
  induction nodes generalizing s with
  | nil => rfl
  | cons n l ih =>
    rw [List.foldl_cons, ih]
    obtain ⟨b, hb, h⟩ := useStep_bump fprint s n
    rw [h s (tableEquiv_refl _)]
    exact allBumps_decls b hb s

theorem sixKinds_facts (k : DeclType) (h : k ∈ sixKinds) :
    k ≠ .Unknown ∧ 0 ≤ k.toInt64 ∧ k.toInt64 ≤ 5 ∧
      DeclType.String k.toInt64 = some k.typeName := by
  cases k <;> first | (exact absurd h (by decide)) | decide

theorem declTypeString_none (x : Int) : DeclType.String x = none ↔ x < 0 ∨ 6 < x := by
  unfold DeclType.String DeclType.toInt64
  simp only
  split_ifs <;> simp <;> omega

/-- C21.  In declaration mode `Visit` hands to `addDecl` only declarations of the six
primitive kinds, so after the declaration walk over any tree, and after the whole analysis,
every declaration held in the table has one of the six kinds: its kind is not `Unknown`, its
`int64` value lies between 0 and 5, and `DeclType.String` on it returns the name of the kind.
The panic branch of `DeclType.String` is the one taken for values below 0 or above 6. -/
theorem stored_kinds_are_primitive (fprint : Node → String) (file : Node) :
    (∀ (s : AnalysisState) (n : Node), ∃ ds : List Declaration,
      (∀ d ∈ ds, d.typeof ∈ sixKinds) ∧
      (Visitor.Visit ⟨fprint, true, s⟩ n).state =
        ds.foldl (fun t d => bumpDecl d.typeof (t.addDecl d)) s) ∧
    (∀ d, Holds (Walk ⟨fprint, true, {}⟩ file).state.decls d →
      d.typeof ∈ sixKinds ∧ d.typeof ≠ .Unknown ∧ 0 ≤ d.typeof.toInt64 ∧
        d.typeof.toInt64 ≤ 5 ∧ DeclType.String d.typeof.toInt64 = some d.typeof.typeName) ∧
    (∀ d, Holds (processFile fprint file).decls d →
      d.typeof ∈ sixKinds ∧ d.typeof ≠ .Unknown ∧ 0 ≤ d.typeof.toInt64 ∧
        d.typeof.toInt64 ≤ 5 ∧ DeclType.String d.typeof.toInt64 = some d.typeof.typeName) ∧
    (∀ x : Int, DeclType.String x = none ↔ x < 0 ∨ 6 < x) := by
  have key : ∀ d, Holds (((preorder file).flatMap declsOf).foldl record { decls := [] }).decls d →
      d.typeof ∈ sixKinds := by
    intro d hd
    rcases holds_foldl_record _ _ d hd with h | h
    · obtain ⟨n, _, hn⟩ := List.mem_flatMap.mp h
      exact declsOf_kinds n d hn
    · obtain ⟨p, hp, _⟩ := h
      simp at hp
  refine ⟨fun s n => ⟨declsOf n, declsOf_kinds n, ?_⟩, fun d hd => ?_, fun d hd => ?_,
    declTypeString_none⟩
  · rw [Visit_decl ⟨fprint, true, s⟩ rfl]
    rfl
  · have hw : (Walk ⟨fprint, true, {}⟩ file).state =
        ((preorder file).flatMap declsOf).foldl record { decls := [] } := by
      unfold Walk
      rw [Walk_decl_nodes _ _ rfl]
    rw [hw] at hd
    exact ⟨key d hd, sixKinds_facts _ (key d hd)⟩
  · rw [processFile_eq, foldl_useStep_decls] at hd
    exact ⟨key d hd, sixKinds_facts _ (key d hd)⟩

/-- C21, at a concrete input: the unit that binds `c` by `c := sync.NewCond(&mu)`. -/
theorem stored_kinds_are_primitive_witness :
    Holds (processFile printNode condAssignUnit).decls ⟨"c", .Cond⟩ ∧
    DeclType.String (DeclType.toInt64 .Cond) = some "Cond" ∧
    DeclType.String 7 = none :=
  ⟨by decide,
   ((stored_kinds_are_primitive printNode condAssignUnit).2.2.1 ⟨"c", .Cond⟩
      (by decide)).2.2.2.2,
   ((stored_kinds_are_primitive printNode condAssignUnit).2.2.2 7).mpr (Or.inr (by decide))⟩

/-! ## Declaration counters and assignments with several right-hand sides -/

theorem heldOfKind_cons (p : String × List Declaration) (m : DeclMap) (k : DeclType) :
    heldOfKind (p :: m) k =
      (p.2.filter (fun d => decide (d.typeof = k))).length + heldOfKind m k := by
  simp [heldOfKind, List.flatMap_cons]

theorem heldOfKind_mapSet (m : DeclMap) (key : String) (d : Declaration) (k : DeclType) :
    heldOfKind (mapSet m key ((mapGet m key).getD [] ++ [d])) k =
      heldOfKind m k + (if d.typeof = k then 1 else 0) := by
  induction m with
  | nil =>
    by_cases h : d.typeof = k <;> simp [mapSet, mapGet, heldOfKind, h]
  | cons p m ih =>
    obtain ⟨k1, v1⟩ := p
    by_cases hk : k1 = key
    · simp only [mapSet, mapGet, hk, if_true, Option.getD_some, heldOfKind_cons,
        List.filter_append, List.length_append]
      by_cases h : d.typeof = k
      · simp [h]; omega
      · simp [h]
    · simp only [mapSet, mapGet, hk, if_false, heldOfKind_cons, ih]
      omega

theorem heldOfKind_addDecl (s : AnalysisState) (d : Declaration) (k : DeclType) :
    heldOfKind (s.addDecl d).decls k ≤ heldOfKind s.decls k + (if d.typeof = k then 1 else 0) := by
  by_cases h : ∃ ds, mapGet s.decls d.name = some ds ∧ ∃ e ∈ ds, e.typeof = d.typeof
  · obtain ⟨ds, hds, he⟩ := h
    rw [addDecl_of_listed s d ds hds he]
    omega
  · rw [addDecl_of_not_listed s d h]
    exact le_of_eq (heldOfKind_mapSet _ _ _ _)

theorem heldOfKind_foldl_record (ds : List Declaration) (s : AnalysisState) (k : DeclType)
    (hk : k ≠ .Unknown) (h : heldOfKind s.decls k ≤ s.counts.declCount k) :
    heldOfKind (ds.foldl record s).decls k ≤ (ds.foldl record s).counts.declCount k := by
  induction ds generalizing s with
  | nil => exact h
  | cons d l ih =>
    apply ih
    rw [record_decls, record_declCount]
    have := heldOfKind_addDecl s d k
    by_cases hd : d.typeof = k
    · simp only [hd, if_true] at this
      simp only [hd, hk, ne_eq, not_false_eq_true, and_self, if_true]
      omega
    · simp only [hd, if_false] at this
      simp only [hd, false_and, if_false]
      omega

theorem allBumps_declCount (b : AnalysisState → AnalysisState) (hb : b ∈ allBumps)
    (s : AnalysisState) (k : DeclType) : (b s).counts.declCount k = s.counts.declCount k := by
  simp only [allBumps, List.mem_cons, List.mem_singleton, List.not_mem_nil, or_false] at hb
  rcases hb with rfl | rfl | rfl | rfl | rfl | rfl | rfl | rfl | rfl | rfl | rfl | rfl | rfl | rfl | rfl | rfl | rfl | rfl | rfl | rfl | rfl | rfl | rfl | rfl | rfl <;>
    cases k <;> rfl

theorem foldl_useStep_declCount (fprint : Node → String) (nodes : List Node)
    (s : AnalysisState) (k : DeclType) :
    (nodes.foldl (useStep fprint) s).counts.declCount k = s.counts.declCount k := by
  induction nodes generalizing s with
  | nil => rfl
  | cons n l ih =>
    rw [List.foldl_cons, ih]
    obtain ⟨b, hb, h⟩ := useStep_bump fprint s n
    rw [h s (tableEquiv_refl _)]
    exact allBumps_declCount b hb s k

theorem walk_decl_state (fprint : Node → String) (file : Node) :
    (Walk ⟨fprint, true, {}⟩ file).state =
      ((preorder file).flatMap declsOf).foldl record { decls := [] } := by
  unfold Walk
  rw [Walk_decl_nodes _ _ rfl]

theorem decl_counter_eq_recorded (fprint : Node → String) (file : Node) (k : DeclType)
    (hk : k ≠ .Unknown) :
    (Walk ⟨fprint, true, {}⟩ file).state.counts.declCount k = recordedOfKind file k ∧
    heldOfKind (Walk ⟨fprint, true, {}⟩ file).state.decls k ≤
      (Walk ⟨fprint, true, {}⟩ file).state.counts.declCount k ∧
    (processFile fprint file).counts.declCount k = recordedOfKind file k ∧
    heldOfKind (processFile fprint file).decls k ≤
      (processFile fprint file).counts.declCount k := by
  have h0 : (({ decls := [] } : AnalysisState)).counts.declCount k = 0 := by cases k <;> rfl
  have h1 : (((preorder file).flatMap declsOf).foldl record { decls := [] }).counts.declCount k =
      recordedOfKind file k := by
    rw [foldl_record_declCount _ _ k hk, h0, Nat.zero_add]
    rfl
  have h2 : heldOfKind (((preorder file).flatMap declsOf).foldl record { decls := [] }).decls k ≤
      (((preorder file).flatMap declsOf).foldl record { decls := [] }).counts.declCount k :=
    heldOfKind_foldl_record _ _ k hk (by simp [heldOfKind])
  rw [walk_decl_state, processFile_eq, foldl_useStep_declCount, foldl_useStep_decls]
  exact ⟨h1, h2, h1, h2⟩

theorem assignRhsDecls_ident (x : String) (rest : List Node) (r : Node) :
    assignRhsDecls (.Ident x :: rest) r =
      if isNewCondCall r then [createDecl x .Cond] else [] := by
  cases r with
  | CallExpr fn args =>
    cases fn with
    | SelectorExpr y sel =>
      cases y with
      | Ident tid =>
        by_cases h : tid = "sync" ∧ sel = "NewCond"
        · simp [assignRhsDecls, isNewCondCall, isNewCond, h]
        · have h2 : ¬ (sel = "NewCond" ∧ tid = "sync") := fun e => h ⟨e.2, e.1⟩
          simp [assignRhsDecls, isNewCondCall, isNewCond, h, h2]
      | _ => rfl
    | _ => rfl
  | _ => rfl

theorem flatMap_assignRhsDecls (x : String) (rest rhs : List Node) :
    rhs.flatMap (assignRhsDecls (.Ident x :: rest)) =
      List.replicate (rhs.countP isNewCondCall) (createDecl x .Cond) := by
  induction rhs with
  | nil => rfl
  | cons r l ih =>
    rw [List.flatMap_cons, ih, assignRhsDecls_ident, List.countP_cons]
    by_cases h : isNewCondCall r = true
    · simp [h, List.replicate_succ]
    · simp [h]

theorem foldl_record_replicate (n : Nat) (d : Declaration) (s : AnalysisState) :
    ((List.replicate n d).foldl record s).decls =
      if n = 0 then s.decls else (s.addDecl d).decls := by
  induction n generalizing s with
  | zero => rfl
  | succ n ih =>
    rw [List.replicate_succ, List.foldl_cons, ih]
    simp only [Nat.succ_ne_zero, if_false]
    by_cases hn : n = 0
    · simp only [hn, if_true]
      exact record_decls s d
    · simp only [hn, if_false]
      exact addDecl_twice_decls s _ d (record_decls s d)

theorem foldl_record_cond_counts (n : Nat) (d : Declaration) (hd : d.typeof = .Cond)
    (s : AnalysisState) :
    ((List.replicate n d).foldl record s).counts =
      { s.counts with condDecls := s.counts.condDecls + n } := by
  induction n generalizing s with
  | zero => rfl
  | succ n ih =>
    rw [List.replicate_succ, List.foldl_cons, ih]
    simp only [record, hd, bumpDecl, AnalysisState.addCondDecl, addDecl_counts]
    congr 1
    omega

/-- C25.  In declaration mode, on an assignment whose first left-hand side is the
identifier `x`, every right-hand side that is a call of `sync.NewCond`, at any position,
records `x` as Cond and increments `condDecls` once: the resulting table is the one after
a single `addDecl` of `x` as Cond when there is such a right-hand side (unchanged
otherwise), and `condDecls` grows by the number of such right-hand sides. -/
theorem newcond_rhs_records_first_lhs (v : Visitor) (hm : v.mode = true) (x : String)
    (rest rhs : List Node) :
    (v.Visit (.AssignStmt (.Ident x :: rest) rhs)).state =
      { decls := if rhs.countP isNewCondCall = 0 then v.state.decls
                 else (v.state.addDecl (createDecl x .Cond)).decls,
        counts := { v.state.counts with
          condDecls := v.state.counts.condDecls + rhs.countP isNewCondCall } } ∧
    (∀ (i : Nat) (hi : i < rhs.length), isNewCondCall (rhs.get ⟨i, hi⟩) = true →
      Listed (v.Visit (.AssignStmt (.Ident x :: rest) rhs)).state.decls x .Cond ∧
      1 ≤ rhs.countP isNewCondCall) := by
  have hst : (v.Visit (.AssignStmt (.Ident x :: rest) rhs)).state =
      (List.replicate (rhs.countP isNewCondCall) (createDecl x .Cond)).foldl record v.state := by
    rw [Visit_decl v hm]
    simp only [declsOf, flatMap_assignRhsDecls]
  constructor
  · rw [hst]
    have h1 := foldl_record_replicate (rhs.countP isNewCondCall) (createDecl x .Cond) v.state
    have h2 := foldl_record_cond_counts (rhs.countP isNewCondCall) (createDecl x .Cond) rfl
      v.state
    generalize (List.replicate _ _).foldl record v.state = t at h1 h2
    obtain ⟨td, tc⟩ := t
    simp only at h1 h2
    rw [h1, h2]
  · intro i hi hc
    have hpos : 0 < rhs.countP isNewCondCall :=
      List.countP_pos_iff.mpr ⟨_, List.get_mem rhs i hi, hc⟩
    refine ⟨?_, hpos⟩
    rw [hst]
    obtain ⟨n, hn⟩ := Nat.exists_eq_succ_of_ne_zero (Nat.pos_iff_ne_zero.mp hpos)
    rw [hn, List.replicate_succ, List.foldl_cons]
    exact listed_foldl_record (listed_record_self v.state (createDecl x .Cond)) _

/-- C25, at concrete inputs: `a, b := 1, sync.NewCond(&mu)` records `a` and not `b`, and
`a, b := sync.NewCond(&mu), sync.NewCond(&mu)` increments `condDecls` twice while adding
the single declaration of `a`. -/
theorem newcond_rhs_records_first_lhs_witness :
    (Visitor.Visit ⟨printNode, true, {}⟩ secondRhsNewCond).state =
      { decls := [("a", [⟨"a", .Cond⟩])], counts := { condDecls := 1 } } ∧
    (Visitor.Visit ⟨printNode, true, {}⟩ twoNewCondAssign).state =
      { decls := [("a", [⟨"a", .Cond⟩])], counts := { condDecls := 2 } } :=
  ⟨(newcond_rhs_records_first_lhs ⟨printNode, true, {}⟩ rfl "a" [.Ident "b"]
      [.BasicLit "1", newCondCall]).1.trans (by decide),
   (newcond_rhs_records_first_lhs ⟨printNode, true, {}⟩ rfl "a" [.Ident "b"]
      [newCondCall, newCondCall]).1.trans (by decide)⟩

/-! ## Classification of a call by the table entry of the candidate name -/

theorem classify_of_none (op : Operation) (s : AnalysisState) (target : String)
    (h : verdict (mapGet s.decls (op.resolved s target)) = none) :
    op.classify s target = op.unknown s := by
  rw [classify_eq_pick, h]
  rfl

theorem classify_of_single (op : Operation) (s : AnalysisState) (target : String)
    (d : Declaration) (h : mapGet s.decls (op.resolved s target) = some [d]) :
    op.classify s target = op.cell d.typeof s := by
  rw [classify_eq_pick, h]
  rfl

theorem verdict_of_two (vs : List Declaration) (h : 2 ≤ vs.length) : verdict (some vs) = none := by
  match vs, h with
  | _ :: _ :: _, _ => rfl

theorem candidateName_of_not_L (m : DeclMap) (target : String)
    (h : ¬ (targetPieces target > 1 ∧ splitTarget target = "L")) :
    candidateName m target = splitTarget target := by
  unfold candidateName
  simp only [targetPieces, splitTarget] at h ⊢
  rw [if_neg]
  exact fun hc => h ⟨hc.2.1, hc.2.2⟩

theorem candidateName_of_key (m : DeclMap) (target : String)
    (h : (mapGet m (splitTarget target)).isSome = true) :
    candidateName m target = splitTarget target := by
  unfold candidateName
  simp only [splitTarget] at h ⊢
  rw [if_neg]
  intro hc
  rw [Option.isNone_iff_eq_none.mp hc.1] at h
  exact absurd h (by simp)

theorem stringsSplitDot_append_L (y : String) :
    stringsSplitDot (y ++ "." ++ "L") = stringsSplitDot y ++ ["L"] := by
  have hdata : (y ++ "." ++ "L").data = y.data ++ '.' :: ['L'] := by
    simp [String.data_append]
  simp only [stringsSplitDot, hdata, splitChars_append_sep, List.map_append]
  rfl

theorem candidateName_retry (m : DeclMap) (target : String)
    (hp : targetPieces target > 1) (hl : splitTarget target = "L")
    (hL : mapGet m "L" = none) :
    candidateName m target = splitTarget (dropLastTwo target) := by
  obtain ⟨y, hy⟩ := ends_in_dot_L target hp hl
  have hd : dropLastTwo target = y := by rw [hy, dropLastTwo_append_L]
  unfold candidateName
  simp only [targetPieces, splitTarget] at hp hl ⊢
  rw [if_pos ⟨by rw [hl, hL]; rfl, hp, hl⟩, hd, hy, stringsSplitDot_append_L]
  simp

theorem lockTarget_cases (s : AnalysisState) (target : String) :
    lockTarget s target = splitTarget target ∨
    (targetPieces target > 1 ∧ splitTarget target = "L" ∧
      lockTarget s target = splitTarget (dropLastTwo target)) := by
  by_cases hc : (!(mapGet s.decls target).isSome && decide (targetPieces target > 1) &&
      decide (splitTarget target = "L")) = true
  · right
    have hl : lockTarget s target = splitTarget (dropLastTwo target) := by
      unfold lockTarget
      simp only [hc, if_true]
    simp only [Bool.and_eq_true, decide_eq_true_eq] at hc
    exact ⟨hc.1.2, hc.2, hl⟩
  · left
    unfold lockTarget
    simp only [hc]
    rfl


theorem resolved_cases (op : Operation) (s : AnalysisState) (target : String) :
    ((op = .Lock ∨ op = .Unlock) ∧ op.resolved s target = lockTarget s target) ∨
    (¬ (op = .Lock ∨ op = .Unlock) ∧ op.resolved s target = splitTarget target) := by
  cases op <;> simp [Operation.resolved]

theorem verdict_lastSegment (m : DeclMap) (target : String) (o : Option (List Declaration))
    (ho : verdict o = none) (h : mapGet m (candidateName m target) = o) :
    verdict (mapGet m (splitTarget target)) = none := by
  by_cases hk : (mapGet m (splitTarget target)).isSome = true
  · rw [← candidateName_of_key m target hk, h]
    exact ho
  · cases hm : mapGet m (splitTarget target) with
    | none => rfl
    | some v => rw [hm] at hk; exact absurd rfl hk

/-- C4.  For each of the eight operations, when the candidate name of the specification
has two or more declarations, the call leaves the table unchanged and increments the
unknown counter of the operation and no other counter; for `Lock` and `Unlock` this is
proved for the texts that do not end in a segment `L` after a dot and for those that do
when `L` is not a key.  The code at the failing input: with `L` declared as Mutex and as
Locker and `c` as Cond, the candidate name of `c.L` is `L`, which has two declarations,
yet `addLock` strips `.L`, looks up `c` and increments `condLock`, and so does the
analysis of the whole unit. -/
theorem ambiguous_name_is_unknown :
    (∀ (op : Operation) (s : AnalysisState) (target : String) (vs : List Declaration),
      ((op = .Lock ∨ op = .Unlock) → targetPieces target > 1 → splitTarget target = "L" →
        mapGet s.decls "L" = none) →
      mapGet s.decls (candidateName s.decls target) = some vs → 2 ≤ vs.length →
      op.classify s target = { decls := s.decls, counts := s.counts.tally op none }) ∧
    candidateName ambiguousLockerState.decls "c.L" = "L" ∧
    mapGet ambiguousLockerState.decls "L" = some [⟨"L", .Mutex⟩, ⟨"L", .Locker⟩] ∧
    ambiguousLockerState.addLock "c.L" =
      { decls := ambiguousLockerState.decls, counts := { condLock := 1 } } ∧
    ambiguousLockerState.addUnlock "c.L" =
      { decls := ambiguousLockerState.decls, counts := { condUnlock := 1 } } ∧
    (processFile printNode ambiguousLockerUnit).decls = ambiguousLockerState.decls ∧
    (processFile printNode ambiguousLockerUnit).counts =
      { condDecls := 1, mutexDecls := 1, lockerDecls := 1, condNew := 1, condLock := 1 } := by
  refine ⟨?_, by decide, by decide, by decide, by decide, by decide, by decide⟩
  intro op s target vs H hvs hlen
  have hv : verdict (some vs) = none := verdict_of_two vs hlen
  have hres : verdict (mapGet s.decls (op.resolved s target)) = none := by
    rcases resolved_cases op s target with ⟨hop, hr⟩ | ⟨_, hr⟩
    · rw [hr]
      rcases lockTarget_cases s target with hl | ⟨hp, hL, hl⟩
      · rw [hl]
        exact verdict_lastSegment _ _ _ hv hvs
      · rw [hl, ← candidateName_retry _ _ hp hL (H hop hp hL), hvs]
        exact hv
    · rw [hr]
      exact verdict_lastSegment _ _ _ hv hvs
  rw [classify_of_none op s target hres]
  cases op <;> rfl

/-- C4, at a concrete input: `m` declared both `Mutex` and `RWMutex`, then `m.Lock()`
increments `unknownLock` only. -/
theorem ambiguous_name_is_unknown_witness :
    ambiguousState.addLock "m" =
      { decls := ambiguousState.decls, counts := { unknownLock := 1 } } ∧
    (ambiguousState.addLock "m").counts.unknownLock = 1 ∧
    (ambiguousState.addLock "m").counts.mutexLock = 0 ∧
    (ambiguousState.addLock "m").counts.rwMutexLock = 0 :=
  ⟨(ambiguous_name_is_unknown.1 .Lock ambiguousState "m" [⟨"m", .Mutex⟩, ⟨"m", .RWMutex⟩]
    (fun _ hp => absurd hp (by decide)) (by decide) (by decide)).trans (by decide),
   by decide, by decide, by decide⟩

/-- C5.  When the candidate name of the specification has exactly one declaration `d`,
the call leaves the table unchanged and increments the counter of (operation, kind of `d`)
if the kind is compatible with the operation (Add, Done: WaitGroup; Signal, Broadcast:
Cond; Do: Once; Lock, Unlock: Cond, Mutex, RWMutex, Locker; Wait: WaitGroup, Cond) and the
unknown counter of the operation otherwise, and no other counter; this is proved wherever
the specification and the code decide alike on the removal of a trailing `.L`: for `Lock`
and `Unlock` on a text ending in a segment `L` after a dot when neither `L` nor the text is
a key, for the other operations on such a text when `L` is a key, and on every other text.
The code at the failing input: with `L` declared once as Mutex, the candidate name of
`b.L` is `L`, whose single declaration is compatible with `Lock`, yet `addLock` strips
`.L`, looks up `b` and increments `unknownLock` instead of `mutexLock`, and so does the
analysis of the whole unit. -/
theorem single_match_follows_table :
    (∀ (op : Operation) (s : AnalysisState) (target : String) (d : Declaration),
      ((op = .Lock ∨ op = .Unlock) → targetPieces target > 1 → splitTarget target = "L" →
        mapGet s.decls "L" = none ∧ mapGet s.decls target = none) →
      (¬ (op = .Lock ∨ op = .Unlock) → targetPieces target > 1 → splitTarget target = "L" →
        mapGet s.decls "L" ≠ none) →
      mapGet s.decls (candidateName s.decls target) = some [d] →
      op.classify s target =
        { decls := s.decls,
          counts := if op.compatible d.typeof = true then s.counts.tally op (some d.typeof)
                    else s.counts.tally op none }) ∧
    candidateName mutexFieldState.decls "b.L" = "L" ∧
    mapGet mutexFieldState.decls "L" = some [⟨"L", .Mutex⟩] ∧
    Operation.compatible .Lock .Mutex = true ∧
    mutexFieldState.addLock "b.L" =
      { decls := mutexFieldState.decls, counts := { unknownLock := 1 } } ∧
    mutexFieldState.addUnlock "b.L" =
      { decls := mutexFieldState.decls, counts := { unknownUnlock := 1 } } ∧
    (processFile printNode mutexFieldUnit).decls = mutexFieldState.decls ∧
    (processFile printNode mutexFieldUnit).counts =
      { mutexDecls := 1, unknownLock := 1, unknownUnlock := 1 } := by
  refine ⟨?_, by decide, by decide, by decide, by decide, by decide, by decide, by decide⟩
  intro op s target d H1 H2 hd
  have hres : mapGet s.decls (op.resolved s target) = some [d] := by
    rcases resolved_cases op s target with ⟨hop, hr⟩ | ⟨hop, hr⟩
    · rw [hr]
      by_cases hc : targetPieces target > 1 ∧ splitTarget target = "L"
      · obtain ⟨hL, ht⟩ := H1 hop hc.1 hc.2
        have hl : lockTarget s target = splitTarget (dropLastTwo target) := by
          simp [lockTarget, ht, hc.1, hc.2]
        rw [hl, ← candidateName_retry _ _ hc.1 hc.2 hL]
        exact hd
      · rw [lockTarget_of_not_strip s target hc, ← candidateName_of_not_L _ _ hc]
        exact hd
    · rw [hr]
      by_cases hc : targetPieces target > 1 ∧ splitTarget target = "L"
      · have hk : (mapGet s.decls (splitTarget target)).isSome = true := by
          rw [hc.2]
          cases hm : mapGet s.decls "L" with
          | none => exact absurd hm (H2 hop hc.1 hc.2)
          | some v => rfl
        rw [← candidateName_of_key _ _ hk]
        exact hd
      · rw [← candidateName_of_not_L _ _ hc]
        exact hd
  rw [classify_of_single op s target d hres]
  obtain ⟨n, k⟩ := d
  cases op <;> cases k <;> rfl

/-- C5, at concrete inputs: `rw.Lock()` with `rw` an RWMutex increments `rwMutexLock`,
`mu.Do()` with `mu` a Mutex increments `unknownDo`, and `s.c.L.Unlock()` with `c` a Cond
increments `condUnlock`. -/
theorem single_match_follows_table_witness :
    sixKindsState.addLock "rw" =
      { decls := sixKindsState.decls, counts := { rwMutexLock := 1 } } ∧
    sixKindsState.addDo "mu" =
      { decls := sixKindsState.decls, counts := { unknownDo := 1 } } ∧
    sixKindsState.addUnlock "s.c.L" =
      { decls := sixKindsState.decls, counts := { condUnlock := 1 } } ∧
    (sixKindsState.addLock "rw").counts.rwMutexLock = 1 ∧
    (sixKindsState.addDo "mu").counts.unknownDo = 1 ∧
    (sixKindsState.addUnlock "s.c.L").counts.condUnlock = 1 :=
  ⟨(single_match_follows_table.1 .Lock sixKindsState "rw" ⟨"rw", .RWMutex⟩
      (fun _ hp => absurd hp (by decide)) (fun _ hp => absurd hp (by decide))
      (by decide)).trans (by decide),
   (single_match_follows_table.1 .Do sixKindsState "mu" ⟨"mu", .Mutex⟩
      (fun _ hp => absurd hp (by decide)) (fun _ hp => absurd hp (by decide))
      (by decide)).trans (by decide),
   (single_match_follows_table.1 .Unlock sixKindsState "s.c.L" ⟨"c", .Cond⟩
      (fun _ _ _ => ⟨by decide, by decide⟩) (fun h => absurd (Or.inr rfl) h)
      (by decide)).trans (by decide),
   by decide, by decide, by decide⟩

/-- C6.  `addWait` looks up the last dotted segment of the receiver text and leaves the
table unchanged: a single declaration of kind WaitGroup increments `waitGroupWait`, a
single declaration of kind Cond increments `condWait`, a name that is not a key
increments `unknownWait`, and so does a single declaration of any other kind; no other
counter changes. -/
theorem addWait_by_kind (s : AnalysisState) (target : String) :
    (∀ d, mapGet s.decls (splitTarget target) = some [d] → d.typeof = .WaitGroup →
      s.addWait target =
        { decls := s.decls,
          counts := { s.counts with waitGroupWait := s.counts.waitGroupWait + 1 } }) ∧
    (∀ d, mapGet s.decls (splitTarget target) = some [d] → d.typeof = .Cond →
      s.addWait target =
        { decls := s.decls, counts := { s.counts with condWait := s.counts.condWait + 1 } }) ∧
    (mapGet s.decls (splitTarget target) = none →
      s.addWait target =
        { decls := s.decls,
          counts := { s.counts with unknownWait := s.counts.unknownWait + 1 } }) ∧
    (∀ d, mapGet s.decls (splitTarget target) = some [d] → d.typeof ≠ .WaitGroup →
      d.typeof ≠ .Cond →
      s.addWait target =
        { decls := s.decls,
          counts := { s.counts with unknownWait := s.counts.unknownWait + 1 } }) := by
  refine ⟨?_, ?_, ?_, ?_⟩
  · intro d h hk
    simp [AnalysisState.addWait, h, hk, AnalysisState.addWaitGroupWait]
  · intro d h hk
    simp [AnalysisState.addWait, h, hk, AnalysisState.addCondWait]
  · intro h
    simp [AnalysisState.addWait, h, AnalysisState.addUnknownWait]
  · intro d h h1 h2
    simp [AnalysisState.addWait, h, h1, h2, AnalysisState.addUnknownWait]

/-- C6, at concrete inputs: `wg.Wait()`, `x.c.Wait()`, `zz.Wait()` and `mu.Wait()`. -/
theorem addWait_by_kind_witness :
    sixKindsState.addWait "wg" =
      { decls := sixKindsState.decls, counts := { waitGroupWait := 1 } } ∧
    sixKindsState.addWait "x.c" =
      { decls := sixKindsState.decls, counts := { condWait := 1 } } ∧
    sixKindsState.addWait "zz" =
      { decls := sixKindsState.decls, counts := { unknownWait := 1 } } ∧
    sixKindsState.addWait "mu" =
      { decls := sixKindsState.decls, counts := { unknownWait := 1 } } ∧
    (sixKindsState.addWait "wg").counts.waitGroupWait = 1 ∧
    (sixKindsState.addWait "x.c").counts.condWait = 1 ∧
    (sixKindsState.addWait "zz").counts.unknownWait = 1 ∧
    (sixKindsState.addWait "mu").counts.unknownWait = 1 :=
  ⟨(addWait_by_kind sixKindsState "wg").1 ⟨"wg", .WaitGroup⟩ (by decide) rfl,
   (addWait_by_kind sixKindsState "x.c").2.1 ⟨"c", .Cond⟩ (by decide) rfl,
   (addWait_by_kind sixKindsState "zz").2.2.1 (by decide),
   (addWait_by_kind sixKindsState "mu").2.2.2 ⟨"mu", .Mutex⟩ (by decide) (by decide)
     (by decide),
   by decide, by decide, by decide, by decide⟩

/-- C7.  Zero matches: for each of the eight operations, when the candidate name of the
specification is not a key of the table, the call leaves the table unchanged and
increments the unknown counter of the operation and no other counter; for the six
operations other than `Lock` and `Unlock` the same holds when the last dotted segment of
the text is not a key. -/
theorem unmatched_name_is_unknown (op : Operation) (s : AnalysisState) (target : String) :
    (mapGet s.decls (candidateName s.decls target) = none →
      op.classify s target = { decls := s.decls, counts := s.counts.tally op none }) ∧
    (op ≠ .Lock → op ≠ .Unlock → mapGet s.decls (splitTarget target) = none →
      op.classify s target = { decls := s.decls, counts := s.counts.tally op none }) := by
  have hu : op.unknown s = { decls := s.decls, counts := s.counts.tally op none } := by
    cases op <;> rfl
  constructor
  · intro hnone
    have hres : verdict (mapGet s.decls (op.resolved s target)) = none := by
      rcases resolved_cases op s target with ⟨_, hr⟩ | ⟨_, hr⟩
      · rw [hr]
        rcases lockTarget_cases s target with hl | ⟨hp, hL, hl⟩
        · rw [hl]
          exact verdict_lastSegment _ _ none rfl hnone
        · rw [hl]
          cases hm : mapGet s.decls "L" with
          | none =>
            rw [← candidateName_retry _ _ hp hL hm, hnone]
            rfl
          | some v =>
            have hk : (mapGet s.decls (splitTarget target)).isSome = true := by
              rw [hL, hm]; rfl
            rw [candidateName_of_key _ _ hk, hL, hm] at hnone
            exact absurd hnone (by simp)
      · rw [hr]
        exact verdict_lastSegment _ _ none rfl hnone
    rw [classify_of_none op s target hres, hu]
  · intro h1 h2 hnone
    have hres : verdict (mapGet s.decls (op.resolved s target)) = none := by
      rcases resolved_cases op s target with ⟨hop, _⟩ | ⟨_, hr⟩
      · rcases hop with h | h
        · exact absurd h h1
        · exact absurd h h2
      · rw [hr, hnone]
        rfl
    rw [classify_of_none op s target hres, hu]

/-- C7, at concrete inputs: `zz.Done()` and `zz.L.Lock()` with `zz` and `L` undeclared. -/
theorem unmatched_name_is_unknown_witness :
    sixKindsState.addDone "zz" =
      { decls := sixKindsState.decls, counts := { unknownDone := 1 } } ∧
    sixKindsState.addLock "zz.L" =
      { decls := sixKindsState.decls, counts := { unknownLock := 1 } } ∧
    sixKindsState.addSignal "zz" =
      { decls := sixKindsState.decls, counts := { unknownSignal := 1 } } ∧
    (sixKindsState.addDone "zz").counts.unknownDone = 1 ∧
    (sixKindsState.addLock "zz.L").counts.unknownLock = 1 ∧
    (sixKindsState.addSignal "zz").counts.unknownSignal = 1 :=
  ⟨((unmatched_name_is_unknown .Done sixKindsState "zz").1 (by decide)).trans (by decide),
   ((unmatched_name_is_unknown .Lock sixKindsState "zz.L").1 (by decide)).trans (by decide),
   ((unmatched_name_is_unknown .Signal sixKindsState "zz").2 (by decide) (by decide)
      (by decide)).trans (by decide),
   by decide, by decide, by decide⟩

/-- C8.  In a table whose keys are identifiers, when `x` has exactly one declaration and
its kind is Cond, a receiver text that ends in the segments `x.L` (`x.L` itself, or
`pre.x.L`) makes `addLock` increment `condLock` and `addUnlock` increment `condUnlock`,
each by one; the table and every other counter, the unknown counters among them, stay as
they were. -/
theorem cond_locker_field_is_cond (s : AnalysisState) (hkeys : DotFreeKeys s.decls)
    (x : String) (d : Declaration) (hx : mapGet s.decls x = some [d])
    (hd : d.typeof = .Cond) (target : String)
    (ht : target = x ++ "." ++ "L" ∨ ∃ pre : String, target = pre ++ "." ++ x ++ "." ++ "L") :
    s.addLock target =
      { decls := s.decls, counts := { s.counts with condLock := s.counts.condLock + 1 } } ∧
    s.addUnlock target =
      { decls := s.decls,
        counts := { s.counts with condUnlock := s.counts.condUnlock + 1 } } ∧
    (s.addLock target).counts.condLock = s.counts.condLock + 1 ∧
    (s.addUnlock target).counts.condUnlock = s.counts.condUnlock + 1 ∧
    (s.addLock target).counts.unknownLock = s.counts.unknownLock ∧
    (s.addUnlock target).counts.unknownUnlock = s.counts.unknownUnlock := by
  have hxfree : '.' ∉ x.data := hkeys _ (mapGet_mem _ _ _ hx)
  have hres : lockTarget s target = x := by
    rcases ht with rfl | ⟨pre, rfl⟩
    · rw [lockTarget_locker_field s hkeys, splitTarget_of_dotFree x hxfree]
    · rw [lockTarget_locker_field s hkeys, splitTarget_append_dot,
        splitTarget_of_dotFree x hxfree]
  have hl : s.addLock target =
      { decls := s.decls, counts := { s.counts with condLock := s.counts.condLock + 1 } } := by
    simp [AnalysisState.addLock, hres, hx, hd, AnalysisState.addCondLock]
  have hu : s.addUnlock target =
      { decls := s.decls,
        counts := { s.counts with condUnlock := s.counts.condUnlock + 1 } } := by
    simp [AnalysisState.addUnlock, hres, hx, hd, AnalysisState.addCondUnlock]
  refine ⟨hl, hu, ?_, ?_, ?_, ?_⟩
  · rw [hl]
  · rw [hu]
  · rw [hl]
  · rw [hu]

/-- C8, at a concrete input: the receiver `s.c.L` with `c` declared once as Cond. -/
theorem cond_locker_field_is_cond_witness :
    sixKindsState.addLock "s.c.L" =
      { decls := sixKindsState.decls, counts := { condLock := 1 } } ∧
    sixKindsState.addUnlock "s.c.L" =
      { decls := sixKindsState.decls, counts := { condUnlock := 1 } } ∧
    (sixKindsState.addLock "s.c.L").counts.condLock = 1 ∧
    (sixKindsState.addUnlock "s.c.L").counts.condUnlock = 1 ∧
    (sixKindsState.addLock "c.L").counts = { condLock := 1 } :=
  ⟨(cond_locker_field_is_cond sixKindsState (by decide) "c" ⟨"c", .Cond⟩ (by decide) rfl
    "s.c.L" (Or.inr ⟨"s", by decide⟩)).1,
   (cond_locker_field_is_cond sixKindsState (by decide) "c" ⟨"c", .Cond⟩ (by decide) rfl
    "s.c.L" (Or.inr ⟨"s", by decide⟩)).2.1,
   by decide, by decide, by decide⟩

/-! ## Declaration counters and name encounters -/

theorem length_specDecls (tn : String) (k : DeclType) (spec : Node) :
    (specDecls tn k spec).length = (specNames tn spec).length := by
  cases spec with
  | ValueSpec names type values =>
    cases type with
    | none => rfl
    | some t =>
      cases t with
      | SelectorExpr x sel =>
        cases x with
        | Ident tsel =>
          by_cases h : tsel = "sync" ∧ sel = tn
          · simp [specDecls, specNames, isSyncType, h]
          · simp [specDecls, specNames, isSyncType, h]
        | _ => rfl
      | _ => rfl
  | _ => rfl

theorem length_fieldKindDecls (tn : String) (k : DeclType) (names : List String)
    (type : Option Node) :
    (fieldKindDecls tn k names type).length = (declaredNames tn (.Field names type)).length := by
  cases type with
  | none => rfl
  | some t =>
    cases t with
    | SelectorExpr x sel =>
      cases x with
      | Ident tsel =>
        by_cases h : tsel = "sync" ∧ sel = tn
        · simp [fieldKindDecls, getFieldType, declaredNames, pointee, isSyncType, h]
        · simp [fieldKindDecls, getFieldType, declaredNames, pointee, isSyncType, h]
      | _ => rfl
    | StarExpr y =>
      cases y with
      | SelectorExpr x sel =>
        cases x with
        | Ident tsel =>
          by_cases h : tsel = "sync" ∧ sel = tn
          · simp [fieldKindDecls, getFieldType, declaredNames, pointee, isSyncType, h]
          · simp [fieldKindDecls, getFieldType, declaredNames, pointee, isSyncType, h]
        | _ => rfl
      | _ => rfl
    | _ => rfl

theorem countKind_of_kind (k k1 : DeclType) (l : List Declaration)
    (h : ∀ d ∈ l, d.typeof = k1) :
    (l.filter (fun d => decide (d.typeof = k))).length = if k1 = k then l.length else 0 := by
  split_ifs with hk
  · rw [List.filter_eq_self.mpr]
    intro d hd
    simp [h d hd, hk]
  · rw [List.filter_eq_nil_iff.mpr]
    · rfl
    · intro d hd
      simp [h d hd, hk]

theorem flatMap_specDecls_kind (tn : String) (k : DeclType) (specs : List Node) :
    ∀ d ∈ specs.flatMap (specDecls tn k), d.typeof = k := by
  intro d hd
  obtain ⟨sp, _, h⟩ := List.mem_flatMap.mp hd
  exact specDecls_kind tn k sp d h

theorem length_flatMap_congr {α β γ : Type} (f : α → List β) (g : α → List γ)
    (h : ∀ a, (f a).length = (g a).length) (l : List α) :
    (l.flatMap f).length = (l.flatMap g).length := by
  induction l with
  | nil => rfl
  | cons a l ih => simp [List.flatMap_cons, h a, ih]

theorem countKind_genDecl (k : DeclType) (hk : k ∈ [DeclType.WaitGroup, .Mutex, .RWMutex, .Once])
    (specs : List Node) :
    ((genDeclDecls specs).filter (fun d => decide (d.typeof = k))).length =
      (specs.flatMap (specNames k.typeName)).length := by
  simp only [List.mem_cons, List.mem_singleton, List.not_mem_nil, or_false] at hk
  cases specs with
  | nil => simp [genDeclDecls]
  | cons sp rest =>
    simp only [genDeclDecls, List.filter_append, List.length_append,
      countKind_of_kind k _ _ (flatMap_specDecls_kind _ _ (sp :: rest)),
      countKind_of_kind k _ _ (specDecls_kind "Locker" .Locker sp)]
    rcases hk with rfl | rfl | rfl | rfl <;>
      simp [DeclType.typeName, length_flatMap_congr _ _ (length_specDecls _ _),
        length_specDecls]

theorem countKind_field (k : DeclType) (hk : k ∈ [DeclType.WaitGroup, .Mutex, .RWMutex, .Once])
    (names : List String) (type : Option Node) :
    ((fieldDecls names type).filter (fun d => decide (d.typeof = k))).length =
      (declaredNames k.typeName (.Field names type)).length := by
  simp only [fieldDecls, List.filter_append, List.length_append,
    countKind_of_kind k _ _ (fieldKindDecls_kind _ _ names type)]
  simp only [List.mem_cons, List.mem_singleton, List.not_mem_nil, or_false] at hk
  rcases hk with rfl | rfl | rfl | rfl <;>
    simp [DeclType.typeName, length_fieldKindDecls]

theorem countKind_node (k : DeclType) (hk : k ∈ [DeclType.WaitGroup, .Mutex, .RWMutex, .Once])
    (n : Node) :
    ((declsOf n).filter (fun d => decide (d.typeof = k))).length =
      (declaredNames k.typeName n ++ (if k = .Cond then newCondNames n else [])).length := by
  have hc : k ≠ .Cond := by
    intro h; subst h; simp at hk
  rw [if_neg hc, List.append_nil]
  cases n with
  | GenDecl specs => exact countKind_genDecl k hk specs
  | Field names type => exact countKind_field k hk names type
  | AssignStmt lhs rhs =>
    have hall : ∀ d ∈ declsOf (.AssignStmt lhs rhs), d.typeof = .Cond := by
      intro d hd
      obtain ⟨r, _, h⟩ := List.mem_flatMap.mp hd
      exact assignRhsDecls_kind lhs r d h
    rw [countKind_of_kind k _ _ hall, if_neg (fun h => hc h.symm)]
    rfl
  | _ => rfl

theorem recorded_eq_encounters (k : DeclType)
    (hk : k ∈ [DeclType.WaitGroup, .Mutex, .RWMutex, .Once]) (file : Node) :
    recordedOfKind file k = encounters file k := by
  unfold recordedOfKind encounters
  generalize preorder file = nodes
  induction nodes with
  | nil => rfl
  | cons n l ih =>
    simp only [List.flatMap_cons, List.filter_append, List.length_append, ih,
      countKind_node k hk n]

/-- C23.  For the kinds WaitGroup, Mutex, RWMutex and Once, after the declaration walk and
after the whole analysis of any tree the declaration counter equals the number of
matching name encounters of the kind (one per name per matching declaration node,
duplicates included); for each of the six kinds the counter is at least the number of
declarations of the kind held in the table.  The code at the failing input: the grouped
declaration `var ( a sync.Mutex; b sync.Locker )` has one encounter of kind Locker, the
name `b`, yet `lockerDecls` is 0 after the walk, whereas with the Locker spec first it
is 1. -/
theorem decl_counter_eq_encounters :
    (∀ (fprint : Node → String) (file : Node) (k : DeclType),
      k ∈ [DeclType.WaitGroup, .Mutex, .RWMutex, .Once] →
      (Walk ⟨fprint, true, {}⟩ file).state.counts.declCount k = encounters file k ∧
      (processFile fprint file).counts.declCount k = encounters file k) ∧
    (∀ (fprint : Node → String) (file : Node) (k : DeclType), k ∈ sixKinds →
      heldOfKind (Walk ⟨fprint, true, {}⟩ file).state.decls k ≤
        (Walk ⟨fprint, true, {}⟩ file).state.counts.declCount k ∧
      heldOfKind (processFile fprint file).decls k ≤
        (processFile fprint file).counts.declCount k) ∧
    encounters groupedVarUnit .Locker = 1 ∧
    (Walk ⟨printNode, true, {}⟩ groupedVarUnit).state.counts.lockerDecls = 0 ∧
    (processFile printNode groupedVarUnit).counts.lockerDecls = 0 ∧
    encounters lockerFirstUnit .Locker = 1 ∧
    (processFile printNode lockerFirstUnit).counts.lockerDecls = 1 := by
  refine ⟨fun fprint file k hk => ?_, fun fprint file k hk => ?_, by decide, by decide,
    by decide, by decide, by decide⟩
  · have hu : k ≠ .Unknown := by
      intro h; subst h; simp at hk
    have h := decl_counter_eq_recorded fprint file k hu
    rw [← recorded_eq_encounters k hk file]
    exact ⟨h.1, h.2.2.1⟩
  · have hu : k ≠ .Unknown := by
      intro h; subst h; simp [sixKinds] at hk
    have h := decl_counter_eq_recorded fprint file k hu
    exact ⟨h.2.1, h.2.2.2⟩

/-- C23, at a concrete input: `var wg sync.WaitGroup` in two functions gives two
encounters, the counter 2 and one declaration held. -/
theorem decl_counter_eq_encounters_witness :
    (processFile printNode twiceDeclaredUnit).counts.waitGroupDecls = 2 ∧
    encounters twiceDeclaredUnit .WaitGroup = 2 ∧
    heldOfKind (processFile printNode twiceDeclaredUnit).decls .WaitGroup = 1 ∧
    heldOfKind (processFile printNode twiceDeclaredUnit).decls .WaitGroup ≤
      (processFile printNode twiceDeclaredUnit).counts.declCount .WaitGroup :=
  ⟨(decl_counter_eq_encounters.1 printNode twiceDeclaredUnit .WaitGroup (by decide)).2.trans
      (by decide),
   by decide, by decide,
   (decl_counter_eq_encounters.2.1 printNode twiceDeclaredUnit .WaitGroup (by decide)).2⟩

end AstSearch
